import Mathlib

/-!
# Spreadsheet engine: cells, sheet and dependency graph

A shallow embedding of `cell.cpp`, `sheet.cpp`, `sheet.h` and `formula.cpp`.

* A `Cell*` is modelled by the `Position` of the map entry that owns the cell.  A map
  entry is created at most once per position and is never erased, so a position
  identifies at most one `Cell` object during the life of a sheet.  A pointer to a cell
  whose `unique_ptr` has been reset is a dangling pointer; dereferencing it, or
  dereferencing the null `unique_ptr` itself, is undefined behaviour and is reported as
  `Outcome.undefined`.
* The address the allocator gives a cell is not part of a sheet.  A dangling pointer
  that stays in an edge set is kept as the position of the destroyed cell; in the
  running program its value can be the address of a cell created later, when the
  allocator reuses the block.  Which cell a member of an edge set points to is
  therefore stated for an assignment of addresses (`Sheet.pointedAt`, `Sheet.outEdge`,
  `Sheet.inEdge`); as long as every member of the edge sets is a cell of the sheet, as
  in every run of `SetCell` calls, the two readings agree (`outEdge_iff`, `inEdge_iff`).
* `std::unordered_set<Cell*>` is a duplicate-free list of positions,
  `std::unordered_map<Position, std::unique_ptr<Cell>>` an association list.
* The parts of the program that are not in these four files (`common.h`,
  `FormulaAST.h`, the type `double`) are the fields of a `Host`; the properties hold for
  every host, and the concrete scenarios run on the host `sumHost`.
* Recursion and loops carry fuel; the fuel each entry point passes is shown to suffice
  wherever a property says that the code returns.
-/

namespace Spreadsheet

/-! ## Data model -/

/-- Grid coordinate `Position { int row; int col; }`. -/
structure Position where
  row : Int
  col : Int
deriving DecidableEq, Repr

/-- Printable size `Size { int rows; int cols; }`. -/
structure Size where
  rows : Int
  cols : Int
deriving DecidableEq, Repr

/-- The three categories of `FormulaError::Category`. -/
inductive FormulaError where
  | Ref
  | Value
  | Arithmetic
deriving DecidableEq, Repr

/-- `FormulaInterface::Value = std::variant<double, FormulaError>`. -/
inductive FormulaValue (Num : Type) where
  | number (x : Num)
  | error (e : FormulaError)
deriving DecidableEq, Repr

/-- `CellInterface::Value = std::variant<std::string, double, FormulaError>`. -/
inductive Value (Num : Type) where
  | str (s : String)
  | number (x : Num)
  | error (e : FormulaError)
deriving DecidableEq, Repr

/-- Modelled from the spec: `FormulaAST::Execute(args)` (FormulaAST.h is absent). The
evaluator is a deterministic computation that either finishes with a number or a raised
`FormulaError`, or asks `args` for the operand at a position and continues with the
number it gets; an error raised by `args` unwinds the whole evaluation (§4.2, §7). -/
inductive Exec (Num : Type) where
  | done (r : FormulaValue Num)
  | ask (p : Position) (k : Num → Exec Num)

/-- What the four source files take from the rest of the program: the constants of
`common.h`, the operations of `FormulaAST`, and what they use of `double`. -/
structure Host (Num Ast : Type) where
  MAX_ROWS : Int
  MAX_COLS : Int
  FORMULA_SIGN : Char
  ESCAPE_SIGN : Char
  /-- The literal `0.0`. -/
  zero : Num
  /-- The extraction `iss >> result` of a `double` from a new `std::istringstream` over
  the string: `none` when the extraction fails, otherwise the number read and how many
  characters of the string it consumed, skipped white space included. -/
  extractDouble : String → Option (Num × Nat)
  /-- The function `ParseFormulaAST`; `Except.error d` is a parser exception with
  diagnostic `d`. -/
  ParseFormulaAST : String → Except String Ast
  /-- The accessor `FormulaAST::GetCells`. -/
  GetCells : Ast → List Position
  /-- The evaluator `FormulaAST::Execute`. -/
  Execute : Ast → Exec Num
  /-- The printer `FormulaAST::PrintFormula`, as the string it writes. -/
  PrintFormula : Ast → String

/-- Exceptions thrown by the engine. -/
inductive Exn where
  | InvalidPositionException
  | FormulaException (what : String)
  | CircularDependencyException
  | logic_error
deriving DecidableEq, Repr

/-- Undefined behaviour: a null or dangling `Cell*` is dereferenced, or a recursion does
not end. -/
inductive Fault where
  | nullDereference
  | danglingPointer
  | fuelExhausted
deriving DecidableEq, Repr

/-- How a `const` member function can fail. -/
inductive Abort where
  | threw (e : Exn)
  | undefined (f : Fault)
deriving DecidableEq, Repr

/-- Result of a member function that may change the sheet: normal return with value `a`,
an exception that leaves the sheet in state `s`, or undefined behaviour. -/
inductive Outcome (σ α : Type) where
  | ok (a : α) (s : σ)
  | threw (e : Exn) (s : σ)
  | undefined (f : Fault)
deriving DecidableEq, Repr

/-- Sequencing of two steps; an exception or a fault of the first ends the run. -/
def Outcome.bind {σ α β : Type} (x : Outcome σ α) (f : α → σ → Outcome σ β) :
    Outcome σ β :=
  match x with
  | .ok a s => f a s
  | .threw e s => .threw e s
  | .undefined u => .undefined u

/-- The content variant `Cell::Impl` with its three subclasses. -/
inductive Impl (Num Ast : Type) where
  | EmptyImpl
  | TextImpl (text_ : String)
  | FormulaImpl (formula_ptr_ : Ast) (cache_ : Option (FormulaValue Num))
deriving DecidableEq, Repr

/-- A `Cell`: its content, `l_nodes_` (the cells that reference it) and `r_nodes_` (the
cells it references). -/
structure Cell (Num Ast : Type) where
  impl_ : Impl Num Ast
  l_nodes_ : List Position
  r_nodes_ : List Position
deriving DecidableEq, Repr

/-- A `Sheet`: the map `table_`; an entry `(pos, none)` is a null `unique_ptr`. -/
structure Sheet (Num Ast : Type) where
  table_ : List (Position × Option (Cell Num Ast))
deriving DecidableEq, Repr

section Engine

variable {Num Ast : Type}

/-! ## The map -/

/-- The lookup `table_.find(pos)`: `none` is `table_.end()`. -/
def Table.find : List (Position × Option (Cell Num Ast)) → Position →
    Option (Option (Cell Num Ast))
  | [], _ => none
  | (k, v) :: rest, pos => if k = pos then some v else Table.find rest pos

/-- The sheet right after construction. -/
def Sheet.empty : Sheet Num Ast := ⟨[]⟩

/-- The live cell a pointer to position `pos` points to, if there is one. -/
def Sheet.cellAt (s : Sheet Num Ast) (pos : Position) : Option (Cell Num Ast) :=
  match Table.find s.table_ pos with
  | some (some c) => some c
  | _ => none

/-- Assignment through a `Cell*`: the cell owned by the entry at `pos` becomes `f` of
itself. -/
def Sheet.modify (s : Sheet Num Ast) (pos : Position) (f : Cell Num Ast → Cell Num Ast) :
    Sheet Num Ast :=
  ⟨s.table_.map fun e => if e.1 = pos then (e.1, e.2.map f) else e⟩

/-- The call `it->second.reset()` on the entry at `pos`. -/
def Sheet.reset (s : Sheet Num Ast) (pos : Position) : Sheet Num Ast :=
  ⟨s.table_.map fun e => if e.1 = pos then (e.1, none) else e⟩

/-- The constructor `Cell::Cell(Sheet&)`: empty content, no edges. -/
def Cell.new : Cell Num Ast := ⟨.EmptyImpl, [], []⟩

/-- The call `table_.emplace(pos, std::make_unique<Cell>(*this))`. The new cell is
named by its position; the address `make_unique` returns, which can be the address of a
cell destroyed before, is the subject of `Sheet.pointedAt`. -/
def Sheet.emplace (s : Sheet Num Ast) (pos : Position) : Sheet Num Ast :=
  ⟨(pos, some Cell.new) :: s.table_⟩

/-- The call `set.insert(p)` on an `unordered_set`. -/
def setInsert (p : Position) (l : List Position) : List Position :=
  if p ∈ l then l else p :: l

/-- The call `set.erase(p)` on an `unordered_set`. -/
def setErase (p : Position) (l : List Position) : List Position :=
  l.filter fun q => q ≠ p

/-- The call `text.substr(1)`. -/
def substr1 (text : String) : String := ⟨text.data.tail⟩

/-! ## Position and formula -/

/-- Modelled from the spec: `Position::IsValid` (common.h is absent): both coordinates
are non-negative and below the maxima. -/
def Position.IsValid (H : Host Num Ast) (p : Position) : Bool :=
  decide (0 ≤ p.row) && decide (0 ≤ p.col) && decide (p.row < H.MAX_ROWS) &&
    decide (p.col < H.MAX_COLS)

/-- The algorithm `std::unique` followed by `erase`: of every run of equal adjacent
elements only the first is kept. -/
def unique : List Position → List Position
  | [] => []
  | [a] => [a]
  | a :: b :: rest => if a = b then unique (b :: rest) else a :: unique (b :: rest)

/-- `Formula::GetReferencedCells`. -/
def Formula.GetReferencedCells (H : Host Num Ast) (ast : Ast) : List Position :=
  unique ((H.GetCells ast).filter fun cell => cell.IsValid H)

/-- The constructor `Formula::Formula`: a parser exception `e` is rethrown as
`FormulaException(e.what())`. -/
def Formula.new (H : Host Num Ast) (expression : String) : Except Exn Ast :=
  match H.ParseFormulaAST expression with
  | .ok ast => .ok ast
  | .error d => .error (.FormulaException d)

/-- `ParseFormula`: whatever the constructor throws is replaced by
`FormulaException("")`. -/
def ParseFormula (H : Host Num Ast) (expression : String) : Except Exn Ast :=
  match Formula.new H expression with
  | .ok ast => .ok ast
  | .error _ => .error (.FormulaException "")

/-! ## Cell content -/

/-- The constructor `TextImpl::TextImpl`. -/
def TextImpl.new (text : String) : Except Exn (Impl Num Ast) :=
  match text.data with
  | [] => .error .logic_error
  | _ :: _ => .ok (.TextImpl text)

/-- The constructor `FormulaImpl::FormulaImpl`; the cache starts empty. -/
def FormulaImpl.new (H : Host Num Ast) (expression : String) : Except Exn (Impl Num Ast) :=
  match expression.data with
  | [] => .error .logic_error
  | c :: _ =>
    if c ≠ H.FORMULA_SIGN then .error .logic_error
    else
      match ParseFormula H (substr1 expression) with
      | .ok ast => .ok (.FormulaImpl ast none)
      | .error e => .error e

/-- The first statement of `Cell::Set`: the new content chosen by the text. -/
def Cell.makeImpl (H : Host Num Ast) (text : String) : Except Exn (Impl Num Ast) :=
  match text.data with
  | [] => .ok .EmptyImpl
  | c :: _ => if c = H.FORMULA_SIGN then FormulaImpl.new H text else TextImpl.new text

/-- `Impl::GetText`. -/
def Impl.GetText (H : Host Num Ast) : Impl Num Ast → String
  | .EmptyImpl => ""
  | .TextImpl text_ => text_
  | .FormulaImpl formula_ptr_ _ => ⟨H.FORMULA_SIGN :: (H.PrintFormula formula_ptr_).data⟩

/-- `Impl::GetReferencedCells`. -/
def Impl.GetReferencedCells (H : Host Num Ast) : Impl Num Ast → List Position
  | .FormulaImpl formula_ptr_ _ => Formula.GetReferencedCells H formula_ptr_
  | _ => []

/-- `Impl::IsCacheValid`. -/
def Impl.IsCacheValid : Impl Num Ast → Bool
  | .FormulaImpl _ cache_ => cache_.isSome
  | _ => true

/-- `Impl::InvalidateCache`. -/
def Impl.InvalidateCache : Impl Num Ast → Impl Num Ast
  | .FormulaImpl formula_ptr_ _ => .FormulaImpl formula_ptr_ none
  | i => i

/-- The cached result of a content, if it has one. -/
def Impl.cache : Impl Num Ast → Option (FormulaValue Num)
  | .FormulaImpl _ cache_ => cache_
  | _ => none

/-- The widening of a formula result to a cell value at the end of
`FormulaImpl::GetValue`. -/
def FormulaValue.toValue : FormulaValue Num → Value Num
  | .number x => .number x
  | .error e => .error e

/-! ## Sheet lookups -/

/-- `Sheet::GetCellData`: the cell at `pos`; `none` is the null pointer. -/
def Sheet.GetCellData (H : Host Num Ast) (s : Sheet Num Ast) (pos : Position) :
    Except Exn (Option (Cell Num Ast)) :=
  if pos.IsValid H then .ok (s.cellAt pos) else .error .InvalidPositionException

/-- `Sheet::GetCell`. -/
def Sheet.GetCell (H : Host Num Ast) (s : Sheet Num Ast) (pos : Position) :
    Except Exn (Option (Cell Num Ast)) :=
  s.GetCellData H pos

/-- `Cell::IsReferenced`. -/
def Cell.IsReferenced (c : Cell Num Ast) : Bool := !c.l_nodes_.isEmpty

/-! ## Cycle check -/

/-- The first loop of `Cell::IsCircularDependent`: the set `referenced` of the pointers
`sheet_.GetCellData(pos)`; `none` is the null pointer. -/
def referencedSet (H : Host Num Ast) (s : Sheet Num Ast) :
    List Position → Except Exn (List (Option Position))
  | [] => .ok []
  | pos :: rest =>
    match s.GetCellData H pos with
    | .error e => .error e
    | .ok cell =>
      match referencedSet H s rest with
      | .error e => .error e
      | .ok referenced => .ok ((if cell.isSome then some pos else none) :: referenced)

/-- The `while` loop of `Cell::IsCircularDependent`. `to_visit` is the stack with its
top first; each iteration uses one unit of fuel. The test `if (parent)` is always true,
since only `this` is ever inserted into an `l_nodes_`. -/
def IsCircularDependent.loop (s : Sheet Num Ast) (referenced : List (Option Position)) :
    Nat → List Position → List Position → Except Abort Bool
  | 0, _, _ => .error (.undefined .fuelExhausted)
  | _ + 1, _, [] => .ok false
  | fuel + 1, visited, current :: to_visit =>
    if current ∈ visited then IsCircularDependent.loop s referenced fuel visited to_visit
    else if some current ∈ referenced then .ok true
    else
      match s.cellAt current with
      | none => .error (.undefined .danglingPointer)
      | some c =>
        IsCircularDependent.loop s referenced fuel (current :: visited)
          (c.l_nodes_.reverse ++ to_visit)

/-- A number of iterations the loop of `IsCircularDependent` cannot exceed: every cell
is expanded at most once and pushes one stack entry per member of its `l_nodes_`. -/
def Sheet.edgeBudget (s : Sheet Num Ast) : Nat :=
  (s.table_.map fun e =>
    match e.2 with
    | some c => c.l_nodes_.length + 1
    | none => 0).sum + 2

/-- `Cell::IsCircularDependent` for the cell at `self` and the candidate content
`new_impl`. -/
def Cell.IsCircularDependent (H : Host Num Ast) (s : Sheet Num Ast) (self : Position)
    (new_impl : Impl Num Ast) : Except Abort Bool :=
  match new_impl.GetReferencedCells H with
  | [] => .ok false
  | pos :: rest =>
    match referencedSet H s (pos :: rest) with
    | .error e => .error (.threw e)
    | .ok referenced => IsCircularDependent.loop s referenced s.edgeBudget [] [self]

/-! ## Cache invalidation -/

/-- The body of the `for` loop of `Cell::InvalidateCacheRecursive`, run over the
members of `l_nodes_` with `call` as the recursive call. -/
def invalidateEach (call : Sheet Num Ast → Position → List Position →
      Outcome (Sheet Num Ast) (List Position)) :
    List Position → Sheet Num Ast → List Position → Outcome (Sheet Num Ast) (List Position)
  | [], s, visited => .ok visited s
  | dep :: rest, s, visited =>
    match call s dep visited with
    | .ok visited1 s1 => invalidateEach call rest s1 visited1
    | .threw e s1 => .threw e s1
    | .undefined f => .undefined f

/-- `Cell::InvalidateCacheRecursive(force, visited)` called through a pointer to the
cell at `self`; the result is the set `visited` after the call. One unit of fuel per
level of recursion. -/
def Cell.InvalidateCacheRecursive (force : Bool) :
    Nat → Sheet Num Ast → Position → List Position →
      Outcome (Sheet Num Ast) (List Position)
  | 0, _, _, _ => .undefined .fuelExhausted
  | fuel + 1, s, self, visited =>
    if self ∈ visited then .ok visited s
    else
      match s.cellAt self with
      | none => .undefined .danglingPointer
      | some c =>
        if c.impl_.IsCacheValid || force then
          invalidateEach (Cell.InvalidateCacheRecursive force fuel) c.l_nodes_
            (s.modify self fun c => { c with impl_ := c.impl_.InvalidateCache })
            (self :: visited)
        else .ok (self :: visited) s

/-! ## Edit -/

/-- The loop `for (Cell* outgoing : r_nodes_) outgoing->l_nodes_.erase(this)` of
`Cell::Set`. -/
def eraseBackEdges (self : Position) : Sheet Num Ast → List Position →
    Outcome (Sheet Num Ast) Unit
  | s, [] => .ok () s
  | s, outgoing :: rest =>
    match s.cellAt outgoing with
    | none => .undefined .danglingPointer
    | some _ =>
      eraseBackEdges self
        (s.modify outgoing fun c => { c with l_nodes_ := setErase self c.l_nodes_ }) rest

/-- The loop over `impl_->GetReferencedCells()` of `Cell::Set`: a missing referent is
created by `sheet_.SetCell(pos, "")` (the argument `setCell`), then the two edges are
inserted. -/
def linkReferenced (H : Host Num Ast)
    (setCell : Sheet Num Ast → Position → String → Outcome (Sheet Num Ast) Unit)
    (self : Position) : Sheet Num Ast → List Position → Outcome (Sheet Num Ast) Unit
  | s, [] => .ok () s
  | s, pos :: rest =>
    match s.GetCellData H pos with
    | .error e => .threw e s
    | .ok outgoing =>
      (match outgoing with
        | some _ => Outcome.ok () s
        | none => setCell s pos "").bind fun _ s1 =>
      match s1.GetCellData H pos with
      | .error e => .threw e s1
      | .ok none => .undefined .nullDereference
      | .ok (some _) =>
        linkReferenced H setCell self
          ((s1.modify self fun c => { c with r_nodes_ := setInsert pos c.r_nodes_ }).modify
            pos fun c => { c with l_nodes_ := setInsert self c.l_nodes_ }) rest

/-- `Cell::Set(text)` called through a pointer to the cell at `self`; `setCell` is
`Sheet::SetCell` of the owning sheet. -/
def Cell.Set (H : Host Num Ast)
    (setCell : Sheet Num Ast → Position → String → Outcome (Sheet Num Ast) Unit)
    (s : Sheet Num Ast) (self : Position) (text : String) : Outcome (Sheet Num Ast) Unit :=
  match Cell.makeImpl H text with
  | .error e => .threw e s
  | .ok impl =>
    match Cell.IsCircularDependent H s self impl with
    | .error (.threw e) => .threw e s
    | .error (.undefined f) => .undefined f
    | .ok true => .threw .CircularDependencyException s
    | .ok false =>
      match s.cellAt self with
      | none => .undefined .nullDereference
      | some old =>
        (eraseBackEdges self (s.modify self fun c => { c with impl_ := impl })
          old.r_nodes_).bind fun _ s2 =>
        (linkReferenced H setCell self (s2.modify self fun c => { c with r_nodes_ := [] })
          (impl.GetReferencedCells H)).bind fun _ s4 =>
        (Cell.InvalidateCacheRecursive true (s4.table_.length + 1) s4 self []).bind
          fun _ s5 => .ok () s5

/-- The statement `if (it == table_.end()) table_.emplace(pos, ...)` of
`Sheet::SetCell`. -/
def Sheet.ensureEntry (s : Sheet Num Ast) (pos : Position) : Sheet Num Ast :=
  match Table.find s.table_ pos with
  | none => s.emplace pos
  | some _ => s

/-- `Sheet::SetCell`, with one unit of fuel per nested call of `SetCell` from
`Cell::Set`. -/
def Sheet.SetCellFuel (H : Host Num Ast) :
    Nat → Sheet Num Ast → Position → String → Outcome (Sheet Num Ast) Unit
  | 0, _, _, _ => .undefined .fuelExhausted
  | fuel + 1, s, pos, text =>
    if pos.IsValid H then
      match (s.ensureEntry pos).cellAt pos with
      | none => .undefined .nullDereference
      | some _ => Cell.Set H (Sheet.SetCellFuel H fuel) (s.ensureEntry pos) pos text
    else .threw .InvalidPositionException s

/-- `Sheet::SetCell`. The call nested in `Cell::Set` passes the empty text, whose
content references nothing, so the nesting never goes deeper than two. -/
def Sheet.SetCell (H : Host Num Ast) (s : Sheet Num Ast) (pos : Position) (text : String) :
    Outcome (Sheet Num Ast) Unit :=
  Sheet.SetCellFuel H 2 s pos text

/-- `Cell::Clear` on the cell at `pos`. -/
def Cell.Clear (s : Sheet Num Ast) (pos : Position) : Sheet Num Ast :=
  s.modify pos fun c => { c with impl_ := .EmptyImpl }

/-- `Sheet::ClearCell`. -/
def Sheet.ClearCell (H : Host Num Ast) (s : Sheet Num Ast) (pos : Position) :
    Outcome (Sheet Num Ast) Unit :=
  if pos.IsValid H then
    match Table.find s.table_ pos with
    | some (some _) =>
      let s1 := Cell.Clear s pos
      match s1.cellAt pos with
      | none => .undefined .nullDereference
      | some c => if (c.impl_.GetText H).data = [] then .ok () (s1.reset pos) else .ok () s1
    | _ => .ok () s
  else .threw .InvalidPositionException s

/-- `Sheet::GetPrintableSize`. The `int` additions cannot overflow: the row and the
column of a key are below the `int` constants `MAX_ROWS` and `MAX_COLS`. -/
def Sheet.GetPrintableSize (s : Sheet Num Ast) : Size :=
  let size := s.table_.foldl (fun (size : Size) e =>
    match e.2 with
    | some _ => ⟨max size.rows e.1.row, max size.cols e.1.col⟩
    | none => size) ⟨-1, -1⟩
  ⟨size.rows + 1, size.cols + 1⟩

/-! ## Evaluation -/

/-- The test `iss.eof()` after an extraction that consumed `consumed` characters of a
stream over `str`: reading a number sets `eofbit` exactly when the extraction runs into
the end of the string, that is when it leaves no character unread. -/
def eof (str : String) (consumed : Nat) : Bool := (str.data.drop consumed).isEmpty

/-- The lambda `args` of `Formula::Evaluate` applied to each request of the evaluator,
and the `try`/`catch` around `ast_.Execute(args)`. `getValue` is `Cell::GetValue`. The
condition `!(iss >> result) || !iss.eof()` is the case `none` of the extraction followed
by the test `eof`. -/
def Formula.run (H : Host Num Ast)
    (getValue : Sheet Num Ast → Position → Outcome (Sheet Num Ast) (Value Num)) :
    Exec Num → Sheet Num Ast → Outcome (Sheet Num Ast) (FormulaValue Num)
  | .done r, s => .ok r s
  | .ask p k, s =>
    if p.IsValid H then
      match s.GetCell H p with
      | .error e => .threw e s
      | .ok none => Formula.run H getValue (k H.zero) s
      | .ok (some _) =>
        match getValue s p with
        | .threw e s1 => .threw e s1
        | .undefined f => .undefined f
        | .ok (.number val) s1 => Formula.run H getValue (k val) s1
        | .ok (.error error) s1 => .ok (.error error) s1
        | .ok (.str str_val) s1 =>
          match str_val.data with
          | [] => Formula.run H getValue (k H.zero) s1
          | _ :: _ =>
            match H.extractDouble str_val with
            | none => .ok (.error .Value) s1
            | some (result, consumed) =>
              if eof str_val consumed then Formula.run H getValue (k result) s1
              else .ok (.error .Value) s1
    else .ok (.error .Ref) s

/-- `Formula::Evaluate(sheet)`. -/
def Formula.Evaluate (H : Host Num Ast)
    (getValue : Sheet Num Ast → Position → Outcome (Sheet Num Ast) (Value Num))
    (ast : Ast) (s : Sheet Num Ast) : Outcome (Sheet Num Ast) (FormulaValue Num) :=
  Formula.run H getValue (H.Execute ast) s

/-- `TextImpl::GetValue`. -/
def TextImpl.GetValue (H : Host Num Ast) (text_ : String) : String :=
  match text_.data with
  | c :: _ => if c = H.ESCAPE_SIGN then substr1 text_ else text_
  | [] => text_

/-- `Cell::GetValue` called through a pointer to the cell at `self`, with one unit of
fuel per nested evaluation of a referenced formula cell. A formula cell without a cached
result evaluates its formula and stores the result in its cache. -/
def Cell.GetValueFuel (H : Host Num Ast) :
    Nat → Sheet Num Ast → Position → Outcome (Sheet Num Ast) (Value Num)
  | 0, _, _ => .undefined .fuelExhausted
  | fuel + 1, s, self =>
    match s.cellAt self with
    | none => .undefined .nullDereference
    | some c =>
      match c.impl_ with
      | .EmptyImpl => .ok (.str "") s
      | .TextImpl text_ => .ok (.str (TextImpl.GetValue H text_)) s
      | .FormulaImpl _ (some value) => .ok value.toValue s
      | .FormulaImpl formula_ptr_ none =>
        (Formula.Evaluate H (Cell.GetValueFuel H fuel) formula_ptr_ s).bind fun value s1 =>
          .ok value.toValue
            (s1.modify self fun c => { c with impl_ := .FormulaImpl formula_ptr_ (some value) })

/-- `Cell::GetValue`: in a sheet whose formulas form no cycle a chain of nested
evaluations passes through each cell at most once. -/
def Cell.GetValue (H : Host Num Ast) (s : Sheet Num Ast) (self : Position) :
    Outcome (Sheet Num Ast) (Value Num) :=
  Cell.GetValueFuel H (s.table_.length + 1) s self

/-- `Cell::GetText` called through a pointer to the cell at `self`. -/
def Cell.GetText (H : Host Num Ast) (s : Sheet Num Ast) (self : Position) : Option String :=
  (s.cellAt self).map fun c => c.impl_.GetText H

end Engine

/-! ## A host for the concrete scenarios -/

/-- An operand of a sum: an integer literal or a cell reference. -/
inductive Operand where
  | number (x : Int)
  | cell (p : Position)
deriving DecidableEq, Repr

/-- The pieces of a formula body between its `+` signs. -/
def splitPlus : List Char → List (List Char)
  | [] => [[]]
  | c :: cs =>
    if c = '+' then [] :: splitPlus cs
    else
      match splitPlus cs with
      | [] => [[c]]
      | piece :: pieces => (c :: piece) :: pieces

/-- The value of a non-empty string of decimal digits. -/
def digitsValue (cs : List Char) : Option Nat :=
  if cs ≠ [] ∧ cs.all Char.isDigit then
    some (cs.foldl (fun acc c => 10 * acc + (c.toNat - '0'.toNat)) 0)
  else none

/-- The zero-based column of a string of capital letters (`A` is 0, `Z` is 25, `AA` is
26). -/
def columnIndex (cs : List Char) : Int :=
  (cs.foldl (fun acc c => 26 * acc + (c.toNat - 'A'.toNat + 1)) 0 : Nat) - 1

/-- An operand: digits, or capital letters followed by a one-based row number. -/
def parseOperand (cs : List Char) : Option Operand :=
  match cs.takeWhile Char.isUpper with
  | [] => (digitsValue cs).map fun n => .number n
  | letter :: letters =>
    match digitsValue (cs.dropWhile Char.isUpper) with
    | some (n + 1) => some (.cell ⟨n, columnIndex (letter :: letters)⟩)
    | _ => none

/-- All operands of a list of pieces, if every piece is one. -/
def parseOperands : List (List Char) → Option (List Operand)
  | [] => some []
  | piece :: pieces =>
    match parseOperand piece, parseOperands pieces with
    | some o, some os => some (o :: os)
    | _, _ => none

/-- Evaluation of a sum from left to right, with the running total `acc`. -/
def execSum : List Operand → Int → Exec Int
  | [], acc => .done (.number acc)
  | .number x :: rest, acc => execSum rest (acc + x)
  | .cell p :: rest, acc => .ask p fun v => execSum rest (acc + v)

/-- The letters of a zero-based column, for columns of at most `fuel` letters. -/
def columnLetters : Nat → Nat → List Char
  | 0, _ => []
  | fuel + 1, n =>
    if n < 26 then [Char.ofNat ('A'.toNat + n)]
    else columnLetters fuel (n / 26 - 1) ++ [Char.ofNat ('A'.toNat + n % 26)]

/-- The text of an operand. -/
def printOperand : Operand → List Char
  | .number x => (toString x).data
  | .cell p => columnLetters 3 p.col.toNat ++ (toString (p.row + 1)).data

/-- White space as `std::isspace` classifies it in the `"C"` locale. -/
def isSpace (c : Char) : Bool :=
  c = ' ' || c = '\t' || c = '\n' || c = '\r' || c.toNat = 11 || c.toNat = 12

/-- The extraction of an integer from a stream over `cs`: white space is skipped, then
an optional sign and the longest run of decimal digits are read. It fails when no digit
follows; otherwise it gives the number and how many characters were consumed. -/
def extractInt (cs : List Char) : Option (Int × Nat) :=
  let skipped := (cs.takeWhile isSpace).length
  match cs.dropWhile isSpace with
  | [] => none
  | c :: rest =>
    if c = '-' then
      (digitsValue (rest.takeWhile Char.isDigit)).map fun n =>
        (-(n : Int), skipped + 1 + (rest.takeWhile Char.isDigit).length)
    else if c = '+' then
      (digitsValue (rest.takeWhile Char.isDigit)).map fun n =>
        ((n : Int), skipped + 1 + (rest.takeWhile Char.isDigit).length)
    else
      (digitsValue ((c :: rest).takeWhile Char.isDigit)).map fun n =>
        ((n : Int), skipped + ((c :: rest).takeWhile Char.isDigit).length)

/-- Modelled from the spec: a host for the scenarios of §8, since common.h and
FormulaAST.h are absent. The formula sign is `=`, the escape sign is the apostrophe, the
grid is 16384 by 16384, numbers are integers, and a formula body is a sum
`operand + ... + operand` of integer literals and cell references such as `B1` (column
letters, then the one-based row), evaluated from left to right. The extraction
`iss >> result` reads an optionally signed decimal integer after white space; since the
numbers of this host are integers, a fraction or an exponent, which the program reads as
part of the number, is left unread here. -/
def sumHost : Host Int (List Operand) where
  MAX_ROWS := 16384
  MAX_COLS := 16384
  FORMULA_SIGN := '='
  ESCAPE_SIGN := '\''
  zero := 0
  extractDouble := fun str => extractInt str.data
  ParseFormulaAST := fun body =>
    match parseOperands (splitPlus body.data) with
    | some os => .ok os
    | none => .error "syntax error"
  GetCells := fun os => os.filterMap fun o =>
    match o with
    | .cell p => some p
    | .number _ => none
  Execute := fun os => execSum os 0
  PrintFormula := fun os => ⟨List.intercalate ['+'] (os.map printOperand)⟩

/-- The cell `A1`. -/
def A1 : Position := ⟨0, 0⟩

/-- The cell `B1`. -/
def B1 : Position := ⟨0, 1⟩

/-- The cell `C3`. -/
def C3 : Position := ⟨2, 2⟩

/-- The value an operation returns, if it returns. -/
def Outcome.value? {σ α : Type} : Outcome σ α → Option α
  | .ok a _ => some a
  | _ => none

/-- The sheet an operation leaves behind, whether it returned or threw. -/
def Outcome.state? {σ α : Type} : Outcome σ α → Option σ
  | .ok _ s => some s
  | .threw _ s => some s
  | .undefined _ => none

/-- A run of `SetCell` calls from a given sheet; an exception is caught by the caller
and the run goes on. -/
def runSetCells {Num Ast : Type} (H : Host Num Ast) :
    Sheet Num Ast → List (Position × String) → Option (Sheet Num Ast)
  | s, [] => some s
  | s, (pos, text) :: rest =>
    match (s.SetCell H pos text).state? with
    | some s1 => runSetCells H s1 rest
    | none => none


/-! ## Notions used by the properties -/

section Notions

variable {Num Ast : Type}

/-! ### Views of a sheet -/

/-- The positions that have a map entry. -/
def Sheet.keys (s : Sheet Num Ast) : List Position := s.table_.map Prod.fst

/-- The content of the cell at `q`, if there is a cell. -/
def Sheet.implAt (s : Sheet Num Ast) (q : Position) : Option (Impl Num Ast) :=
  (s.cellAt q).map fun c => c.impl_

/-- The members of `in_edges` of the cell at `p`: the cells that directly reference
it, each named by the position it was created for. A member left behind by `ClearCell`
is the position of a destroyed cell; see `Sheet.inEdge` for the cell it points to. -/
def Sheet.in_edges (s : Sheet Num Ast) (p : Position) : List Position :=
  match s.cellAt p with
  | some c => c.l_nodes_
  | none => []

/-- The members of `out_edges` of the cell at `p`: the cells it directly references,
each named by the position it was created for. A member left behind by `ClearCell` is
the position of a destroyed cell; see `Sheet.outEdge` for the cell it points to. -/
def Sheet.out_edges (s : Sheet Num Ast) (p : Position) : List Position :=
  match s.cellAt p with
  | some c => c.r_nodes_
  | none => []

/-- The cell at `q` is the cell at `p` or is reached from it by following `in_edges`:
it depends on `p`, directly or through other cells. -/
def Sheet.DependsOn (s : Sheet Num Ast) (p q : Position) : Prop :=
  Relation.ReflTransGen (fun a b => b ∈ s.in_edges a) p q

/-- The positions listed by the syntax tree of a content, before any filtering. -/
def Impl.listedCells (H : Host Num Ast) : Impl Num Ast → List Position
  | .FormulaImpl formula_ptr_ _ => H.GetCells formula_ptr_
  | _ => []

/-- The entry at `pos` is not a null pointer: it is absent or holds a cell. -/
def Sheet.NotNull (s : Sheet Num Ast) (pos : Position) : Prop :=
  Table.find s.table_ pos ≠ some none

/-! ### Calls and reachable sheets -/

/-- `Cell::Set` as `Sheet::SetCell` calls it. -/
def Sheet.Set (H : Host Num Ast) (s : Sheet Num Ast) (self : Position) (text : String) :
    Outcome (Sheet Num Ast) Unit :=
  Cell.Set H (Sheet.SetCellFuel H 1) s self text

/-- A call of one of the three sheet operations that take a position. -/
inductive Call where
  | SetCell (pos : Position) (text : String)
  | GetCell (pos : Position)
  | ClearCell (pos : Position)
deriving DecidableEq, Repr

/-- The effect of a call on the sheet; the pointer `GetCell` returns is dropped. -/
def Sheet.perform (H : Host Num Ast) (s : Sheet Num Ast) : Call → Outcome (Sheet Num Ast) Unit
  | .SetCell pos text => s.SetCell H pos text
  | .GetCell pos =>
    match s.GetCell H pos with
    | .ok _ => .ok () s
    | .error e => .threw e s
  | .ClearCell pos => s.ClearCell H pos

/-- The sheets reachable from the empty sheet through `SetCell` calls, each of which
returns or throws. -/
inductive ReachableBySetCell (H : Host Num Ast) : Sheet Num Ast → Prop where
  | empty : ReachableBySetCell H Sheet.empty
  | setCell {s s1 : Sheet Num Ast} (pos : Position) (text : String) :
      ReachableBySetCell H s → (s.SetCell H pos text).state? = some s1 →
      ReachableBySetCell H s1

/-- The sheets reachable from the empty sheet through `SetCell`, `ClearCell` and
`GetValue` calls, each of which returns or throws. -/
inductive Reachable (H : Host Num Ast) : Sheet Num Ast → Prop where
  | empty : Reachable H Sheet.empty
  | setCell {s s1 : Sheet Num Ast} (pos : Position) (text : String) :
      Reachable H s → (s.SetCell H pos text).state? = some s1 → Reachable H s1
  | clearCell {s s1 : Sheet Num Ast} (pos : Position) :
      Reachable H s → (s.ClearCell H pos).state? = some s1 → Reachable H s1
  | getValue {s s1 : Sheet Num Ast} (pos : Position) :
      Reachable H s → (Cell.GetValue H s pos).state? = some s1 → Reachable H s1

/-- The sheets reachable from the empty sheet through `SetCell` and `ClearCell` calls,
each of which returns or throws. -/
inductive ReachableByEdits (H : Host Num Ast) : Sheet Num Ast → Prop where
  | empty : ReachableByEdits H Sheet.empty
  | setCell {s s1 : Sheet Num Ast} (pos : Position) (text : String) :
      ReachableByEdits H s → (s.SetCell H pos text).state? = some s1 →
      ReachableByEdits H s1
  | clearCell {s s1 : Sheet Num Ast} (pos : Position) :
      ReachableByEdits H s → (s.ClearCell H pos).state? = some s1 → ReachableByEdits H s1

/-! ### The stages of `Cell::Set` in closed form -/

/-- Every cell of the sheet is replaced by `g` of its position and itself. -/
def Sheet.mapCells (g : Position → Cell Num Ast → Cell Num Ast) (s : Sheet Num Ast) :
    Sheet Num Ast :=
  ⟨s.table_.map fun e => (e.1, e.2.map (g e.1))⟩

/-- The cached results of the cells at the positions in `W` are dropped. -/
def Sheet.dropCaches (W : List Position) (s : Sheet Num Ast) : Sheet Num Ast :=
  s.mapCells fun q c => if q ∈ W then { c with impl_ := c.impl_.InvalidateCache } else c

/-- What the loop `outgoing->l_nodes_.erase(this)` over the list `l` does to the cell at
`q`. -/
def eraseFrom (self : Position) (l : List Position) (q : Position) (c : Cell Num Ast) :
    Cell Num Ast :=
  if q ∈ l then { c with l_nodes_ := setErase self c.l_nodes_ } else c

/-- One pass of the loop over the referenced positions in `Cell::Set` when it runs to
its end: the entry at `pos` exists afterwards and the two edges are inserted. -/
def linkStep (self : Position) (s : Sheet Num Ast) (pos : Position) : Sheet Num Ast :=
  ((s.ensureEntry pos).modify self fun c =>
      { c with r_nodes_ := setInsert pos c.r_nodes_ }).modify pos
    fun c => { c with l_nodes_ := setInsert self c.l_nodes_ }

/-- The sheet `Cell::Set` has built when it reaches the loop over the referenced
positions: the content of the cell at `self` is `impl`, the cell is erased from the
`l_nodes_` of the cells in `old_r`, and its `r_nodes_` are cleared. -/
def Sheet.unlinked (s : Sheet Num Ast) (self : Position) (impl : Impl Num Ast)
    (old_r : List Position) : Sheet Num Ast :=
  ((s.modify self fun c => { c with impl_ := impl }).mapCells
    (eraseFrom self old_r)).modify self fun c => { c with r_nodes_ := [] }

/-- The sheet `Cell::Set` has built when it reaches the cache invalidation: the sheet
`unlinked` with the positions `impl` references linked. -/
def Sheet.committed (H : Host Num Ast) (s : Sheet Num Ast) (self : Position)
    (impl : Impl Num Ast) (old_r : List Position) : Sheet Num Ast :=
  (impl.GetReferencedCells H).foldl (linkStep self) (s.unlinked self impl old_r)

/-- The sheet `s1` has the entries of `s`, null where `s` is null, with possibly other
cells in them. -/
def Sheet.SameEntries (s s1 : Sheet Num Ast) : Prop :=
  ∃ g : Position → Cell Num Ast → Cell Num Ast, s1 = s.mapCells g

/-! ### Invariants and measures -/

/-- Every key of the map is a valid position and no position has two entries. -/
def Sheet.KeysOK (H : Host Num Ast) (s : Sheet Num Ast) : Prop :=
  s.keys.Nodup ∧ ∀ k ∈ s.keys, k.IsValid H = true

/-- Every member of the `l_nodes_` of a cell is a cell of the sheet: no `in_edges`
pointer dangles. -/
def Sheet.InEdgesLive (s : Sheet Num Ast) : Prop :=
  ∀ p q, q ∈ s.in_edges p → (s.cellAt q).isSome = true

/-- Every member of the `r_nodes_` of a cell is a cell of the sheet: no `out_edges`
pointer dangles. -/
def Sheet.OutEdgesLive (s : Sheet Num Ast) : Prop :=
  ∀ p q, q ∈ s.out_edges p → (s.cellAt q).isSome = true

/-- No entry of the sheet is a null pointer and no edge pointer dangles. -/
def Sheet.Sound (s : Sheet Num Ast) : Prop :=
  (∀ p, s.NotNull p) ∧ s.InEdgesLive ∧ s.OutEdgesLive

/-- Every member of an edge set is the position of a map entry: of a cell, or of the
null pointer left where a cell was destroyed. -/
def Sheet.EdgesKeyed (s : Sheet Num Ast) : Prop :=
  ∀ q x, x ∈ s.in_edges q ∨ x ∈ s.out_edges q → x ∈ s.keys

/-- For all cells `a` and `b` of the sheet, `b` is in the `out_edges` of `a` exactly
when `a` is in the `in_edges` of `b`. -/
def Sheet.EdgesMatch (s : Sheet Num Ast) : Prop :=
  ∀ a b, (s.cellAt a).isSome = true → (s.cellAt b).isSome = true →
    (b ∈ s.out_edges a ↔ a ∈ s.in_edges b)

/-- No cell reaches itself by following one or more `out_edges`. -/
def Sheet.Acyclic (s : Sheet Num Ast) : Prop :=
  ∀ a, ¬ Relation.TransGen (fun x y => y ∈ s.out_edges x) a a

/-- What expanding the cell of an entry costs the loop of `IsCircularDependent`: one
iteration for the cell and one stack entry per member of its `l_nodes_`. -/
def entryCost (e : Position × Option (Cell Num Ast)) : Nat :=
  match e.2 with
  | some c => c.l_nodes_.length + 1
  | none => 0

/-- The total cost of the entries whose position is not yet in `visited`. -/
def tableWeight (t : List (Position × Option (Cell Num Ast))) (visited : List Position) :
    Nat :=
  ((t.filter fun e => e.1 ∉ visited).map entryCost).sum

/-- The number of map entries whose position is not yet in `visited`: a bound on how
much deeper `InvalidateCacheRecursive` can still recurse. -/
def countUnvisited (keys visited : List Position) : Nat :=
  (keys.filter fun k => k ∉ visited).length

/-! ### The operand lookup of `Formula::Evaluate` -/

/-- The lambda `args` of `Formula::Evaluate` on its own, as `Formula.run` applies it to
one request: `.number x` is the operand it returns, `.error e` the `FormulaError` it
throws. `getValue` is `Cell::GetValue`. -/
def Formula.args (H : Host Num Ast)
    (getValue : Sheet Num Ast → Position → Outcome (Sheet Num Ast) (Value Num))
    (p : Position) (s : Sheet Num Ast) : Outcome (Sheet Num Ast) (FormulaValue Num) :=
  if p.IsValid H then
    match s.GetCell H p with
    | .error e => .threw e s
    | .ok none => .ok (.number H.zero) s
    | .ok (some _) =>
      match getValue s p with
      | .threw e s1 => .threw e s1
      | .undefined f => .undefined f
      | .ok (.number val) s1 => .ok (.number val) s1
      | .ok (.error error) s1 => .ok (.error error) s1
      | .ok (.str str_val) s1 =>
        match str_val.data with
        | [] => .ok (.number H.zero) s1
        | _ :: _ =>
          match H.extractDouble str_val with
          | none => .ok (.error .Value) s1
          | some (result, consumed) =>
            if eof str_val consumed then .ok (.number result) s1
            else .ok (.error .Value) s1
  else .ok (.error .Ref) s

/-- What `Formula.run` does with the outcome of one operand lookup: it resumes the
evaluator with a returned operand and ends with a thrown `FormulaError`. -/
def Formula.resume (H : Host Num Ast)
    (getValue : Sheet Num Ast → Position → Outcome (Sheet Num Ast) (Value Num))
    (k : Num → Exec Num) :
    Outcome (Sheet Num Ast) (FormulaValue Num) → Outcome (Sheet Num Ast) (FormulaValue Num)
  | .ok (.number x) s1 => Formula.run H getValue (k x) s1
  | .ok (.error e) s1 => .ok (.error e) s1
  | .threw e s1 => .threw e s1
  | .undefined f => .undefined f

/-! ### Lists of positions without repetition -/

/-- An assignment `addr` of addresses to the cells a run has created, each cell named
by the position it was created for, gives the cells of the sheet distinct addresses.
The address of a destroyed cell is free again, and the allocator may give it to a cell
created later. -/
def Sheet.AddressesDistinct (s : Sheet Num Ast) (addr : Position → Nat) : Prop :=
  ∀ a ∈ s.keys, ∀ b ∈ s.keys, (s.cellAt a).isSome = true → (s.cellAt b).isSome = true →
    addr a = addr b → a = b

/-- In the running program the cell at `b` is a member of the pointer set `l`: the cell
exists and some pointer of the set holds its address. -/
def Sheet.pointedAt (s : Sheet Num Ast) (addr : Position → Nat) (l : List Position)
    (b : Position) : Prop :=
  (s.cellAt b).isSome = true ∧ ∃ x ∈ l, addr x = addr b

/-- In the running program the cell at `b` is a member of the `out_edges` of the cell
at `a`. -/
def Sheet.outEdge (s : Sheet Num Ast) (addr : Position → Nat) (a b : Position) : Prop :=
  s.pointedAt addr (s.out_edges a) b

/-- In the running program the cell at `a` is a member of the `in_edges` of the cell at
`b`. -/
def Sheet.inEdge (s : Sheet Num Ast) (addr : Position → Nat) (b a : Position) : Prop :=
  s.pointedAt addr (s.in_edges b) a

/-! ### The sheets of the scenarios -/

/-- The sheet after `SetCell(A1, "=B1")` on a new sheet: the formula cell `A1` and the
blank cell `B1` created for its reference. -/
def sheetA1refB1 : Sheet Int (List Operand) :=
  ⟨[(B1, some ⟨.EmptyImpl, [A1], []⟩),
    (A1, some ⟨.FormulaImpl [.cell B1] none, [], [B1]⟩)]⟩

/-- The sheet after `SetCell(A1, "=1+2")` on a new sheet. -/
def sheetOnePlusTwo : Sheet Int (List Operand) :=
  ⟨[(A1, some ⟨.FormulaImpl [.number 1, .number 2] none, [], []⟩)]⟩

/-- The sheet after `SetCell(A1, "=C3")` on a new sheet: the formula cell `A1` and the
blank cell `C3` created for its reference. -/
def sheetA1refC3 : Sheet Int (List Operand) :=
  ⟨[(C3, some ⟨.EmptyImpl, [A1], []⟩),
    (A1, some ⟨.FormulaImpl [.cell C3] none, [], [C3]⟩)]⟩

/-- The sheet after `SetCell(A1, "=B1")` and then `SetCell(A1, "=C3")` on a new sheet:
`A1` references `C3`, and the blank cell `B1` is no longer referenced. -/
def sheetA1movedToC3 : Sheet Int (List Operand) :=
  ⟨[(C3, some ⟨.EmptyImpl, [A1], []⟩), (B1, some ⟨.EmptyImpl, [], []⟩),
    (A1, some ⟨.FormulaImpl [.cell C3] none, [], [C3]⟩)]⟩

/-- A sheet whose only entry is a blank cell at `A1`. -/
def sheetBlankA1 : Sheet Int (List Operand) := ⟨[(A1, some Cell.new)]⟩

/-- The sheet after `SetCell(A1, "x")` on a new sheet. -/
def sheetTextA1 : Sheet Int (List Operand) := ⟨[(A1, some ⟨.TextImpl "x", [], []⟩)]⟩

/-- The sheet after `SetCell(A1, "x")` and `ClearCell(A1)`: the entry of `A1` holds a
null pointer. -/
def sheetNullA1 : Sheet Int (List Operand) := ⟨[(A1, none)]⟩

/-- The sheet after `SetCell(A1, "=B1")` and `ClearCell(B1)`: the cell of `B1` is
destroyed and the `r_nodes_` of `A1` still hold the pointer to it. -/
def sheetDanglingB1 : Sheet Int (List Operand) :=
  ⟨[(B1, none), (A1, some ⟨.FormulaImpl [.cell B1] none, [], [B1]⟩)]⟩

/-- The sheet after `SetCell(A1, "=B1")` and `SetCell(B1, "5")`, with the cache of `A1`
holding `cache`. -/
def sheetA1readsB1 (cache : Option (FormulaValue Int)) : Sheet Int (List Operand) :=
  ⟨[(B1, some ⟨.TextImpl "5", [A1], []⟩),
    (A1, some ⟨.FormulaImpl [.cell B1] cache, [], [B1]⟩)]⟩

/-- The sheet `sheetA1readsB1 (some 5)` after `ClearCell(B1)`. -/
def sheetStaleA1 : Sheet Int (List Operand) :=
  ⟨[(B1, none), (A1, some ⟨.FormulaImpl [.cell B1] (some (.number 5)), [], [B1]⟩)]⟩

/-- The sheet after `SetCell(A1, text)` for a text `text` and `SetCell(B1, "=A1+1")`,
with the cache of `B1` holding `cache`. -/
def sheetB1addsA1 (text : String) (cache : Option (FormulaValue Int)) :
    Sheet Int (List Operand) :=
  ⟨[(B1, some ⟨.FormulaImpl [.cell A1, .number 1] cache, [], [A1]⟩),
    (A1, some ⟨.TextImpl text, [B1], []⟩)]⟩

/-- The sheet after `SetCell(A1, "=B1")` and `ClearCell(A1)`: the cell of `A1` is
destroyed and the `l_nodes_` of `B1` still hold the pointer to it. -/
def sheetDanglingA1 : Sheet Int (List Operand) :=
  ⟨[(B1, some ⟨.EmptyImpl, [A1], []⟩), (A1, none)]⟩

/-- The sheet after `SetCell(A1, "=B1+1")` and `SetCell(B1, text)` for a text `text`,
with the cache of `A1` holding `cache`. -/
def sheetA1addsB1 (text : String) (cache : Option (FormulaValue Int)) :
    Sheet Int (List Operand) :=
  ⟨[(B1, some ⟨.TextImpl text, [A1], []⟩),
    (A1, some ⟨.FormulaImpl [.cell B1, .number 1] cache, [], [B1]⟩)]⟩

/-- The cell `A2`. -/
def A2 : Position := ⟨1, 0⟩

/-- The diamond built by `SetCell(A1, "=B1+C3")`, `SetCell(B1, "=A2")`,
`SetCell(C3, "=A2")` and `SetCell(A2, text)` for a text `text`: `A1` depends on `A2`
through `B1` and through `C3`. The cache of `A1` holds `top`, those of `B1` and `C3`
hold `side`. -/
def sheetDiamond (text : String) (top side : Option (FormulaValue Int)) :
    Sheet Int (List Operand) :=
  ⟨[(A2, some ⟨.TextImpl text, [C3, B1], []⟩),
    (C3, some ⟨.FormulaImpl [.cell A2] side, [A1], [A2]⟩),
    (B1, some ⟨.FormulaImpl [.cell A2] side, [A1], [A2]⟩),
    (A1, some ⟨.FormulaImpl [.cell B1, .cell C3] top, [], [C3, B1]⟩)]⟩

/-- The sheet after `SetCell(A1, "=B1")`, `ClearCell(B1)` and `SetCell(C3, "=A1")`: the
cell of `B1` is destroyed, the `r_nodes_` of `A1` still hold the pointer to it, and the
new cell `C3` references `A1`. -/
def sheetReusedB1 : Sheet Int (List Operand) :=
  ⟨[(C3, some ⟨.FormulaImpl [.cell A1] none, [], [A1]⟩), (B1, none),
    (A1, some ⟨.FormulaImpl [.cell B1] none, [C3], [B1]⟩)]⟩

/-- Addresses in a run that creates the cells `A1` and `B1`, destroys `B1` and then
creates `C3`, with an allocator that hands out the block freed last: `A1` is in block 0,
and `C3` is in block 1, where `B1` was. -/
def reusedBlock (p : Position) : Nat := if p = A1 then 0 else 1

end Notions

/-! # Properties -/

section Properties

variable {Num Ast : Type}

/-! ## Lookups in the map -/

theorem find_mapCells (g : Position → Cell Num Ast → Cell Num Ast) (s : Sheet Num Ast)
    (q : Position) :
    Table.find (s.mapCells g).table_ q = (Table.find s.table_ q).map (Option.map (g q)) := by
  obtain ⟨t⟩ := s
  induction t with
  | nil => rfl
  | cons e t ih =>
    obtain ⟨k, v⟩ := e
    by_cases h : k = q
    · subst h
      simp [Sheet.mapCells, Table.find]
    · simpa [Sheet.mapCells, Table.find, h] using ih

theorem cellAt_mapCells (g : Position → Cell Num Ast → Cell Num Ast) (s : Sheet Num Ast)
    (q : Position) : (s.mapCells g).cellAt q = (s.cellAt q).map (g q) := by
  unfold Sheet.cellAt
  rw [find_mapCells]
  cases h : Table.find s.table_ q with
  | none => rfl
  | some v => cases v <;> rfl

theorem modify_eq_mapCells (s : Sheet Num Ast) (pos : Position)
    (f : Cell Num Ast → Cell Num Ast) :
    s.modify pos f = s.mapCells fun q c => if q = pos then f c else c := by
  unfold Sheet.modify Sheet.mapCells
  congr 1
  apply List.map_congr_left
  rintro ⟨k, v⟩ _
  by_cases h : k = pos
  · simp [h]
  · cases v <;> simp [h]

theorem find_modify (s : Sheet Num Ast) (pos : Position) (f : Cell Num Ast → Cell Num Ast)
    (q : Position) :
    Table.find (s.modify pos f).table_ q =
      if q = pos then (Table.find s.table_ q).map (Option.map f) else Table.find s.table_ q := by
  rw [modify_eq_mapCells, find_mapCells]
  by_cases h : q = pos
  · simp [h]
  · cases h1 : Table.find s.table_ q with
    | none => simp [h]
    | some v => cases v <;> simp [h]

theorem cellAt_modify (s : Sheet Num Ast) (pos : Position) (f : Cell Num Ast → Cell Num Ast)
    (q : Position) :
    (s.modify pos f).cellAt q = if q = pos then (s.cellAt q).map f else s.cellAt q := by
  rw [modify_eq_mapCells, cellAt_mapCells]
  by_cases h : q = pos
  · simp [h]
  · cases h1 : s.cellAt q <;> simp [h]

theorem keys_mapCells (g : Position → Cell Num Ast → Cell Num Ast) (s : Sheet Num Ast) :
    (s.mapCells g).keys = s.keys := by
  simp [Sheet.keys, Sheet.mapCells, List.map_map, Function.comp_def]

theorem keys_modify (s : Sheet Num Ast) (pos : Position) (f : Cell Num Ast → Cell Num Ast) :
    (s.modify pos f).keys = s.keys := by
  rw [modify_eq_mapCells, keys_mapCells]

theorem find_emplace (s : Sheet Num Ast) (pos q : Position) :
    Table.find (s.emplace pos).table_ q =
      if pos = q then some (some Cell.new) else Table.find s.table_ q := by
  simp [Sheet.emplace, Table.find]

theorem cellAt_emplace (s : Sheet Num Ast) (pos q : Position) :
    (s.emplace pos).cellAt q = if pos = q then some Cell.new else s.cellAt q := by
  unfold Sheet.cellAt
  rw [find_emplace]
  by_cases h : pos = q <;> simp [h]

theorem find_mapEntries (h : Position → Option (Cell Num Ast) → Option (Cell Num Ast))
    (t : List (Position × Option (Cell Num Ast))) (q : Position) :
    Table.find (t.map fun e => (e.1, h e.1 e.2)) q = (Table.find t q).map (h q) := by
  induction t with
  | nil => rfl
  | cons e t ih =>
    obtain ⟨k, v⟩ := e
    by_cases hk : k = q
    · subst hk
      simp [Table.find]
    · simpa [Table.find, hk] using ih

theorem find_reset (s : Sheet Num Ast) (pos q : Position) :
    Table.find (s.reset pos).table_ q =
      if q = pos then (Table.find s.table_ q).map (fun _ => none) else Table.find s.table_ q := by
  have h : (s.reset pos).table_ =
      s.table_.map fun e => (e.1, (fun k v => if k = pos then none else v) e.1 e.2) := by
    unfold Sheet.reset
    apply List.map_congr_left
    rintro ⟨k, v⟩ _
    by_cases hk : k = pos <;> simp [hk]
  rw [h]
  have h2 := find_mapEntries (fun k v => if k = pos then none else v) s.table_ q
  rw [h2]
  by_cases hq : q = pos
  · simp [hq]
  · cases h1 : Table.find s.table_ q <;> simp [hq]

theorem keys_reset (s : Sheet Num Ast) (pos : Position) : (s.reset pos).keys = s.keys := by
  unfold Sheet.keys Sheet.reset
  rw [List.map_map]
  apply List.map_congr_left
  rintro ⟨k, v⟩ _
  by_cases hk : k = pos <;> simp [hk]

theorem find_eq_none_iff (s : Sheet Num Ast) (q : Position) :
    Table.find s.table_ q = none ↔ q ∉ s.keys := by
  obtain ⟨t⟩ := s
  induction t with
  | nil => simp [Table.find, Sheet.keys]
  | cons e t ih =>
    obtain ⟨k, v⟩ := e
    by_cases h : k = q
    · subst h
      simp [Table.find, Sheet.keys]
    · have h2 : ¬ q = k := fun h1 => h h1.symm
      simpa [Table.find, Sheet.keys, h, h2] using ih

theorem mapCells_mapCells (g1 g2 : Position → Cell Num Ast → Cell Num Ast)
    (s : Sheet Num Ast) :
    (s.mapCells g1).mapCells g2 = s.mapCells fun q c => g2 q (g1 q c) := by
  unfold Sheet.mapCells
  simp only [List.map_map]
  congr 1
  apply List.map_congr_left
  rintro ⟨k, v⟩ _
  cases v <;> rfl

theorem mapCells_id (g : Position → Cell Num Ast → Cell Num Ast) (s : Sheet Num Ast)
    (h : ∀ q c, g q c = c) : s.mapCells g = s := by
  obtain ⟨t⟩ := s
  unfold Sheet.mapCells
  congr 1
  conv_rhs => rw [← List.map_id t]
  apply List.map_congr_left
  rintro ⟨k, v⟩ _
  cases v <;> simp [h]

/-! ## The loop that erases the old edges -/

theorem setErase_setErase (p : Position) (l : List Position) :
    setErase p (setErase p l) = setErase p l := by
  simp [setErase, List.filter_filter]

theorem mem_setErase (p x : Position) (l : List Position) :
    x ∈ setErase p l ↔ x ∈ l ∧ x ≠ p := by
  simp [setErase]

theorem mem_setInsert (p x : Position) (l : List Position) :
    x ∈ setInsert p l ↔ x = p ∨ x ∈ l := by
  unfold setInsert
  by_cases h : p ∈ l
  · simp only [h, if_true]
    constructor
    · exact fun hx => Or.inr hx
    · rintro (rfl | hx)
      · exact h
      · exact hx
  · simp [h]

theorem eraseBackEdges_ok (self : Position) (l : List Position) :
    ∀ (s s1 : Sheet Num Ast) (a : Unit), eraseBackEdges self s l = .ok a s1 →
      s1 = s.mapCells (eraseFrom self l) := by
  induction l with
  | nil =>
    intro s s1 a h
    simp only [eraseBackEdges, Outcome.ok.injEq] at h
    rw [← h.2, mapCells_id]
    intro q c
    simp [eraseFrom]
  | cons x rest ih =>
    intro s s1 a h
    unfold eraseBackEdges at h
    cases hx : s.cellAt x with
    | none => simp [hx] at h
    | some c0 =>
      simp only [hx] at h
      rw [ih _ _ _ h, modify_eq_mapCells, mapCells_mapCells]
      congr 1
      funext q c
      by_cases h1 : q = x
      · by_cases h2 : q ∈ rest
        · simp [eraseFrom, h1, h2, setErase_setErase]
        · have h3 : x ∉ rest := h1 ▸ h2
          simp [eraseFrom, h1, h3]
      · by_cases h2 : q ∈ rest <;> simp [eraseFrom, h1, h2]

theorem eraseBackEdges_not_threw (self : Position) (l : List Position) :
    ∀ (s s1 : Sheet Num Ast) (e : Exn), eraseBackEdges self s l ≠ .threw e s1 := by
  induction l with
  | nil =>
    intro s s1 e h
    simp [eraseBackEdges] at h
  | cons x rest ih =>
    intro s s1 e h
    unfold eraseBackEdges at h
    cases hx : s.cellAt x with
    | none => simp [hx] at h
    | some c0 =>
      simp only [hx] at h
      exact ih _ _ _ h

/-! ## Cache invalidation changes caches only -/

theorem dropCaches_nil (s : Sheet Num Ast) : s.dropCaches [] = s := by
  unfold Sheet.dropCaches
  apply mapCells_id
  intro q c
  simp

theorem InvalidateCache_idem (i : Impl Num Ast) :
    i.InvalidateCache.InvalidateCache = i.InvalidateCache := by
  cases i <;> rfl

theorem dropCaches_dropCaches (W1 W2 : List Position) (s : Sheet Num Ast) :
    (s.dropCaches W1).dropCaches W2 = s.dropCaches (W2 ++ W1) := by
  unfold Sheet.dropCaches
  rw [mapCells_mapCells]
  congr 1
  funext q c
  by_cases h1 : q ∈ W1 <;> by_cases h2 : q ∈ W2 <;> simp [h1, h2, InvalidateCache_idem]

theorem modify_invalidate (s : Sheet Num Ast) (self : Position) :
    (s.modify self fun c => { c with impl_ := c.impl_.InvalidateCache }) =
      s.dropCaches [self] := by
  rw [modify_eq_mapCells]
  unfold Sheet.dropCaches
  congr 1
  funext q c
  simp

theorem invalidateEach_ok
    (call : Sheet Num Ast → Position → List Position →
      Outcome (Sheet Num Ast) (List Position))
    (hcall : ∀ s dep v v1 s1, call s dep v = .ok v1 s1 →
      ∃ W, v1 = W ++ v ∧ s1 = s.dropCaches W) :
    ∀ (l : List Position) (s : Sheet Num Ast) (v v1 : List Position) (s1 : Sheet Num Ast),
      invalidateEach call l s v = .ok v1 s1 → ∃ W, v1 = W ++ v ∧ s1 = s.dropCaches W := by
  intro l
  induction l with
  | nil =>
    intro s v v1 s1 h
    simp only [invalidateEach, Outcome.ok.injEq] at h
    exact ⟨[], by simp [h.1], by rw [dropCaches_nil, h.2]⟩
  | cons dep rest ih =>
    intro s v v1 s1 h
    unfold invalidateEach at h
    cases hc : call s dep v with
    | ok v2 s2 =>
      simp only [hc] at h
      obtain ⟨W1, hv1, hs1⟩ := hcall _ _ _ _ _ hc
      obtain ⟨W2, hv2, hs2⟩ := ih _ _ _ _ h
      refine ⟨W2 ++ W1, ?_, ?_⟩
      · rw [hv2, hv1, List.append_assoc]
      · rw [hs2, hs1, dropCaches_dropCaches]
    | threw e s2 => simp [hc] at h
    | undefined f => simp [hc] at h

theorem invalidateEach_not_threw
    (call : Sheet Num Ast → Position → List Position →
      Outcome (Sheet Num Ast) (List Position))
    (hcall : ∀ s dep v e s1, call s dep v ≠ .threw e s1) :
    ∀ (l : List Position) (s : Sheet Num Ast) (v : List Position) (e : Exn)
      (s1 : Sheet Num Ast), invalidateEach call l s v ≠ .threw e s1 := by
  intro l
  induction l with
  | nil =>
    intro s v e s1 h
    simp [invalidateEach] at h
  | cons dep rest ih =>
    intro s v e s1 h
    unfold invalidateEach at h
    cases hc : call s dep v with
    | ok v2 s2 =>
      simp only [hc] at h
      exact ih _ _ _ _ h
    | threw e2 s2 => exact hcall _ _ _ _ _ hc
    | undefined f => simp [hc] at h

theorem InvalidateCacheRecursive_ok :
    ∀ (fuel : Nat) (s : Sheet Num Ast) (self : Position) (v v1 : List Position)
      (s1 : Sheet Num Ast), Cell.InvalidateCacheRecursive true fuel s self v = .ok v1 s1 →
      ∃ W, v1 = W ++ v ∧ s1 = s.dropCaches W := by
  intro fuel
  induction fuel with
  | zero =>
    intro s self v v1 s1 h
    simp [Cell.InvalidateCacheRecursive] at h
  | succ fuel ih =>
    intro s self v v1 s1 h
    unfold Cell.InvalidateCacheRecursive at h
    by_cases hv : self ∈ v
    · simp only [hv, if_true, Outcome.ok.injEq] at h
      exact ⟨[], by simp [h.1], by rw [dropCaches_nil, h.2]⟩
    · simp only [hv, if_false] at h
      cases hc : s.cellAt self with
      | none => simp [hc] at h
      | some c =>
        simp only [hc, Bool.or_true, if_true] at h
        obtain ⟨W, hW, hs⟩ := invalidateEach_ok _ ih _ _ _ _ _ h
        refine ⟨W ++ [self], ?_, ?_⟩
        · rw [hW]
          simp
        · rw [hs, modify_invalidate, dropCaches_dropCaches]

theorem InvalidateCacheRecursive_not_threw :
    ∀ (fuel : Nat) (s : Sheet Num Ast) (self : Position) (v : List Position) (e : Exn)
      (s1 : Sheet Num Ast), Cell.InvalidateCacheRecursive true fuel s self v ≠ .threw e s1 := by
  intro fuel
  induction fuel with
  | zero =>
    intro s self v e s1 h
    simp [Cell.InvalidateCacheRecursive] at h
  | succ fuel ih =>
    intro s self v e s1 h
    unfold Cell.InvalidateCacheRecursive at h
    by_cases hv : self ∈ v
    · simp [hv] at h
    · simp only [hv, if_false] at h
      cases hc : s.cellAt self with
      | none => simp [hc] at h
      | some c =>
        simp only [hc, Bool.or_true, if_true] at h
        exact invalidateEach_not_threw _ ih _ _ _ _ _ h

/-! ## The nested `SetCell` and the loop that links the referenced cells -/

theorem makeImpl_empty (H : Host Num Ast) : Cell.makeImpl H "" = .ok .EmptyImpl := rfl

theorem IsCircularDependent_noRefs (H : Host Num Ast) (s : Sheet Num Ast) (self : Position)
    (impl : Impl Num Ast) (h : impl.GetReferencedCells H = []) :
    Cell.IsCircularDependent H s self impl = .ok false := by
  unfold Cell.IsCircularDependent
  rw [h]

theorem cellAt_ensureEntry (s : Sheet Num Ast) (pos q : Position) :
    (s.ensureEntry pos).cellAt q =
      if (Table.find s.table_ pos).isNone ∧ pos = q then some Cell.new else s.cellAt q := by
  unfold Sheet.ensureEntry
  cases h : Table.find s.table_ pos with
  | none =>
    simp [cellAt_emplace]
  | some v => simp

theorem modify_emplace_fixed (s : Sheet Num Ast) (pos : Position)
    (f : Cell Num Ast → Cell Num Ast) (hf : Table.find s.table_ pos = none)
    (hnew : f Cell.new = Cell.new) : (s.emplace pos).modify pos f = s.emplace pos := by
  have hk : pos ∉ s.keys := (find_eq_none_iff s pos).1 hf
  obtain ⟨t⟩ := s
  unfold Sheet.emplace Sheet.modify
  simp only [List.map_cons, if_true, Option.map_some', hnew, Sheet.mk.injEq, List.cons.injEq,
    true_and]
  conv_rhs => rw [← List.map_id t]
  apply List.map_congr_left
  rintro ⟨k, v⟩ he
  have : k ≠ pos := by
    rintro rfl
    apply hk
    simp only [Sheet.keys, List.mem_map]
    exact ⟨(k, v), he, rfl⟩
  simp [this]

theorem SetCellFuel_blank (H : Host Num Ast) (n : Nat) (s : Sheet Num Ast) (pos : Position)
    (hv : pos.IsValid H = true) (hnone : s.cellAt pos = none) :
    Sheet.SetCellFuel H (n + 1) s pos "" =
      if (Table.find s.table_ pos).isNone then .ok () (s.emplace pos)
      else .undefined .nullDereference := by
  unfold Sheet.SetCellFuel
  simp only [hv, if_true]
  cases hf : Table.find s.table_ pos with
  | none =>
    have he : s.ensureEntry pos = s.emplace pos := by simp [Sheet.ensureEntry, hf]
    have hc : (s.emplace pos).cellAt pos = some Cell.new := by simp [cellAt_emplace]
    rw [he]
    simp only [hc, if_true]
    unfold Cell.Set
    rw [makeImpl_empty]
    simp only []
    rw [IsCircularDependent_noRefs H _ _ Impl.EmptyImpl rfl]
    simp only [hc]
    have h1 : ((s.emplace pos).modify pos fun c => { c with impl_ := Impl.EmptyImpl }) =
        s.emplace pos := modify_emplace_fixed s pos _ hf rfl
    have h2 : ((s.emplace pos).modify pos fun c => { c with r_nodes_ := [] }) =
        s.emplace pos := modify_emplace_fixed s pos _ hf rfl
    have h3 : ((s.emplace pos).modify pos fun c =>
        { c with impl_ := c.impl_.InvalidateCache }) = s.emplace pos :=
      modify_emplace_fixed s pos _ hf rfl
    rw [h1]
    simp only [Cell.new, eraseBackEdges, Outcome.bind]
    have h2' := h2
    simp only [Cell.new] at h2'
    rw [h2']
    simp only [Impl.GetReferencedCells, linkReferenced, Outcome.bind]
    unfold Cell.InvalidateCacheRecursive
    simp only [List.not_mem_nil, if_false, hc, Bool.or_true, if_true]
    rw [h3]
    simp [Cell.new, invalidateEach]
  | some v =>
    have he : s.ensureEntry pos = s := by simp [Sheet.ensureEntry, hf]
    rw [he]
    simp [hnone]

theorem GetCellData_valid (H : Host Num Ast) (s : Sheet Num Ast) (pos : Position)
    (hv : pos.IsValid H = true) : s.GetCellData H pos = .ok (s.cellAt pos) := by
  simp [Sheet.GetCellData, hv]

theorem ensureEntry_of_cellAt (s : Sheet Num Ast) (pos : Position) (c : Cell Num Ast)
    (h : s.cellAt pos = some c) : s.ensureEntry pos = s := by
  unfold Sheet.ensureEntry
  unfold Sheet.cellAt at h
  cases hf : Table.find s.table_ pos with
  | none => simp [hf] at h
  | some v => rfl

theorem linkReferenced_cons (H : Host Num Ast) (n : Nat) (self : Position)
    (s : Sheet Num Ast) (pos : Position) (rest : List Position)
    (hv : pos.IsValid H = true) :
    linkReferenced H (Sheet.SetCellFuel H (n + 1)) self s (pos :: rest) =
      if ((s.ensureEntry pos).cellAt pos).isSome then
        linkReferenced H (Sheet.SetCellFuel H (n + 1)) self (linkStep self s pos) rest
      else .undefined .nullDereference := by
  conv_lhs => rw [linkReferenced]
  rw [GetCellData_valid H s pos hv]
  cases hc : s.cellAt pos with
  | some c =>
    have he := ensureEntry_of_cellAt s pos c hc
    simp only [Outcome.bind, GetCellData_valid H s pos hv, hc, he, Option.isSome_some, if_true]
    unfold linkStep
    rw [he]
  | none =>
    simp only []
    rw [SetCellFuel_blank H n s pos hv hc]
    cases hf : Table.find s.table_ pos with
    | none =>
      have he : s.ensureEntry pos = s.emplace pos := by simp [Sheet.ensureEntry, hf]
      have hc2 : (s.emplace pos).cellAt pos = some Cell.new := by simp [cellAt_emplace]
      simp only [Option.isNone_none, if_true, Outcome.bind,
        GetCellData_valid H (s.emplace pos) pos hv, hc2, he, Option.isSome_some]
      unfold linkStep
      rw [he]
    | some v =>
      have he : s.ensureEntry pos = s := by simp [Sheet.ensureEntry, hf]
      simp [Outcome.bind, he, hc]

theorem cellAt_modify_isSome (s : Sheet Num Ast) (pos : Position)
    (f : Cell Num Ast → Cell Num Ast) (q : Position) :
    ((s.modify pos f).cellAt q).isSome = (s.cellAt q).isSome := by
  rw [cellAt_modify]
  by_cases h : q = pos
  · rw [if_pos h]
    cases s.cellAt q <;> rfl
  · rw [if_neg h]

theorem cellAt_ensureEntry_isSome (s : Sheet Num Ast) (pos q : Position)
    (h : (s.cellAt q).isSome = true) : ((s.ensureEntry pos).cellAt q).isSome = true := by
  rw [cellAt_ensureEntry]
  split
  · rfl
  · exact h

theorem cellAt_linkStep_isSome (self pos q : Position) (s : Sheet Num Ast)
    (h : (s.cellAt q).isSome = true) : ((linkStep self s pos).cellAt q).isSome = true := by
  unfold linkStep
  rw [cellAt_modify_isSome, cellAt_modify_isSome]
  exact cellAt_ensureEntry_isSome s pos q h

theorem cellAt_foldl_linkStep_isSome (self q : Position) (refs : List Position) :
    ∀ s : Sheet Num Ast, (s.cellAt q).isSome = true →
      ((refs.foldl (linkStep self) s).cellAt q).isSome = true := by
  induction refs with
  | nil => exact fun s h => h
  | cons pos rest ih =>
    intro s h
    exact ih _ (cellAt_linkStep_isSome self pos q s h)

theorem cellAt_linkStep_self_isSome (self pos : Position) (s : Sheet Num Ast)
    (h : ((s.ensureEntry pos).cellAt pos).isSome = true) :
    ((linkStep self s pos).cellAt pos).isSome = true := by
  unfold linkStep
  rw [cellAt_modify_isSome, cellAt_modify_isSome]
  exact h

theorem linkReferenced_ok (H : Host Num Ast) (n : Nat) (self : Position)
    (refs : List Position) :
    ∀ (s s1 : Sheet Num Ast) (a : Unit), (∀ pos ∈ refs, pos.IsValid H = true) →
      linkReferenced H (Sheet.SetCellFuel H (n + 1)) self s refs = .ok a s1 →
      s1 = refs.foldl (linkStep self) s ∧ ∀ pos ∈ refs, (s1.cellAt pos).isSome = true := by
  induction refs with
  | nil =>
    intro s s1 a _ h
    simp only [linkReferenced, Outcome.ok.injEq] at h
    simp [h.2]
  | cons pos rest ih =>
    intro s s1 a hv h
    rw [linkReferenced_cons H n self s pos rest (hv pos (List.mem_cons_self _ _))] at h
    by_cases hl : ((s.ensureEntry pos).cellAt pos).isSome = true
    · simp only [hl, if_true] at h
      obtain ⟨hs, hrest⟩ := ih _ _ _ (fun p hp => hv p (List.mem_cons_of_mem _ hp)) h
      refine ⟨by simpa using hs, ?_⟩
      intro p hp
      rcases List.mem_cons.1 hp with rfl | hp
      · rw [hs]
        exact cellAt_foldl_linkStep_isSome self p rest _
          (cellAt_linkStep_self_isSome self p s hl)
      · exact hrest p hp
    · simp [hl] at h

theorem linkReferenced_not_threw (H : Host Num Ast) (n : Nat) (self : Position)
    (refs : List Position) :
    ∀ (s s1 : Sheet Num Ast) (e : Exn), (∀ pos ∈ refs, pos.IsValid H = true) →
      linkReferenced H (Sheet.SetCellFuel H (n + 1)) self s refs ≠ .threw e s1 := by
  induction refs with
  | nil =>
    intro s s1 e _ h
    simp [linkReferenced] at h
  | cons pos rest ih =>
    intro s s1 e hv h
    rw [linkReferenced_cons H n self s pos rest (hv pos (List.mem_cons_self _ _))] at h
    by_cases hl : ((s.ensureEntry pos).cellAt pos).isSome = true
    · simp only [hl, if_true] at h
      exact ih _ _ _ (fun p hp => hv p (List.mem_cons_of_mem _ hp)) h
    · simp [hl] at h

/-! ## The referenced cells of a content -/

theorem mem_unique (x : Position) : ∀ l : List Position, x ∈ unique l ↔ x ∈ l
  | [] => by simp [unique]
  | [a] => by simp [unique]
  | a :: b :: rest => by
    have ih := mem_unique x (b :: rest)
    unfold unique
    by_cases h : a = b
    · subst h
      simp only [if_true, ih, List.mem_cons]
      tauto
    · simp only [h, if_false, List.mem_cons, ih]

theorem mem_GetReferencedCells (H : Host Num Ast) (impl : Impl Num Ast) (pos : Position) :
    pos ∈ impl.GetReferencedCells H ↔ pos ∈ impl.listedCells H ∧ pos.IsValid H = true := by
  cases impl with
  | EmptyImpl => simp [Impl.GetReferencedCells, Impl.listedCells]
  | TextImpl t => simp [Impl.GetReferencedCells, Impl.listedCells]
  | FormulaImpl f c =>
    simp [Impl.GetReferencedCells, Impl.listedCells, Formula.GetReferencedCells, mem_unique]

theorem GetReferencedCells_valid (H : Host Num Ast) (impl : Impl Num Ast) (pos : Position)
    (h : pos ∈ impl.GetReferencedCells H) : pos.IsValid H = true :=
  ((mem_GetReferencedCells H impl pos).1 h).2

theorem referencedSet_ok (H : Host Num Ast) (s : Sheet Num Ast) (l : List Position)
    (hv : ∀ pos ∈ l, pos.IsValid H = true) :
    referencedSet H s l =
      .ok (l.map fun pos => if (s.cellAt pos).isSome then some pos else none) := by
  induction l with
  | nil => rfl
  | cons pos rest ih =>
    unfold referencedSet
    rw [GetCellData_valid H s pos (hv pos (List.mem_cons_self _ _)),
      ih fun p hp => hv p (List.mem_cons_of_mem _ hp)]
    rfl

theorem mem_referenced (s : Sheet Num Ast) (l : List Position) (p : Position) :
    some p ∈ (l.map fun pos => if (s.cellAt pos).isSome then some pos else none) ↔
      p ∈ l ∧ (s.cellAt p).isSome = true := by
  simp only [List.mem_map]
  constructor
  · rintro ⟨q, hq, h⟩
    by_cases hc : (s.cellAt q).isSome = true
    · simp only [hc, if_true, Option.some.injEq] at h
      subst h
      exact ⟨hq, hc⟩
    · simp [hc] at h
  · rintro ⟨hp, hc⟩
    exact ⟨p, hp, by simp [hc]⟩

theorem IsCircularDependent_eq (H : Host Num Ast) (s : Sheet Num Ast) (self : Position)
    (impl : Impl Num Ast) :
    Cell.IsCircularDependent H s self impl =
      if impl.GetReferencedCells H = [] then .ok false
      else IsCircularDependent.loop s
        ((impl.GetReferencedCells H).map fun pos =>
          if (s.cellAt pos).isSome then some pos else none) s.edgeBudget [] [self] := by
  unfold Cell.IsCircularDependent
  have hv := fun pos => GetReferencedCells_valid H impl pos
  cases hr : impl.GetReferencedCells H with
  | nil => simp
  | cons pos rest =>
    rw [hr] at hv
    simp only [referencedSet_ok H s (pos :: rest) hv]
    simp

theorem makeImpl_error (H : Host Num Ast) (text : String) (e : Exn)
    (h : Cell.makeImpl H text = .error e) : e = .FormulaException "" := by
  unfold Cell.makeImpl at h
  cases ht : text.data with
  | nil => simp [ht] at h
  | cons c cs =>
    simp only [ht] at h
    by_cases hc : c = H.FORMULA_SIGN
    · simp only [hc, if_true, FormulaImpl.new, ht, ne_eq, not_true_eq_false, if_false] at h
      unfold ParseFormula at h
      cases hp : Formula.new H (substr1 text) with
      | ok ast => simp [hp] at h
      | error e1 =>
        simp only [hp, Except.error.injEq] at h
        exact h.symm
    · simp [hc, TextImpl.new, ht] at h

/-! ## How `Cell::Set` and `Sheet::SetCell` end -/

theorem Outcome.bind_eq_ok {σ α β : Type} (x : Outcome σ α) (f : α → σ → Outcome σ β)
    (b : β) (s1 : σ) :
    x.bind f = .ok b s1 ↔ ∃ a s0, x = .ok a s0 ∧ f a s0 = .ok b s1 := by
  cases x with
  | ok a s =>
    simp only [Outcome.bind, Outcome.ok.injEq]
    constructor
    · exact fun h => ⟨a, s, ⟨rfl, rfl⟩, h⟩
    · rintro ⟨a1, s0, ⟨rfl, rfl⟩, h⟩
      exact h
  | threw e s => simp [Outcome.bind]
  | undefined u => simp [Outcome.bind]

theorem Outcome.bind_eq_threw {σ α β : Type} (x : Outcome σ α)
    (f : α → σ → Outcome σ β) (e : Exn) (s1 : σ) :
    x.bind f = .threw e s1 ↔
      x = .threw e s1 ∨ ∃ a s0, x = .ok a s0 ∧ f a s0 = .threw e s1 := by
  cases x with
  | ok a s =>
    simp only [Outcome.bind, Outcome.ok.injEq]
    constructor
    · exact fun h => Or.inr ⟨a, s, ⟨rfl, rfl⟩, h⟩
    · rintro (h | ⟨a1, s0, ⟨rfl, rfl⟩, h⟩)
      · simp at h
      · exact h
  | threw e s => simp [Outcome.bind]
  | undefined u => simp [Outcome.bind]

theorem loop_not_threw (s : Sheet Num Ast) (referenced : List (Option Position)) :
    ∀ (fuel : Nat) (visited to_visit : List Position) (e : Exn),
      IsCircularDependent.loop s referenced fuel visited to_visit ≠ .error (.threw e) := by
  intro fuel
  induction fuel with
  | zero =>
    intro visited to_visit e h
    simp [IsCircularDependent.loop] at h
  | succ fuel ih =>
    intro visited to_visit e h
    cases to_visit with
    | nil => simp [IsCircularDependent.loop] at h
    | cons current rest =>
      rw [IsCircularDependent.loop] at h
      by_cases h1 : current ∈ visited
      · rw [if_pos h1] at h
        exact ih _ _ _ h
      · rw [if_neg h1] at h
        by_cases h2 : some current ∈ referenced
        · rw [if_pos h2] at h
          simp at h
        · rw [if_neg h2] at h
          cases hc : s.cellAt current with
          | none => simp [hc] at h
          | some c =>
            simp only [hc] at h
            exact ih _ _ _ h

theorem IsCircularDependent_not_threw (H : Host Num Ast) (s : Sheet Num Ast)
    (self : Position) (impl : Impl Num Ast) (e : Exn) :
    Cell.IsCircularDependent H s self impl ≠ .error (.threw e) := by
  rw [IsCircularDependent_eq]
  split
  · simp
  · exact loop_not_threw s _ _ _ _ e

theorem Set_threw (H : Host Num Ast) (s s1 : Sheet Num Ast) (self : Position)
    (text : String) (e : Exn) (h : Sheet.Set H s self text = .threw e s1) :
    s1 = s ∧ ((e = .FormulaException "" ∧ Cell.makeImpl H text = .error e) ∨
      (e = .CircularDependencyException ∧ ∃ impl, Cell.makeImpl H text = .ok impl ∧
        Cell.IsCircularDependent H s self impl = .ok true)) := by
  unfold Sheet.Set Cell.Set at h
  cases hm : Cell.makeImpl H text with
  | error e0 =>
    simp only [hm, Outcome.threw.injEq] at h
    obtain ⟨rfl, rfl⟩ := h
    exact ⟨rfl, Or.inl ⟨makeImpl_error H text _ hm, rfl⟩⟩
  | ok impl =>
    simp only [hm] at h
    cases hc : Cell.IsCircularDependent H s self impl with
    | error a =>
      cases a with
      | threw e1 => exact absurd hc (IsCircularDependent_not_threw H s self impl e1)
      | undefined f => simp [hc] at h
    | ok b =>
      cases b with
      | true =>
        simp only [hc, Outcome.threw.injEq] at h
        obtain ⟨rfl, rfl⟩ := h
        exact ⟨rfl, Or.inr ⟨rfl, impl, rfl, hc⟩⟩
      | false =>
        simp only [hc] at h
        cases hs : s.cellAt self with
        | none => simp [hs] at h
        | some old =>
          simp only [hs] at h
          rw [Outcome.bind_eq_threw] at h
          rcases h with h | ⟨a, s2, h2, h⟩
          · exact absurd h (eraseBackEdges_not_threw _ _ _ _ _)
          · rw [Outcome.bind_eq_threw] at h
            rcases h with h | ⟨a4, s4, h4, h⟩
            · exact absurd h (linkReferenced_not_threw H 0 self _ _ _ _
                (fun p hp => GetReferencedCells_valid H impl p hp))
            · rw [Outcome.bind_eq_threw] at h
              rcases h with h | ⟨a5, s5, h5, h⟩
              · exact absurd h (InvalidateCacheRecursive_not_threw _ _ _ _ _ _)
              · simp at h

theorem Set_ok (H : Host Num Ast) (s s1 : Sheet Num Ast) (self : Position)
    (text : String) (a : Unit) (h : Sheet.Set H s self text = .ok a s1) :
    ∃ impl old W, Cell.makeImpl H text = .ok impl ∧
      Cell.IsCircularDependent H s self impl = .ok false ∧ s.cellAt self = some old ∧
      s1 = (s.committed H self impl old.r_nodes_).dropCaches W ∧
      ∀ pos ∈ impl.GetReferencedCells H,
        ((s.committed H self impl old.r_nodes_).cellAt pos).isSome = true := by
  unfold Sheet.Set Cell.Set at h
  cases hm : Cell.makeImpl H text with
  | error e0 => simp [hm] at h
  | ok impl =>
    simp only [hm] at h
    cases hc : Cell.IsCircularDependent H s self impl with
    | error a =>
      cases a with
      | threw e1 => exact absurd hc (IsCircularDependent_not_threw H s self impl e1)
      | undefined f => simp [hc] at h
    | ok b =>
      cases b with
      | true => simp [hc] at h
      | false =>
        simp only [hc] at h
        cases hs : s.cellAt self with
        | none => simp [hs] at h
        | some old =>
          simp only [hs] at h
          rw [Outcome.bind_eq_ok] at h
          obtain ⟨a2, s2, h2, h⟩ := h
          rw [Outcome.bind_eq_ok] at h
          obtain ⟨a4, s4, h4, h⟩ := h
          rw [Outcome.bind_eq_ok] at h
          obtain ⟨v5, s5, h5, h⟩ := h
          simp only [Outcome.ok.injEq] at h
          have e2 := eraseBackEdges_ok _ _ _ _ _ h2
          obtain ⟨e4, hl⟩ := linkReferenced_ok H 0 self _ _ _ _
            (fun p hp => GetReferencedCells_valid H impl p hp) h4
          obtain ⟨W, _, e5⟩ := InvalidateCacheRecursive_ok _ _ _ _ _ _ h5
          refine ⟨impl, old, W, rfl, hc, rfl, ?_, ?_⟩
          · rw [← h.2, e5, e4, e2]
            rfl
          · intro pos hp
            have := hl pos hp
            rw [e4, e2] at this
            exact this

theorem SetCell_eq (H : Host Num Ast) (s : Sheet Num Ast) (pos : Position) (text : String) :
    s.SetCell H pos text =
      if pos.IsValid H then
        match (s.ensureEntry pos).cellAt pos with
        | none => .undefined .nullDereference
        | some _ => Sheet.Set H (s.ensureEntry pos) pos text
      else .threw .InvalidPositionException s := rfl

theorem SetCell_threw (H : Host Num Ast) (s s1 : Sheet Num Ast) (pos : Position)
    (text : String) (e : Exn) (h : s.SetCell H pos text = .threw e s1) :
    (pos.IsValid H = false ∧ e = .InvalidPositionException ∧ s1 = s) ∨
    (pos.IsValid H = true ∧ s1 = s.ensureEntry pos ∧
      ((s.ensureEntry pos).cellAt pos).isSome = true ∧
      ((e = .FormulaException "" ∧ Cell.makeImpl H text = .error e) ∨
        (e = .CircularDependencyException ∧ ∃ impl, Cell.makeImpl H text = .ok impl ∧
          Cell.IsCircularDependent H (s.ensureEntry pos) pos impl = .ok true))) := by
  rw [SetCell_eq] at h
  by_cases hv : pos.IsValid H = true
  · rw [if_pos hv] at h
    cases hc : (s.ensureEntry pos).cellAt pos with
    | none => simp [hc] at h
    | some c =>
      simp only [hc] at h
      obtain ⟨hs, he⟩ := Set_threw H _ _ _ _ _ h
      exact Or.inr ⟨hv, hs, rfl, he⟩
  · rw [if_neg hv] at h
    simp only [Outcome.threw.injEq] at h
    exact Or.inl ⟨by simpa using hv, h.1.symm, h.2.symm⟩

theorem SetCell_ok (H : Host Num Ast) (s s1 : Sheet Num Ast) (pos : Position)
    (text : String) (a : Unit) (h : s.SetCell H pos text = .ok a s1) :
    pos.IsValid H = true ∧ ∃ impl old W, Cell.makeImpl H text = .ok impl ∧
      Cell.IsCircularDependent H (s.ensureEntry pos) pos impl = .ok false ∧
      (s.ensureEntry pos).cellAt pos = some old ∧
      s1 = ((s.ensureEntry pos).committed H pos impl old.r_nodes_).dropCaches W ∧
      ∀ q ∈ impl.GetReferencedCells H,
        (((s.ensureEntry pos).committed H pos impl old.r_nodes_).cellAt q).isSome = true := by
  rw [SetCell_eq] at h
  by_cases hv : pos.IsValid H = true
  · rw [if_pos hv] at h
    cases hc : (s.ensureEntry pos).cellAt pos with
    | none => simp [hc] at h
    | some c =>
      simp only [hc] at h
      obtain ⟨impl, old, W, h1, h2, h3, h4, h5⟩ := Set_ok H _ _ _ _ _ h
      exact ⟨hv, impl, old, W, h1, h2, hc.symm.trans h3, h4, h5⟩
  · rw [if_neg hv] at h
    simp at h

theorem find_ensureEntry (s : Sheet Num Ast) (pos q : Position) :
    Table.find (s.ensureEntry pos).table_ q =
      if (Table.find s.table_ pos).isNone ∧ pos = q then some (some Cell.new)
      else Table.find s.table_ q := by
  unfold Sheet.ensureEntry
  cases h : Table.find s.table_ pos with
  | none => simp [find_emplace]
  | some v => simp

theorem find_ensureEntry_of_present (s : Sheet Num Ast) (pos q : Position)
    (h : Table.find s.table_ q ≠ none) :
    Table.find (s.ensureEntry pos).table_ q = Table.find s.table_ q := by
  rw [find_ensureEntry]
  split
  · rename_i h1
    obtain ⟨h2, rfl⟩ := h1
    simp only [Option.isNone_iff_eq_none] at h2
    exact absurd h2 h
  · rfl

theorem ClearCell_threw (H : Host Num Ast) (s s1 : Sheet Num Ast) (pos : Position) (e : Exn)
    (h : s.ClearCell H pos = .threw e s1) :
    pos.IsValid H = false ∧ e = .InvalidPositionException ∧ s1 = s := by
  unfold Sheet.ClearCell at h
  by_cases hv : pos.IsValid H = true
  · rw [if_pos hv] at h
    split at h
    · simp only [] at h
      split at h
      · simp at h
      · split at h <;> simp at h
    · simp at h
  · rw [if_neg hv] at h
    simp only [Outcome.threw.injEq] at h
    exact ⟨by simpa using hv, h.1.symm, h.2.symm⟩

/-! ## The keys of the map stay valid and distinct -/

theorem keys_emplace (s : Sheet Num Ast) (pos : Position) :
    (s.emplace pos).keys = pos :: s.keys := rfl

theorem keys_ensureEntry (s : Sheet Num Ast) (pos : Position) :
    (s.ensureEntry pos).keys = if pos ∈ s.keys then s.keys else pos :: s.keys := by
  unfold Sheet.ensureEntry
  cases h : Table.find s.table_ pos with
  | none =>
    have := (find_eq_none_iff s pos).1 h
    simp [this, keys_emplace]
  | some v =>
    have : pos ∈ s.keys := by
      by_contra hn
      rw [(find_eq_none_iff s pos).2 hn] at h
      exact Option.noConfusion h
    simp [this]

theorem KeysOK_of_keys_eq (H : Host Num Ast) (s s1 : Sheet Num Ast) (h : s1.keys = s.keys)
    (hs : s.KeysOK H) : s1.KeysOK H := by
  unfold Sheet.KeysOK
  rw [h]
  exact hs

theorem KeysOK_ensureEntry (H : Host Num Ast) (s : Sheet Num Ast) (pos : Position)
    (hv : pos.IsValid H = true) (hs : s.KeysOK H) : (s.ensureEntry pos).KeysOK H := by
  unfold Sheet.KeysOK
  rw [keys_ensureEntry]
  by_cases h : pos ∈ s.keys
  · rw [if_pos h]
    exact hs
  · rw [if_neg h]
    refine ⟨List.nodup_cons.2 ⟨h, hs.1⟩, ?_⟩
    intro k hk
    rcases List.mem_cons.1 hk with rfl | hk
    · exact hv
    · exact hs.2 k hk

theorem KeysOK_linkStep (H : Host Num Ast) (self pos : Position) (s : Sheet Num Ast)
    (hv : pos.IsValid H = true) (hs : s.KeysOK H) : (linkStep self s pos).KeysOK H := by
  unfold linkStep
  apply KeysOK_of_keys_eq H (s.ensureEntry pos)
  · rw [keys_modify, keys_modify]
  · exact KeysOK_ensureEntry H s pos hv hs

theorem KeysOK_foldl_linkStep (H : Host Num Ast) (self : Position) (refs : List Position) :
    ∀ s : Sheet Num Ast, (∀ pos ∈ refs, pos.IsValid H = true) → s.KeysOK H →
      (refs.foldl (linkStep self) s).KeysOK H := by
  induction refs with
  | nil => exact fun s _ hs => hs
  | cons pos rest ih =>
    intro s hv hs
    exact ih _ (fun p hp => hv p (List.mem_cons_of_mem _ hp))
      (KeysOK_linkStep H self pos s (hv pos (List.mem_cons_self _ _)) hs)

theorem KeysOK_committed (H : Host Num Ast) (s : Sheet Num Ast) (self : Position)
    (impl : Impl Num Ast) (old_r : List Position) (hs : s.KeysOK H) :
    (s.committed H self impl old_r).KeysOK H := by
  unfold Sheet.committed
  apply KeysOK_foldl_linkStep H self _ _ (fun p hp => GetReferencedCells_valid H impl p hp)
  apply KeysOK_of_keys_eq H s _ _ hs
  unfold Sheet.unlinked
  rw [keys_modify, keys_mapCells, keys_modify]

theorem KeysOK_SetCell (H : Host Num Ast) (s s1 : Sheet Num Ast) (pos : Position)
    (text : String) (h : (s.SetCell H pos text).state? = some s1) (hs : s.KeysOK H) :
    s1.KeysOK H := by
  cases hr : s.SetCell H pos text with
  | ok a s2 =>
    rw [hr] at h
    simp only [Outcome.state?, Option.some.injEq] at h
    subst h
    obtain ⟨hv, impl, old, W, _, _, _, h4, _⟩ := SetCell_ok H s s2 pos text a hr
    rw [h4]
    apply KeysOK_of_keys_eq H _ _ (keys_mapCells _ _)
    exact KeysOK_committed H _ _ _ _ (KeysOK_ensureEntry H s pos hv hs)
  | threw e s2 =>
    rw [hr] at h
    simp only [Outcome.state?, Option.some.injEq] at h
    subst h
    rcases SetCell_threw H s s2 pos text e hr with ⟨_, _, h3⟩ | ⟨hv, h3, _⟩
    · rw [h3]
      exact hs
    · rw [h3]
      exact KeysOK_ensureEntry H s pos hv hs
  | undefined f =>
    rw [hr] at h
    simp [Outcome.state?] at h

theorem ClearCell_state (H : Host Num Ast) (s s1 : Sheet Num Ast) (pos : Position)
    (h : (s.ClearCell H pos).state? = some s1) :
    s1 = s ∨ s1 = (Cell.Clear s pos).reset pos := by
  unfold Sheet.ClearCell at h
  by_cases hv : pos.IsValid H = true
  · rw [if_pos hv] at h
    cases hf : Table.find s.table_ pos with
    | none =>
      simp only [hf, Outcome.state?, Option.some.injEq] at h
      exact Or.inl h.symm
    | some v =>
      cases v with
      | none =>
        simp only [hf, Outcome.state?, Option.some.injEq] at h
        exact Or.inl h.symm
      | some c =>
        simp only [hf] at h
        have hc : (Cell.Clear s pos).cellAt pos =
            some { c with impl_ := Impl.EmptyImpl } := by
          unfold Cell.Clear
          rw [cellAt_modify]
          simp [Sheet.cellAt, hf]
        simp only [hc, Impl.GetText, if_true, Outcome.state?, Option.some.injEq] at h
        exact Or.inr h.symm
  · rw [if_neg hv] at h
    simp only [Outcome.state?, Option.some.injEq] at h
    exact Or.inl h.symm

theorem KeysOK_ClearCell (H : Host Num Ast) (s s1 : Sheet Num Ast) (pos : Position)
    (h : (s.ClearCell H pos).state? = some s1) (hs : s.KeysOK H) : s1.KeysOK H := by
  rcases ClearCell_state H s s1 pos h with rfl | rfl
  · exact hs
  · apply KeysOK_of_keys_eq H s _ _ hs
    rw [keys_reset]
    unfold Cell.Clear
    rw [keys_modify]

/-! ## Reading a value changes cells only -/

theorem Sheet.SameEntries.refl (s : Sheet Num Ast) : s.SameEntries s :=
  ⟨fun _ c => c, (mapCells_id _ s fun _ _ => rfl).symm⟩

theorem Sheet.SameEntries.trans {s s1 s2 : Sheet Num Ast} (h1 : s.SameEntries s1)
    (h2 : s1.SameEntries s2) : s.SameEntries s2 := by
  obtain ⟨g1, rfl⟩ := h1
  obtain ⟨g2, rfl⟩ := h2
  exact ⟨_, mapCells_mapCells g1 g2 s⟩

theorem Sheet.SameEntries.modify (s : Sheet Num Ast) (pos : Position)
    (f : Cell Num Ast → Cell Num Ast) : s.SameEntries (s.modify pos f) :=
  ⟨_, modify_eq_mapCells s pos f⟩

theorem run_sameEntries (H : Host Num Ast)
    (getValue : Sheet Num Ast → Position → Outcome (Sheet Num Ast) (Value Num))
    (hget : ∀ s p s1, (getValue s p).state? = some s1 → s.SameEntries s1) (x : Exec Num) :
    ∀ s s1 : Sheet Num Ast, (Formula.run H getValue x s).state? = some s1 →
      s.SameEntries s1 := by
  induction x with
  | done r =>
    intro s s1 h
    simp only [Formula.run, Outcome.state?, Option.some.injEq] at h
    rw [← h]
    exact Sheet.SameEntries.refl s
  | ask p k ih =>
    intro s s1 h
    rw [Formula.run] at h
    by_cases hv : p.IsValid H = true
    · rw [if_pos hv] at h
      unfold Sheet.GetCell at h
      rw [GetCellData_valid H s p hv] at h
      cases hc : s.cellAt p with
      | none =>
        simp only [hc] at h
        exact ih _ _ _ h
      | some c =>
        simp only [hc] at h
        cases hg : getValue s p with
        | threw e s2 =>
          simp only [hg, Outcome.state?, Option.some.injEq] at h
          rw [← h]
          exact hget s p s2 (by rw [hg]; rfl)
        | undefined f => simp [hg, Outcome.state?] at h
        | ok v s2 =>
          have h2 : s.SameEntries s2 := hget s p s2 (by rw [hg]; rfl)
          cases v with
          | number val =>
            simp only [hg] at h
            exact h2.trans (ih _ _ _ h)
          | error er =>
            simp only [hg, Outcome.state?, Option.some.injEq] at h
            rw [← h]
            exact h2
          | str str_val =>
            simp only [hg] at h
            cases hd : str_val.data with
            | nil =>
              simp only [hd] at h
              exact h2.trans (ih _ _ _ h)
            | cons ch rest =>
              simp only [hd] at h
              cases hr : H.extractDouble str_val with
              | some r =>
                simp only [hr] at h
                by_cases he : eof str_val r.2 = true
                · rw [if_pos he] at h
                  exact h2.trans (ih _ _ _ h)
                · rw [if_neg he] at h
                  simp only [Outcome.state?, Option.some.injEq] at h
                  rw [← h]
                  exact h2
              | none =>
                simp only [hr, Outcome.state?, Option.some.injEq] at h
                rw [← h]
                exact h2
    · rw [if_neg hv] at h
      simp only [Outcome.state?, Option.some.injEq] at h
      rw [← h]
      exact Sheet.SameEntries.refl s

theorem GetValueFuel_sameEntries (H : Host Num Ast) :
    ∀ (fuel : Nat) (s : Sheet Num Ast) (self : Position) (s1 : Sheet Num Ast),
      (Cell.GetValueFuel H fuel s self).state? = some s1 → s.SameEntries s1 := by
  intro fuel
  induction fuel with
  | zero =>
    intro s self s1 h
    simp [Cell.GetValueFuel, Outcome.state?] at h
  | succ fuel ih =>
    intro s self s1 h
    rw [Cell.GetValueFuel] at h
    cases hc : s.cellAt self with
    | none => simp [hc, Outcome.state?] at h
    | some c =>
      simp only [hc] at h
      cases hi : c.impl_ with
      | EmptyImpl =>
        simp only [hi, Outcome.state?, Option.some.injEq] at h
        rw [← h]
        exact Sheet.SameEntries.refl s
      | TextImpl t =>
        simp only [hi, Outcome.state?, Option.some.injEq] at h
        rw [← h]
        exact Sheet.SameEntries.refl s
      | FormulaImpl f cache =>
        cases cache with
        | some v =>
          simp only [hi, Outcome.state?, Option.some.injEq] at h
          rw [← h]
          exact Sheet.SameEntries.refl s
        | none =>
          simp only [hi] at h
          unfold Formula.Evaluate at h
          cases hr : Formula.run H (Cell.GetValueFuel H fuel) (H.Execute f) s with
          | ok v s2 =>
            have h2 := run_sameEntries H _ (fun s p s1 => ih s p s1) (H.Execute f) s s2
              (by rw [hr]; rfl)
            simp only [hr, Outcome.bind, Outcome.state?, Option.some.injEq] at h
            rw [← h]
            exact h2.trans (Sheet.SameEntries.modify _ _ _)
          | threw e s2 =>
            have h2 := run_sameEntries H _ (fun s p s1 => ih s p s1) (H.Execute f) s s2
              (by rw [hr]; rfl)
            simp only [hr, Outcome.bind, Outcome.state?, Option.some.injEq] at h
            rw [← h]
            exact h2
          | undefined u => simp [hr, Outcome.bind, Outcome.state?] at h

theorem GetPrintableSize_mapCells (g : Position → Cell Num Ast → Cell Num Ast)
    (s : Sheet Num Ast) : (s.mapCells g).GetPrintableSize = s.GetPrintableSize := by
  obtain ⟨t⟩ := s
  unfold Sheet.GetPrintableSize Sheet.mapCells
  simp only
  have key : ∀ (t : List (Position × Option (Cell Num Ast))) (init : Size),
      List.foldl (fun (size : Size) (e : Position × Option (Cell Num Ast)) =>
          match e.2 with
          | some _ => (⟨max size.rows e.1.row, max size.cols e.1.col⟩ : Size)
          | none => size) init (t.map fun e => (e.1, e.2.map (g e.1))) =
        List.foldl (fun (size : Size) (e : Position × Option (Cell Num Ast)) =>
          match e.2 with
          | some _ => (⟨max size.rows e.1.row, max size.cols e.1.col⟩ : Size)
          | none => size) init t := by
    intro t
    induction t with
    | nil => intro init; rfl
    | cons e t ih =>
      intro init
      obtain ⟨k, v⟩ := e
      cases v <;> simp only [List.map_cons, List.foldl_cons, Option.map] <;> exact ih _
  rw [key]

/-! ## The printable size -/

theorem Reachable.keysOK (H : Host Num Ast) (s : Sheet Num Ast) (h : Reachable H s) :
    s.KeysOK H := by
  induction h with
  | empty => exact ⟨List.nodup_nil, fun k hk => by simp [Sheet.keys, Sheet.empty] at hk⟩
  | setCell pos text _ h ih => exact KeysOK_SetCell H _ _ pos text h ih
  | clearCell pos _ h ih => exact KeysOK_ClearCell H _ _ pos h ih
  | getValue pos _ h ih =>
    obtain ⟨g, rfl⟩ := GetValueFuel_sameEntries H _ _ pos _ h
    exact KeysOK_of_keys_eq H _ _ (keys_mapCells _ _) ih

theorem mem_of_find (t : List (Position × Option (Cell Num Ast))) (p : Position)
    (v : Option (Cell Num Ast)) (h : Table.find t p = some v) : (p, v) ∈ t := by
  induction t with
  | nil => simp [Table.find] at h
  | cons e t ih =>
    obtain ⟨k, w⟩ := e
    by_cases hk : k = p
    · subst hk
      simp only [Table.find, if_true, Option.some.injEq] at h
      subst h
      exact List.mem_cons_self _ _
    · simp only [Table.find, hk, if_false] at h
      exact List.mem_cons_of_mem _ (ih h)

theorem find_of_mem (t : List (Position × Option (Cell Num Ast))) (p : Position)
    (v : Option (Cell Num Ast)) (hn : (t.map Prod.fst).Nodup) (h : (p, v) ∈ t) :
    Table.find t p = some v := by
  induction t with
  | nil => simp at h
  | cons e t ih =>
    obtain ⟨k, w⟩ := e
    simp only [List.map_cons, List.nodup_cons] at hn
    rcases List.mem_cons.1 h with h | h
    · obtain ⟨rfl, rfl⟩ := Prod.mk.inj h
      simp [Table.find]
    · have hk : k ≠ p := by
        rintro rfl
        apply hn.1
        simp only [List.mem_map]
        exact ⟨(k, v), h, rfl⟩
      simp only [Table.find, hk, if_false]
      exact ih hn.2 h

theorem mem_of_cellAt (s : Sheet Num Ast) (p : Position) (c : Cell Num Ast)
    (h : s.cellAt p = some c) : (p, some c) ∈ s.table_ := by
  unfold Sheet.cellAt at h
  cases hf : Table.find s.table_ p with
  | none => simp [hf] at h
  | some v =>
    cases v with
    | none => simp [hf] at h
    | some c1 =>
      simp only [hf, Option.some.injEq] at h
      subst h
      exact mem_of_find _ _ _ hf

theorem cellAt_of_mem (s : Sheet Num Ast) (p : Position) (c : Cell Num Ast)
    (hn : s.keys.Nodup) (h : (p, some c) ∈ s.table_) : s.cellAt p = some c := by
  unfold Sheet.cellAt
  rw [find_of_mem _ _ _ hn h]

theorem IsValid_nonneg (H : Host Num Ast) (p : Position) (h : p.IsValid H = true) :
    0 ≤ p.row ∧ 0 ≤ p.col := by
  simp only [Position.IsValid, Bool.and_eq_true, decide_eq_true_eq] at h
  exact ⟨h.1.1.1, h.1.1.2⟩

theorem size_fold (t : List (Position × Option (Cell Num Ast))) :
    ∀ init : Size,
      init.rows ≤ (t.foldl (fun (size : Size) e =>
          match e.2 with
          | some _ => (⟨max size.rows e.1.row, max size.cols e.1.col⟩ : Size)
          | none => size) init).rows ∧
      init.cols ≤ (t.foldl (fun (size : Size) e =>
          match e.2 with
          | some _ => (⟨max size.rows e.1.row, max size.cols e.1.col⟩ : Size)
          | none => size) init).cols ∧
      (∀ e ∈ t, e.2.isSome = true →
        e.1.row ≤ (t.foldl (fun (size : Size) e =>
          match e.2 with
          | some _ => (⟨max size.rows e.1.row, max size.cols e.1.col⟩ : Size)
          | none => size) init).rows ∧
        e.1.col ≤ (t.foldl (fun (size : Size) e =>
          match e.2 with
          | some _ => (⟨max size.rows e.1.row, max size.cols e.1.col⟩ : Size)
          | none => size) init).cols) ∧
      ((t.foldl (fun (size : Size) e =>
          match e.2 with
          | some _ => (⟨max size.rows e.1.row, max size.cols e.1.col⟩ : Size)
          | none => size) init).rows = init.rows ∨
        ∃ e ∈ t, e.2.isSome = true ∧ (t.foldl (fun (size : Size) e =>
          match e.2 with
          | some _ => (⟨max size.rows e.1.row, max size.cols e.1.col⟩ : Size)
          | none => size) init).rows = e.1.row) ∧
      ((t.foldl (fun (size : Size) e =>
          match e.2 with
          | some _ => (⟨max size.rows e.1.row, max size.cols e.1.col⟩ : Size)
          | none => size) init).cols = init.cols ∨
        ∃ e ∈ t, e.2.isSome = true ∧ (t.foldl (fun (size : Size) e =>
          match e.2 with
          | some _ => (⟨max size.rows e.1.row, max size.cols e.1.col⟩ : Size)
          | none => size) init).cols = e.1.col) := by
  induction t with
  | nil =>
    intro init
    simp
  | cons e t ih =>
    intro init
    obtain ⟨k, v⟩ := e
    cases v with
    | none =>
      simp only [List.foldl_cons]
      obtain ⟨h1, h2, h3, h4, h5⟩ := ih init
      refine ⟨h1, h2, ?_, ?_, ?_⟩
      · intro e he hs
        rcases List.mem_cons.1 he with rfl | he
        · simp at hs
        · exact h3 e he hs
      · rcases h4 with h4 | ⟨e, he, hs, h4⟩
        · exact Or.inl h4
        · exact Or.inr ⟨e, List.mem_cons_of_mem _ he, hs, h4⟩
      · rcases h5 with h5 | ⟨e, he, hs, h5⟩
        · exact Or.inl h5
        · exact Or.inr ⟨e, List.mem_cons_of_mem _ he, hs, h5⟩
    | some c =>
      simp only [List.foldl_cons]
      obtain ⟨h1, h2, h3, h4, h5⟩ := ih ⟨max init.rows k.row, max init.cols k.col⟩
      simp only at h1 h2 h4 h5
      refine ⟨le_trans (le_max_left _ _) h1, le_trans (le_max_left _ _) h2, ?_, ?_, ?_⟩
      · intro e he hs
        rcases List.mem_cons.1 he with rfl | he
        · exact ⟨le_trans (le_max_right _ _) h1, le_trans (le_max_right _ _) h2⟩
        · exact h3 e he hs
      · rcases h4 with h4 | ⟨e, he, hs, h4⟩
        · rcases max_choice init.rows k.row with hm | hm
          · exact Or.inl (by rw [h4, hm])
          · exact Or.inr ⟨(k, some c), List.mem_cons_self _ _, rfl, by rw [h4, hm]⟩
        · exact Or.inr ⟨e, List.mem_cons_of_mem _ he, hs, h4⟩
      · rcases h5 with h5 | ⟨e, he, hs, h5⟩
        · rcases max_choice init.cols k.col with hm | hm
          · exact Or.inl (by rw [h5, hm])
          · exact Or.inr ⟨(k, some c), List.mem_cons_self _ _, rfl, by rw [h5, hm]⟩
        · exact Or.inr ⟨e, List.mem_cons_of_mem _ he, hs, h5⟩

theorem GetPrintableSize_spec (H : Host Num Ast) (s : Sheet Num Ast) (hk : s.KeysOK H) :
    (∀ p c, s.cellAt p = some c →
      p.row < s.GetPrintableSize.rows ∧ p.col < s.GetPrintableSize.cols) ∧
    ((∀ p, s.cellAt p = none) → s.GetPrintableSize = ⟨0, 0⟩) ∧
    (∀ p0 c0, s.cellAt p0 = some c0 →
      (∃ p c, s.cellAt p = some c ∧ s.GetPrintableSize.rows = p.row + 1) ∧
      (∃ q c, s.cellAt q = some c ∧ s.GetPrintableSize.cols = q.col + 1)) := by
  obtain ⟨_, _, h3, h4, h5⟩ := size_fold s.table_ ⟨-1, -1⟩
  have live : ∀ e ∈ s.table_, e.2.isSome = true → ∃ c, s.cellAt e.1 = some c := by
    rintro ⟨k, v⟩ he hs
    cases v with
    | none => simp at hs
    | some c => exact ⟨c, cellAt_of_mem s k c hk.1 he⟩
  have bound : ∀ p c, s.cellAt p = some c →
      p.row < s.GetPrintableSize.rows ∧ p.col < s.GetPrintableSize.cols := by
    intro p c hc
    have := h3 (p, some c) (mem_of_cellAt s p c hc) rfl
    simp only [Sheet.GetPrintableSize]
    constructor
    · exact Int.lt_add_one_iff.2 this.1
    · exact Int.lt_add_one_iff.2 this.2
  refine ⟨bound, ?_, ?_⟩
  · intro hnone
    have hr : ∀ e ∈ s.table_, ¬ e.2.isSome = true := by
      intro e he hs
      obtain ⟨c, hc⟩ := live e he hs
      rw [hnone] at hc
      exact Option.noConfusion hc
    have h4' := h4.resolve_right (fun ⟨e, he, hs, _⟩ => hr e he hs)
    have h5' := h5.resolve_right (fun ⟨e, he, hs, _⟩ => hr e he hs)
    simp only [Sheet.GetPrintableSize, h4', h5']
    rfl
  · intro p0 c0 hc0
    have hv := IsValid_nonneg H p0 (hk.2 p0 (by
      simp only [Sheet.keys, List.mem_map]
      exact ⟨(p0, some c0), mem_of_cellAt s p0 c0 hc0, rfl⟩))
    have hb := h3 (p0, some c0) (mem_of_cellAt s p0 c0 hc0) rfl
    constructor
    · rcases h4 with h4 | ⟨e, he, hs, h4⟩
      · exfalso
        have h6 := hb.1
        rw [h4] at h6
        have h7 := hv.1
        simp only at h6
        omega
      · obtain ⟨c, hc⟩ := live e he hs
        exact ⟨e.1, c, hc, by simp only [Sheet.GetPrintableSize, h4]⟩
    · rcases h5 with h5 | ⟨e, he, hs, h5⟩
      · exfalso
        have h6 := hb.2
        rw [h5] at h6
        have h7 := hv.2
        simp only at h6
        omega
      · obtain ⟨c, hc⟩ := live e he hs
        exact ⟨e.1, c, hc, by simp only [Sheet.GetPrintableSize, h5]⟩

/-! ## The sheet after a successful edit -/

theorem cellAt_linkStep (self pos q : Position) (s : Sheet Num Ast) :
    (linkStep self s pos).cellAt q = ((s.ensureEntry pos).cellAt q).map fun c =>
      { impl_ := c.impl_,
        l_nodes_ := if q = pos then setInsert self c.l_nodes_ else c.l_nodes_,
        r_nodes_ := if q = self then setInsert pos c.r_nodes_ else c.r_nodes_ } := by
  unfold linkStep
  rw [cellAt_modify, cellAt_modify]
  by_cases h1 : q = pos
  · subst h1
    by_cases h2 : q = self
    · subst h2
      cases (s.ensureEntry q).cellAt q <;> simp
    · cases (s.ensureEntry q).cellAt q <;> simp [h2]
  · by_cases h2 : q = self
    · subst h2
      cases (s.ensureEntry pos).cellAt q <;> simp [h1]
    · cases (s.ensureEntry pos).cellAt q <;> simp [h1, h2]

theorem cellAt_ensureEntry_notNull (s : Sheet Num Ast) (pos q : Position)
    (hp : s.NotNull pos) :
    (s.ensureEntry pos).cellAt q =
      if q = pos ∧ (s.cellAt pos).isNone then some Cell.new else s.cellAt q := by
  rw [cellAt_ensureEntry]
  by_cases hq : q = pos
  · subst hq
    cases hf : Table.find s.table_ q with
    | none => simp [Sheet.cellAt, hf]
    | some v =>
      cases v with
      | none => exact absurd hf hp
      | some c => simp [Sheet.cellAt, hf]
  · have : ¬ pos = q := fun h => hq h.symm
    simp [hq, this]

theorem linkStep_live (self pos q : Position) (s : Sheet Num Ast) (hp : s.NotNull pos) :
    ((linkStep self s pos).cellAt q).isSome = true ↔
      (s.cellAt q).isSome = true ∨ q = pos := by
  rw [cellAt_linkStep, cellAt_ensureEntry_notNull s pos q hp]
  by_cases hq : q = pos
  · subst hq
    cases hc : s.cellAt q <;> simp
  · simp [hq]

theorem linkStep_implAt (self pos q : Position) (s : Sheet Num Ast) (hp : s.NotNull pos) :
    (linkStep self s pos).implAt q =
      if (s.cellAt q).isSome then s.implAt q
      else if q = pos then some .EmptyImpl else none := by
  unfold Sheet.implAt
  rw [cellAt_linkStep, cellAt_ensureEntry_notNull s pos q hp]
  by_cases hq : q = pos
  · subst hq
    cases hc : s.cellAt q <;> simp [Cell.new]
  · cases hc : s.cellAt q <;> simp [hq]

theorem linkStep_in_edges (self pos q x : Position) (s : Sheet Num Ast)
    (hp : s.NotNull pos) :
    x ∈ (linkStep self s pos).in_edges q ↔ x ∈ s.in_edges q ∨ (x = self ∧ q = pos) := by
  unfold Sheet.in_edges
  rw [cellAt_linkStep, cellAt_ensureEntry_notNull s pos q hp]
  by_cases hq : q = pos
  · subst hq
    cases hc : s.cellAt q <;> simp [Cell.new, mem_setInsert]
    tauto
  · cases hc : s.cellAt q <;> simp [hq]

theorem linkStep_out_edges (self pos q x : Position) (s : Sheet Num Ast)
    (hp : s.NotNull pos) (hself : (s.cellAt self).isSome = true) :
    x ∈ (linkStep self s pos).out_edges q ↔ x ∈ s.out_edges q ∨ (q = self ∧ x = pos) := by
  unfold Sheet.out_edges
  rw [cellAt_linkStep, cellAt_ensureEntry_notNull s pos q hp]
  by_cases hq : q = self
  · subst hq
    cases hc : s.cellAt q with
    | none => simp [hc] at hself
    | some c =>
      by_cases hq2 : q = pos
      · subst hq2
        simp [hc, mem_setInsert]
        tauto
      · simp [hc, hq2, mem_setInsert]
        tauto
  · by_cases hq2 : q = pos
    · subst hq2
      cases hc : s.cellAt q <;> simp [hq, Cell.new]
    · cases hc : s.cellAt q <;> simp [hq, hq2]

theorem find_modify_null (s : Sheet Num Ast) (pos p : Position)
    (f : Cell Num Ast → Cell Num Ast) :
    Table.find (s.modify pos f).table_ p = some none ↔ Table.find s.table_ p = some none := by
  rw [find_modify]
  by_cases h : p = pos
  · rw [if_pos h]
    cases hf : Table.find s.table_ p with
    | none => simp
    | some v => cases v <;> simp
  · rw [if_neg h]

theorem find_ensureEntry_null (s : Sheet Num Ast) (pos p : Position) :
    Table.find (s.ensureEntry pos).table_ p = some none ↔
      Table.find s.table_ p = some none := by
  rw [find_ensureEntry]
  split
  · rename_i h0
    obtain ⟨h2, rfl⟩ := h0
    constructor
    · intro h
      simp at h
    · intro h
      rw [h] at h2
      simp at h2
  · rfl

theorem linkStep_notNull (self pos p : Position) (s : Sheet Num Ast) (h : s.NotNull p) :
    (linkStep self s pos).NotNull p := by
  unfold Sheet.NotNull linkStep at *
  rw [Ne, find_modify_null, find_modify_null, find_ensureEntry_null]
  exact h

theorem foldl_linkStep_live (self q : Position) (refs : List Position) :
    ∀ s : Sheet Num Ast, (∀ pos ∈ refs, s.NotNull pos) →
      (((refs.foldl (linkStep self) s).cellAt q).isSome = true ↔
        (s.cellAt q).isSome = true ∨ q ∈ refs) := by
  induction refs with
  | nil => intro s _; simp
  | cons pos rest ih =>
    intro s hnn
    rw [List.foldl_cons, ih _ (fun p hp =>
      linkStep_notNull self pos p s (hnn p (List.mem_cons_of_mem _ hp))),
      linkStep_live self pos q s (hnn pos (List.mem_cons_self _ _)), List.mem_cons]
    tauto

theorem foldl_linkStep_implAt (self q : Position) (refs : List Position) :
    ∀ s : Sheet Num Ast, (∀ pos ∈ refs, s.NotNull pos) →
      (refs.foldl (linkStep self) s).implAt q =
        if (s.cellAt q).isSome then s.implAt q
        else if q ∈ refs then some .EmptyImpl else none := by
  induction refs with
  | nil =>
    intro s _
    cases hc : s.cellAt q <;> simp [Sheet.implAt, hc]
  | cons pos rest ih =>
    intro s hnn
    have hp := hnn pos (List.mem_cons_self _ _)
    rw [List.foldl_cons, ih _ (fun p hp =>
      linkStep_notNull self pos p s (hnn p (List.mem_cons_of_mem _ hp))),
      linkStep_implAt self pos q s hp]
    have hl := linkStep_live self pos q s hp
    by_cases h1 : (s.cellAt q).isSome = true
    · have h2 : ((linkStep self s pos).cellAt q).isSome = true := hl.2 (Or.inl h1)
      simp [h1, h2]
    · by_cases h3 : q = pos
      · have h2 : ((linkStep self s pos).cellAt q).isSome = true := hl.2 (Or.inr h3)
        rw [if_pos h2, if_neg h1, if_neg h1, if_pos h3, if_pos (List.mem_cons.2 (Or.inl h3))]
      · have h2 : ¬ ((linkStep self s pos).cellAt q).isSome = true := by
          rw [hl]
          tauto
        simp [h1, h2, h3]

theorem foldl_linkStep_in_edges (self q x : Position) (refs : List Position) :
    ∀ s : Sheet Num Ast, (∀ pos ∈ refs, s.NotNull pos) →
      (x ∈ (refs.foldl (linkStep self) s).in_edges q ↔
        x ∈ s.in_edges q ∨ (x = self ∧ q ∈ refs)) := by
  induction refs with
  | nil => intro s _; simp
  | cons pos rest ih =>
    intro s hnn
    rw [List.foldl_cons, ih _ (fun p hp =>
      linkStep_notNull self pos p s (hnn p (List.mem_cons_of_mem _ hp))),
      linkStep_in_edges self pos q x s (hnn pos (List.mem_cons_self _ _)), List.mem_cons]
    tauto

theorem foldl_linkStep_out_edges (self q x : Position) (refs : List Position) :
    ∀ s : Sheet Num Ast, (∀ pos ∈ refs, s.NotNull pos) → (s.cellAt self).isSome = true →
      (x ∈ (refs.foldl (linkStep self) s).out_edges q ↔
        x ∈ s.out_edges q ∨ (q = self ∧ x ∈ refs)) := by
  induction refs with
  | nil => intro s _ _; simp
  | cons pos rest ih =>
    intro s hnn hself
    rw [List.foldl_cons, ih _ (fun p hp =>
      linkStep_notNull self pos p s (hnn p (List.mem_cons_of_mem _ hp)))
      (cellAt_linkStep_isSome self pos self s hself),
      linkStep_out_edges self pos q x s (hnn pos (List.mem_cons_self _ _)) hself,
      List.mem_cons]
    tauto

theorem notNull_of_foldl_live (self p : Position) (refs : List Position) :
    ∀ s : Sheet Num Ast, ((refs.foldl (linkStep self) s).cellAt p).isSome = true →
      s.NotNull p := by
  induction refs with
  | nil =>
    intro s h hn
    simp [Sheet.cellAt, hn] at h
  | cons pos rest ih =>
    intro s h
    have h1 := ih _ h
    unfold Sheet.NotNull linkStep at *
    rw [Ne, find_modify_null, find_modify_null, find_ensureEntry_null] at h1
    exact h1

theorem cellAt_unlinked (s : Sheet Num Ast) (self : Position) (impl : Impl Num Ast)
    (old_r : List Position) (q : Position) :
    (s.unlinked self impl old_r).cellAt q = (s.cellAt q).map fun c =>
      { impl_ := if q = self then impl else c.impl_,
        l_nodes_ := if q ∈ old_r then setErase self c.l_nodes_ else c.l_nodes_,
        r_nodes_ := if q = self then [] else c.r_nodes_ } := by
  unfold Sheet.unlinked
  rw [cellAt_modify, cellAt_mapCells, cellAt_modify]
  by_cases h1 : q = self
  · subst h1
    by_cases h2 : q ∈ old_r <;> cases s.cellAt q <;> simp [eraseFrom, h2]
  · by_cases h2 : q ∈ old_r <;> cases s.cellAt q <;> simp [eraseFrom, h1, h2]

theorem unlinked_notNull (s : Sheet Num Ast) (self : Position) (impl : Impl Num Ast)
    (old_r : List Position) (p : Position) :
    (s.unlinked self impl old_r).NotNull p ↔ s.NotNull p := by
  unfold Sheet.NotNull Sheet.unlinked
  rw [Ne, find_modify_null, find_mapCells, find_modify]
  by_cases h : p = self
  · rw [if_pos h]
    cases hf : Table.find s.table_ p with
    | none => simp
    | some v => cases v <;> simp
  · rw [if_neg h]
    cases hf : Table.find s.table_ p with
    | none => simp
    | some v => cases v <;> simp

theorem committed_facts (H : Host Num Ast) (s : Sheet Num Ast) (self : Position)
    (impl : Impl Num Ast) (old : Cell Num Ast) (hself : s.cellAt self = some old)
    (hlive : ∀ pos ∈ impl.GetReferencedCells H,
      ((s.committed H self impl old.r_nodes_).cellAt pos).isSome = true) (q : Position) :
    (((s.committed H self impl old.r_nodes_).cellAt q).isSome = true ↔
      (s.cellAt q).isSome = true ∨ q ∈ impl.GetReferencedCells H) ∧
    ((s.committed H self impl old.r_nodes_).implAt q =
      if (s.cellAt q).isSome then (if q = self then some impl else s.implAt q)
      else if q ∈ impl.GetReferencedCells H then some .EmptyImpl else none) ∧
    (∀ x, x ∈ (s.committed H self impl old.r_nodes_).in_edges q ↔
      (x ∈ s.in_edges q ∧ (q ∈ s.out_edges self → x ≠ self)) ∨
        (x = self ∧ q ∈ impl.GetReferencedCells H)) ∧
    (∀ x, x ∈ (s.committed H self impl old.r_nodes_).out_edges q ↔
      (q ≠ self ∧ x ∈ s.out_edges q) ∨ (q = self ∧ x ∈ impl.GetReferencedCells H)) := by
  have hnn : ∀ pos ∈ impl.GetReferencedCells H,
      (s.unlinked self impl old.r_nodes_).NotNull pos := fun pos hp =>
    notNull_of_foldl_live self pos _ _ (hlive pos hp)
  have hself1 : ((s.unlinked self impl old.r_nodes_).cellAt self).isSome = true := by
    rw [cellAt_unlinked, hself]
    rfl
  have hout : s.out_edges self = old.r_nodes_ := by simp [Sheet.out_edges, hself]
  unfold Sheet.committed
  refine ⟨?_, ?_, ?_, ?_⟩
  · rw [foldl_linkStep_live self q _ _ hnn, cellAt_unlinked]
    cases s.cellAt q <;> simp
  · rw [foldl_linkStep_implAt self q _ _ hnn, cellAt_unlinked]
    cases hc : s.cellAt q with
    | none => simp [hc]
    | some c =>
      by_cases h1 : q = self
      · subst h1
        simp [Sheet.implAt, cellAt_unlinked, hc]
      · simp [Sheet.implAt, cellAt_unlinked, hc, h1]
  · intro x
    rw [foldl_linkStep_in_edges self q x _ _ hnn, hout]
    unfold Sheet.in_edges
    rw [cellAt_unlinked]
    cases hc : s.cellAt q with
    | none => simp
    | some c =>
      by_cases h2 : q ∈ old.r_nodes_
      · simp [h2, mem_setErase]
      · simp [h2]
  · intro x
    rw [foldl_linkStep_out_edges self q x _ _ hnn hself1]
    unfold Sheet.out_edges
    rw [cellAt_unlinked]
    cases hc : s.cellAt q with
    | none => simp
    | some c => by_cases h1 : q = self <;> simp [h1]

theorem cellAt_dropCaches (W : List Position) (s : Sheet Num Ast) (q : Position) :
    (s.dropCaches W).cellAt q = (s.cellAt q).map fun c =>
      if q ∈ W then { c with impl_ := c.impl_.InvalidateCache } else c := by
  unfold Sheet.dropCaches
  rw [cellAt_mapCells]

theorem dropCaches_live (W : List Position) (s : Sheet Num Ast) (q : Position) :
    ((s.dropCaches W).cellAt q).isSome = (s.cellAt q).isSome := by
  rw [cellAt_dropCaches]
  cases s.cellAt q <;> rfl

theorem dropCaches_in_edges (W : List Position) (s : Sheet Num Ast) (q : Position) :
    (s.dropCaches W).in_edges q = s.in_edges q := by
  unfold Sheet.in_edges
  rw [cellAt_dropCaches]
  cases s.cellAt q with
  | none => rfl
  | some c => by_cases h : q ∈ W <;> simp [h]

theorem dropCaches_out_edges (W : List Position) (s : Sheet Num Ast) (q : Position) :
    (s.dropCaches W).out_edges q = s.out_edges q := by
  unfold Sheet.out_edges
  rw [cellAt_dropCaches]
  cases s.cellAt q with
  | none => rfl
  | some c => by_cases h : q ∈ W <;> simp [h]

theorem dropCaches_implAt (W : List Position) (s : Sheet Num Ast) (q : Position) :
    (s.dropCaches W).implAt q =
      (s.implAt q).map fun i => if q ∈ W then i.InvalidateCache else i := by
  unfold Sheet.implAt
  rw [cellAt_dropCaches]
  cases s.cellAt q with
  | none => rfl
  | some c => by_cases h : q ∈ W <;> simp [h]

theorem GetText_InvalidateCache (H : Host Num Ast) (i : Impl Num Ast) :
    i.InvalidateCache.GetText H = i.GetText H := by
  cases i <;> rfl

theorem GetText_eq_implAt (H : Host Num Ast) (s : Sheet Num Ast) (q : Position) :
    Cell.GetText H s q = (s.implAt q).map fun i => i.GetText H := by
  unfold Cell.GetText Sheet.implAt
  cases s.cellAt q <;> rfl

theorem dropCaches_GetText (H : Host Num Ast) (W : List Position) (s : Sheet Num Ast)
    (q : Position) : Cell.GetText H (s.dropCaches W) q = Cell.GetText H s q := by
  rw [GetText_eq_implAt, GetText_eq_implAt, dropCaches_implAt]
  cases s.implAt q with
  | none => rfl
  | some i => by_cases h : q ∈ W <;> simp [h, GetText_InvalidateCache]

theorem ensureEntry_in_edges (s : Sheet Num Ast) (pos q : Position) :
    (s.ensureEntry pos).in_edges q = s.in_edges q := by
  unfold Sheet.in_edges
  rw [cellAt_ensureEntry]
  by_cases h : (Table.find s.table_ pos).isNone = true ∧ pos = q
  · rw [if_pos h]
    obtain ⟨h1, rfl⟩ := h
    have : s.cellAt pos = none := by
      unfold Sheet.cellAt
      rw [Option.isNone_iff_eq_none.1 h1]
    rw [this]
    rfl
  · rw [if_neg h]

theorem ensureEntry_out_edges (s : Sheet Num Ast) (pos q : Position) :
    (s.ensureEntry pos).out_edges q = s.out_edges q := by
  unfold Sheet.out_edges
  rw [cellAt_ensureEntry]
  by_cases h : (Table.find s.table_ pos).isNone = true ∧ pos = q
  · rw [if_pos h]
    obtain ⟨h1, rfl⟩ := h
    have : s.cellAt pos = none := by
      unfold Sheet.cellAt
      rw [Option.isNone_iff_eq_none.1 h1]
    rw [this]
    rfl
  · rw [if_neg h]

theorem ensureEntry_implAt_of_live (s : Sheet Num Ast) (pos q : Position)
    (h : (s.cellAt q).isSome = true) : (s.ensureEntry pos).implAt q = s.implAt q := by
  unfold Sheet.implAt
  rw [cellAt_ensureEntry]
  by_cases h0 : (Table.find s.table_ pos).isNone = true ∧ pos = q
  · obtain ⟨h1, rfl⟩ := h0
    have : s.cellAt pos = none := by
      unfold Sheet.cellAt
      rw [Option.isNone_iff_eq_none.1 h1]
    rw [this] at h
    simp at h
  · rw [if_neg h0]

theorem ensureEntry_implAt_of_absent (s : Sheet Num Ast) (pos : Position)
    (h : (s.cellAt pos).isSome = false) (hl : ((s.ensureEntry pos).cellAt pos).isSome = true) :
    (s.ensureEntry pos).implAt pos = some .EmptyImpl := by
  unfold Sheet.implAt
  rw [cellAt_ensureEntry] at hl ⊢
  by_cases h0 : (Table.find s.table_ pos).isNone = true ∧ pos = pos
  · rw [if_pos h0]
    rfl
  · rw [if_neg h0] at hl
    rw [hl] at h
    simp at h

/-! ## Termination and correctness of the cycle check -/

theorem edgeBudget_eq (s : Sheet Num Ast) : s.edgeBudget = tableWeight s.table_ [] + 2 := by
  unfold Sheet.edgeBudget tableWeight
  simp only [List.not_mem_nil, not_false_eq_true, decide_True, List.filter_true]
  rfl

theorem tableWeight_cons_le (t : List (Position × Option (Cell Num Ast))) (x : Position)
    (v : List Position) : tableWeight t (x :: v) ≤ tableWeight t v := by
  induction t with
  | nil => simp [tableWeight]
  | cons e t ih =>
    unfold tableWeight at *
    by_cases h1 : e.1 ∈ v
    · have h2 : e.1 ∈ x :: v := List.mem_cons_of_mem _ h1
      simpa [List.filter_cons, h1, h2] using ih
    · by_cases h2 : e.1 = x
      · have h3 : e.1 ∈ x :: v := by rw [h2]; exact List.mem_cons_self _ _
        simp only [List.filter_cons, h1, h3, not_true_eq_false, decide_False,
          not_false_eq_true, decide_True, if_true, List.map_cons, List.sum_cons]
        simp only [Bool.false_eq_true, if_false]
        omega
      · have h3 : e.1 ∉ x :: v := by
          intro h
          rcases List.mem_cons.1 h with h | h
          · exact h2 h
          · exact h1 h
        simp only [List.filter_cons, h1, h3, not_false_eq_true, decide_True, if_true,
          List.map_cons, List.sum_cons]
        omega

theorem tableWeight_visit (t : List (Position × Option (Cell Num Ast))) (x : Position)
    (c : Cell Num Ast) (v : List Position) (hf : Table.find t x = some (some c))
    (hx : x ∉ v) : tableWeight t (x :: v) + c.l_nodes_.length + 1 ≤ tableWeight t v := by
  induction t with
  | nil => simp [Table.find] at hf
  | cons e t ih =>
    obtain ⟨k, w⟩ := e
    by_cases hk : k = x
    · subst hk
      simp only [Table.find, if_true, Option.some.injEq] at hf
      subst hf
      have h3 : k ∈ k :: v := List.mem_cons_self _ _
      have h4 := tableWeight_cons_le t k v
      unfold tableWeight at *
      simp only [List.filter_cons, hx, h3, not_true_eq_false, decide_False,
        not_false_eq_true, decide_True, if_true, List.map_cons, List.sum_cons, entryCost]
      simp only [Bool.false_eq_true, if_false]
      omega
    · simp only [Table.find, hk, if_false] at hf
      have h5 := ih hf
      unfold tableWeight at *
      by_cases h1 : k ∈ v
      · have h2 : k ∈ x :: v := List.mem_cons_of_mem _ h1
        simpa [List.filter_cons, h1, h2] using h5
      · have h3 : k ∉ x :: v := by
          intro h
          rcases List.mem_cons.1 h with h | h
          · exact hk h
          · exact h1 h
        simp only [List.filter_cons, h1, h3, not_false_eq_true, decide_True, if_true,
          List.map_cons, List.sum_cons]
        omega

theorem find_of_cellAt (s : Sheet Num Ast) (x : Position) (c : Cell Num Ast)
    (h : s.cellAt x = some c) : Table.find s.table_ x = some (some c) := by
  unfold Sheet.cellAt at h
  cases hf : Table.find s.table_ x with
  | none => simp [hf] at h
  | some v =>
    cases v with
    | none => simp [hf] at h
    | some c1 =>
      simp only [hf, Option.some.injEq] at h
      rw [h]

theorem in_edges_of_cellAt (s : Sheet Num Ast) (x : Position) (c : Cell Num Ast)
    (h : s.cellAt x = some c) : s.in_edges x = c.l_nodes_ := by
  simp [Sheet.in_edges, h]

theorem loop_terminates (s : Sheet Num Ast) (referenced : List (Option Position))
    (hl : s.InEdgesLive) :
    ∀ (fuel : Nat) (visited to_visit : List Position),
      (∀ x ∈ to_visit, (s.cellAt x).isSome = true) →
      to_visit.length + tableWeight s.table_ visited < fuel →
      ∃ b, IsCircularDependent.loop s referenced fuel visited to_visit = .ok b := by
  intro fuel
  induction fuel with
  | zero =>
    intro visited to_visit _ h
    omega
  | succ fuel ih =>
    intro visited to_visit hlive hm
    cases to_visit with
    | nil => exact ⟨false, by simp [IsCircularDependent.loop]⟩
    | cons current rest =>
      rw [IsCircularDependent.loop]
      have hrest : ∀ x ∈ rest, (s.cellAt x).isSome = true := fun x hx =>
        hlive x (List.mem_cons_of_mem _ hx)
      simp only [List.length_cons] at hm
      by_cases h1 : current ∈ visited
      · rw [if_pos h1]
        exact ih _ _ hrest (by omega)
      · rw [if_neg h1]
        by_cases h2 : some current ∈ referenced
        · rw [if_pos h2]
          exact ⟨true, rfl⟩
        · rw [if_neg h2]
          cases hc : s.cellAt current with
          | none =>
            have := hlive current (List.mem_cons_self _ _)
            rw [hc] at this
            simp at this
          | some c =>
            simp only []
            apply ih
            · intro x hx
              rcases List.mem_append.1 hx with hx | hx
              · apply hl current x
                rw [in_edges_of_cellAt s current c hc]
                exact List.mem_reverse.1 hx
              · exact hrest x hx
            · have := tableWeight_visit s.table_ current c visited
                (find_of_cellAt s current c hc) h1
              simp only [List.length_append, List.length_reverse]
              omega

theorem loop_sound (s : Sheet Num Ast) (referenced : List (Option Position)) :
    ∀ (fuel : Nat) (visited to_visit : List Position),
      IsCircularDependent.loop s referenced fuel visited to_visit = .ok true →
      ∃ x ∈ to_visit, ∃ y, s.DependsOn x y ∧ some y ∈ referenced := by
  intro fuel
  induction fuel with
  | zero =>
    intro visited to_visit h
    simp [IsCircularDependent.loop] at h
  | succ fuel ih =>
    intro visited to_visit h
    cases to_visit with
    | nil => simp [IsCircularDependent.loop] at h
    | cons current rest =>
      rw [IsCircularDependent.loop] at h
      by_cases h1 : current ∈ visited
      · rw [if_pos h1] at h
        obtain ⟨x, hx, y, hxy, hy⟩ := ih _ _ h
        exact ⟨x, List.mem_cons_of_mem _ hx, y, hxy, hy⟩
      · rw [if_neg h1] at h
        by_cases h2 : some current ∈ referenced
        · exact ⟨current, List.mem_cons_self _ _, current, Relation.ReflTransGen.refl, h2⟩
        · rw [if_neg h2] at h
          cases hc : s.cellAt current with
          | none => simp [hc] at h
          | some c =>
            simp only [hc] at h
            obtain ⟨x, hx, y, hxy, hy⟩ := ih _ _ h
            rcases List.mem_append.1 hx with hx | hx
            · refine ⟨current, List.mem_cons_self _ _, y, ?_, hy⟩
              apply Relation.ReflTransGen.head _ hxy
              rw [in_edges_of_cellAt s current c hc]
              exact List.mem_reverse.1 hx
            · exact ⟨x, List.mem_cons_of_mem _ hx, y, hxy, hy⟩

theorem loop_complete (s : Sheet Num Ast) (referenced : List (Option Position)) :
    ∀ (fuel : Nat) (visited to_visit : List Position),
      IsCircularDependent.loop s referenced fuel visited to_visit = .ok false →
      (∀ v ∈ visited, some v ∉ referenced ∧
        ∀ x ∈ s.in_edges v, x ∈ visited ∨ x ∈ to_visit) →
      ∃ V : List Position, (∀ v ∈ visited, v ∈ V) ∧ (∀ v ∈ to_visit, v ∈ V) ∧
        ∀ v ∈ V, some v ∉ referenced ∧ ∀ x ∈ s.in_edges v, x ∈ V := by
  intro fuel
  induction fuel with
  | zero =>
    intro visited to_visit h
    simp [IsCircularDependent.loop] at h
  | succ fuel ih =>
    intro visited to_visit h hI
    cases to_visit with
    | nil =>
      refine ⟨visited, fun v hv => hv, fun v hv => by simp at hv, ?_⟩
      intro v hv
      refine ⟨(hI v hv).1, fun x hx => ?_⟩
      rcases (hI v hv).2 x hx with h1 | h1
      · exact h1
      · simp at h1
    | cons current rest =>
      rw [IsCircularDependent.loop] at h
      by_cases h1 : current ∈ visited
      · rw [if_pos h1] at h
        obtain ⟨V, hV1, hV2, hV3⟩ := ih _ _ h (by
          intro v hv
          refine ⟨(hI v hv).1, fun x hx => ?_⟩
          rcases (hI v hv).2 x hx with h3 | h3
          · exact Or.inl h3
          · rcases List.mem_cons.1 h3 with rfl | h3
            · exact Or.inl h1
            · exact Or.inr h3)
        refine ⟨V, hV1, ?_, hV3⟩
        intro v hv
        rcases List.mem_cons.1 hv with rfl | hv
        · exact hV1 _ h1
        · exact hV2 _ hv
      · rw [if_neg h1] at h
        by_cases h2 : some current ∈ referenced
        · rw [if_pos h2] at h
          simp at h
        · rw [if_neg h2] at h
          cases hc : s.cellAt current with
          | none => simp [hc] at h
          | some c =>
            simp only [hc] at h
            obtain ⟨V, hV1, hV2, hV3⟩ := ih _ _ h (by
              intro v hv
              rcases List.mem_cons.1 hv with rfl | hv
              · refine ⟨h2, fun x hx => Or.inr ?_⟩
                rw [in_edges_of_cellAt s v c hc] at hx
                exact List.mem_append.2 (Or.inl (List.mem_reverse.2 hx))
              · refine ⟨(hI v hv).1, fun x hx => ?_⟩
                rcases (hI v hv).2 x hx with h3 | h3
                · exact Or.inl (List.mem_cons_of_mem _ h3)
                · rcases List.mem_cons.1 h3 with rfl | h3
                  · exact Or.inl (List.mem_cons_self _ _)
                  · exact Or.inr (List.mem_append.2 (Or.inr h3)))
            refine ⟨V, fun v hv => hV1 v (List.mem_cons_of_mem _ hv), ?_, hV3⟩
            intro v hv
            rcases List.mem_cons.1 hv with rfl | hv
            · exact hV1 _ (List.mem_cons_self _ _)
            · exact hV2 _ (List.mem_append.2 (Or.inr hv))

theorem closed_of_dependsOn (s : Sheet Num Ast) (V : List Position)
    (hV : ∀ v ∈ V, ∀ x ∈ s.in_edges v, x ∈ V) (x y : Position) (hx : x ∈ V)
    (h : s.DependsOn x y) : y ∈ V := by
  induction h with
  | refl => exact hx
  | tail _ hbc ih => exact hV _ ih _ hbc

theorem IsCircularDependent_spec (H : Host Num Ast) (s : Sheet Num Ast) (self : Position)
    (impl : Impl Num Ast) (hl : s.InEdgesLive) (hself : (s.cellAt self).isSome = true) :
    ∃ b, Cell.IsCircularDependent H s self impl = .ok b ∧
      (b = true ↔ ∃ pos ∈ impl.listedCells H, pos.IsValid H = true ∧
        (s.cellAt pos).isSome = true ∧ s.DependsOn self pos) := by
  rw [IsCircularDependent_eq]
  by_cases hr : impl.GetReferencedCells H = []
  · rw [if_pos hr]
    refine ⟨false, rfl, ?_⟩
    constructor
    · intro h
      simp at h
    · rintro ⟨pos, hp, hv, _, _⟩
      have : pos ∈ impl.GetReferencedCells H := (mem_GetReferencedCells H impl pos).2 ⟨hp, hv⟩
      rw [hr] at this
      simp at this
  · rw [if_neg hr]
    obtain ⟨b, hb⟩ := loop_terminates s
      ((impl.GetReferencedCells H).map fun pos =>
        if (s.cellAt pos).isSome then some pos else none) hl s.edgeBudget [] [self]
      (by
        intro x hx
        rw [List.mem_singleton.1 hx]
        exact hself)
      (by
        rw [edgeBudget_eq]
        simp only [List.length_singleton]
        omega)
    refine ⟨b, hb, ?_⟩
    constructor
    · intro h
      rw [h] at hb
      obtain ⟨x, hx, y, hxy, hy⟩ := loop_sound s _ _ _ _ hb
      rw [List.mem_singleton.1 hx] at hxy
      obtain ⟨hy1, hy2⟩ := (mem_referenced s _ y).1 hy
      obtain ⟨hy3, hy4⟩ := (mem_GetReferencedCells H impl y).1 hy1
      exact ⟨y, hy3, hy4, hy2, hxy⟩
    · rintro ⟨pos, hp, hv, hlive, hdep⟩
      cases b with
      | true => rfl
      | false =>
        exfalso
        obtain ⟨V, _, hV2, hV3⟩ := loop_complete s _ _ _ _ hb (by
          intro v hv
          simp at hv)
        have hpV : pos ∈ V := closed_of_dependsOn s V (fun v hv => (hV3 v hv).2) self pos
          (hV2 self (List.mem_cons_self _ _)) hdep
        exact (hV3 pos hpV).1 ((mem_referenced s _ pos).2
          ⟨(mem_GetReferencedCells H impl pos).2 ⟨hp, hv⟩, hlive⟩)

/-! ## Sheets reachable through `SetCell` -/

theorem InEdgesLive_ensureEntry (s : Sheet Num Ast) (pos : Position) (hs : s.InEdgesLive) :
    (s.ensureEntry pos).InEdgesLive := by
  intro p q hq
  rw [ensureEntry_in_edges] at hq
  exact cellAt_ensureEntry_isSome s pos q (hs p q hq)

theorem InEdgesLive_SetCell (H : Host Num Ast) (s s1 : Sheet Num Ast) (pos : Position)
    (text : String) (h : (s.SetCell H pos text).state? = some s1) (hs : s.InEdgesLive) :
    s1.InEdgesLive := by
  cases hr : s.SetCell H pos text with
  | ok a s2 =>
    rw [hr] at h
    simp only [Outcome.state?, Option.some.injEq] at h
    subst h
    obtain ⟨_, impl, old, W, _, _, h3, h4, h5⟩ := SetCell_ok H s s2 pos text a hr
    intro p q hq
    rw [h4, dropCaches_in_edges] at hq
    rw [h4, dropCaches_live]
    have hF := committed_facts H (s.ensureEntry pos) pos impl old h3 h5
    have hself : ((s.ensureEntry pos).cellAt pos).isSome = true := by rw [h3]; rfl
    rcases ((hF p).2.2.1 q).1 hq with ⟨hq1, _⟩ | ⟨hq1, _⟩
    · exact (hF q).1.2 (Or.inl (InEdgesLive_ensureEntry s pos hs p q hq1))
    · rw [hq1]
      exact (hF pos).1.2 (Or.inl hself)
  | threw e s2 =>
    rw [hr] at h
    simp only [Outcome.state?, Option.some.injEq] at h
    subst h
    rcases SetCell_threw H s s2 pos text e hr with ⟨_, _, h3⟩ | ⟨_, h3, _⟩
    · rw [h3]
      exact hs
    · rw [h3]
      exact InEdgesLive_ensureEntry s pos hs
  | undefined f =>
    rw [hr] at h
    simp [Outcome.state?] at h

theorem ReachableBySetCell.inEdgesLive (H : Host Num Ast) (s : Sheet Num Ast)
    (h : ReachableBySetCell H s) : s.InEdgesLive := by
  induction h with
  | empty =>
    intro p q hq
    simp [Sheet.in_edges, Sheet.cellAt, Sheet.empty, Table.find] at hq
  | setCell pos text _ h ih => exact InEdgesLive_SetCell H _ _ pos text h ih

theorem ReachableBySetCell.reachable (H : Host Num Ast) (s : Sheet Num Ast)
    (h : ReachableBySetCell H s) : Reachable H s := by
  induction h with
  | empty => exact Reachable.empty
  | setCell pos text _ h ih => exact Reachable.setCell pos text ih h

theorem valid_of_live (H : Host Num Ast) (s : Sheet Num Ast) (hk : s.KeysOK H)
    (p : Position) (h : (s.cellAt p).isSome = true) : p.IsValid H = true := by
  cases hc : s.cellAt p with
  | none => simp [hc] at h
  | some c =>
    apply hk.2
    simp only [Sheet.keys, List.mem_map]
    exact ⟨(p, some c), mem_of_cellAt s p c hc, rfl⟩

theorem Set_threw_circular_iff (H : Host Num Ast) (s : Sheet Num Ast) (self : Position)
    (text : String) (new : Impl Num Ast) (hm : Cell.makeImpl H text = .ok new) :
    (∃ s1, Sheet.Set H s self text = .threw .CircularDependencyException s1) ↔
      Cell.IsCircularDependent H s self new = .ok true := by
  constructor
  · rintro ⟨s1, h⟩
    rcases (Set_threw H s s1 self text _ h).2 with ⟨h1, _⟩ | ⟨_, impl, h2, h3⟩
    · exact Exn.noConfusion h1
    · rw [hm] at h2
      cases h2
      exact h3
  · intro h
    refine ⟨s, ?_⟩
    unfold Sheet.Set Cell.Set
    simp only [hm, h]

/-! ## Cycle check on edit -/

/-- C1. Cycle check on edit: in a sheet reachable through `SetCell` calls, for a cell
`self` and a candidate content `new`, `IsCircularDependent` terminates and returns
`true` exactly when a valid position listed by `new` holds a cell that is `self` or
depends on `self` through `in_edges`; `Cell::Set` throws `CircularDependencyException`
exactly then; a self-reference is rejected, and empty or text content never is. -/
theorem cycle_check_on_edit (H : Host Num Ast) (s : Sheet Num Ast)
    (hs : ReachableBySetCell H s) (self : Position)
    (hself : (s.cellAt self).isSome = true) (new : Impl Num Ast) :
    (∃ b, Cell.IsCircularDependent H s self new = .ok b ∧
      (b = true ↔ ∃ pos ∈ new.listedCells H, pos.IsValid H = true ∧
        (s.cellAt pos).isSome = true ∧ s.DependsOn self pos)) ∧
    (∀ text, Cell.makeImpl H text = .ok new →
      ((∃ s1, Sheet.Set H s self text = .threw .CircularDependencyException s1) ↔
        ∃ pos ∈ new.listedCells H, pos.IsValid H = true ∧
          (s.cellAt pos).isSome = true ∧ s.DependsOn self pos)) ∧
    (self ∈ new.listedCells H → Cell.IsCircularDependent H s self new = .ok true) ∧
    Cell.IsCircularDependent H s self .EmptyImpl = .ok false ∧
    ∀ text_, Cell.IsCircularDependent H s self (.TextImpl text_) = .ok false := by
  have hl := ReachableBySetCell.inEdgesLive H s hs
  have hk := Reachable.keysOK H s (ReachableBySetCell.reachable H s hs)
  obtain ⟨b, hb, hiff⟩ := IsCircularDependent_spec H s self new hl hself
  refine ⟨⟨b, hb, hiff⟩, ?_, ?_, ?_, ?_⟩
  · intro text hm
    rw [Set_threw_circular_iff H s self text new hm, hb, ← hiff]
    constructor
    · intro h
      cases h
      rfl
    · intro h
      rw [h]
  · intro hmem
    rw [hb, hiff.2 ⟨self, hmem, valid_of_live H s hk self hself, hself,
      Relation.ReflTransGen.refl⟩]
  · exact IsCircularDependent_noRefs H s self _ rfl
  · intro t
    exact IsCircularDependent_noRefs H s self _ rfl

/-- In the sheet where `A1` holds `=B1`, the cycle check on `B1` rejects both a reference
to `A1` and a reference to `B1` itself. -/
theorem cycle_check_on_edit_witness :
    ReachableBySetCell sumHost sheetA1refB1 ∧ (sheetA1refB1.cellAt B1).isSome = true ∧
      Cell.IsCircularDependent sumHost sheetA1refB1 B1 (.FormulaImpl [.cell A1] none) =
        .ok true ∧
      Cell.IsCircularDependent sumHost sheetA1refB1 B1 (.FormulaImpl [.cell B1] none) =
        .ok true :=
  have hr : ReachableBySetCell sumHost sheetA1refB1 :=
    ReachableBySetCell.setCell A1 "=B1" ReachableBySetCell.empty (by decide)
  ⟨hr, by decide, rfl,
    (cycle_check_on_edit sumHost sheetA1refB1 hr B1 (by decide)
      (.FormulaImpl [.cell B1] none)).2.2.1 (by decide)⟩

/-! ## Edits that are rejected -/

theorem SetCell_threw_entries (H : Host Num Ast) (s s1 : Sheet Num Ast) (pos : Position)
    (text : String) (e : Exn) (h : s.SetCell H pos text = .threw e s1) :
    (s1 = s ∨ s1 = s.ensureEntry pos) ∧
    (∀ q, Table.find s.table_ q ≠ none → Table.find s1.table_ q = Table.find s.table_ q) ∧
    (∀ q, q ≠ pos → Table.find s1.table_ q = Table.find s.table_ q) ∧
    ∀ q, (s.cellAt q).isSome = true → s1.cellAt q = s.cellAt q := by
  have h0 : s1 = s ∨ s1 = s.ensureEntry pos := by
    rcases SetCell_threw H s s1 pos text e h with ⟨_, _, h3⟩ | ⟨_, h3, _⟩
    · exact Or.inl h3
    · exact Or.inr h3
  have h1 : ∀ q, Table.find s.table_ q ≠ none →
      Table.find s1.table_ q = Table.find s.table_ q := by
    intro q hq
    rcases h0 with rfl | rfl
    · rfl
    · exact find_ensureEntry_of_present s pos q hq
  refine ⟨h0, h1, ?_, ?_⟩
  · intro q hq
    rcases h0 with rfl | rfl
    · rfl
    · rw [find_ensureEntry]
      have : ¬ ((Table.find s.table_ pos).isNone = true ∧ pos = q) := fun hh => hq hh.2.symm
      rw [if_neg this]
  · intro q hq
    have hf : Table.find s.table_ q ≠ none := by
      intro hn
      simp [Sheet.cellAt, hn] at hq
    unfold Sheet.cellAt
    rw [h1 q hf]

/-- C2. Atomicity of a rejected edit: when `SetCell(pos, text)` throws
`CircularDependencyException`, every cell that existed before the call is the same
cell afterwards (same text, same cached result, same `out_edges` and `in_edges`), no
other entry changes, and if `pos` had no cell before, it now holds a blank cell. -/
theorem rejected_edit_is_atomic (H : Host Num Ast) (s s1 : Sheet Num Ast) (pos : Position)
    (text : String) (h : s.SetCell H pos text = .threw .CircularDependencyException s1) :
    (∀ q, (s.cellAt q).isSome = true →
      s1.cellAt q = s.cellAt q ∧ Cell.GetText H s1 q = Cell.GetText H s q ∧
      s1.out_edges q = s.out_edges q ∧ s1.in_edges q = s.in_edges q ∧
      (s1.implAt q).map Impl.cache = (s.implAt q).map Impl.cache) ∧
    (∀ q, q ≠ pos → Table.find s1.table_ q = Table.find s.table_ q) ∧
    (s.cellAt pos = none → s1.cellAt pos = some Cell.new) := by
  obtain ⟨_, _, h2, h3⟩ := SetCell_threw_entries H s s1 pos text _ h
  refine ⟨?_, h2, ?_⟩
  · intro q hq
    have := h3 q hq
    simp only [Cell.GetText, Sheet.out_edges, Sheet.in_edges, Sheet.implAt, this, and_self]
  · intro hnone
    rcases SetCell_threw H s s1 pos text _ h with ⟨_, h4, _⟩ | ⟨_, h4, h5, _⟩
    · exact Exn.noConfusion h4
    · rw [h4]
      rw [cellAt_ensureEntry] at h5 ⊢
      by_cases h6 : (Table.find s.table_ pos).isNone = true ∧ pos = pos
      · rw [if_pos h6]
      · rw [if_neg h6, hnone] at h5
        simp at h5

/-- The scenario `SetCell(A1, "=B1")`, `SetCell(B1, "=A1")`: the second call throws, `B1`
stays empty and `A1` evaluates to 0; and `SetCell(A1, "=A1")` on a new sheet leaves a
blank cell at `A1`. -/
theorem rejected_edit_is_atomic_witness :
    (Sheet.empty : Sheet Int (List Operand)).SetCell sumHost A1 "=B1" =
        .ok () sheetA1refB1 ∧
      sheetA1refB1.SetCell sumHost B1 "=A1" =
        .threw .CircularDependencyException sheetA1refB1 ∧
      sheetA1refB1.implAt B1 = some .EmptyImpl ∧
      (Cell.GetValue sumHost sheetA1refB1 A1).value? = some (.number 0) ∧
      (sheetBlankA1.cellAt A1 = some Cell.new) :=
  ⟨by decide, by decide, by decide, by decide,
    (rejected_edit_is_atomic sumHost Sheet.empty sheetBlankA1 A1 "=A1" (by decide)).2.2
      (by decide)⟩

/-! ## The printable size of reachable sheets -/

/-- C9. Printable size over non-null cells: in every reachable sheet
`GetPrintableSize` is `(R + 1, C + 1)` for the greatest row `R` and the greatest column
`C` among the positions whose entry holds a cell, and `(0, 0)` when no entry holds a
cell. -/
theorem printable_size_over_cells (H : Host Num Ast) (s : Sheet Num Ast)
    (hs : Reachable H s) :
    ((∀ p, s.cellAt p = none) → s.GetPrintableSize = ⟨0, 0⟩) ∧
    ((∃ p, (s.cellAt p).isSome = true) →
      ∃ p q, (s.cellAt p).isSome = true ∧ (s.cellAt q).isSome = true ∧
        s.GetPrintableSize = ⟨p.row + 1, q.col + 1⟩ ∧
        ∀ r, (s.cellAt r).isSome = true → r.row ≤ p.row ∧ r.col ≤ q.col) := by
  obtain ⟨h1, h2, h3⟩ := GetPrintableSize_spec H s (Reachable.keysOK H s hs)
  refine ⟨h2, ?_⟩
  rintro ⟨p0, hp0⟩
  cases hc0 : s.cellAt p0 with
  | none => simp [hc0] at hp0
  | some c0 =>
    obtain ⟨⟨p, c, hp, hrow⟩, ⟨q, d, hq, hcol⟩⟩ := h3 p0 c0 hc0
    refine ⟨p, q, by rw [hp]; rfl, by rw [hq]; rfl, ?_, ?_⟩
    · rw [← hrow, ← hcol]
    · intro r hr
      cases hcr : s.cellAt r with
      | none => simp [hcr] at hr
      | some cr =>
        have := h1 r cr hcr
        rw [hrow, hcol] at this
        exact ⟨Int.lt_add_one_iff.1 this.1, Int.lt_add_one_iff.1 this.2⟩

/-- After `SetCell(A1, "=1+2")` on a new sheet the printable size is `(1, 1)`. -/
theorem printable_size_over_cells_witness :
    Reachable sumHost sheetOnePlusTwo ∧ sheetOnePlusTwo.GetPrintableSize = ⟨1, 1⟩ ∧
      ∃ p q, (sheetOnePlusTwo.cellAt p).isSome = true ∧
        (sheetOnePlusTwo.cellAt q).isSome = true ∧
        sheetOnePlusTwo.GetPrintableSize = ⟨p.row + 1, q.col + 1⟩ ∧
        ∀ r, (sheetOnePlusTwo.cellAt r).isSome = true → r.row ≤ p.row ∧ r.col ≤ q.col :=
  have hr : Reachable sumHost sheetOnePlusTwo :=
    Reachable.setCell A1 "=1+2" Reachable.empty (by decide)
  ⟨hr, by decide, (printable_size_over_cells sumHost sheetOnePlusTwo hr).2 ⟨A1, by decide⟩⟩

/-- C10, the claim as stated fails: after `SetCell(A1, "=C3")` on a new sheet the only
cell with non-empty content is `A1`, yet the blank cell created at `C3` makes the
printable size `(3, 3)` and not `(1, 1)`. -/
theorem blank_cell_enlarges_printable_size :
    (Sheet.empty : Sheet Int (List Operand)).SetCell sumHost A1 "=C3" =
        .ok () sheetA1refC3 ∧
      sheetA1refC3.implAt C3 = some .EmptyImpl ∧
      (sheetA1refC3.table_.filter fun e =>
        match e.2 with
        | some c => decide (c.impl_ ≠ .EmptyImpl)
        | none => false).map Prod.fst = [A1] ∧
      sheetA1refC3.GetPrintableSize = ⟨3, 3⟩ ∧
      sheetA1refC3.GetPrintableSize ≠ ⟨A1.row + 1, A1.col + 1⟩ := by
  decide

/-- C10, amended. In every reachable sheet the printable size is taken over all
positions that hold a cell, whatever its content: every cell, a blank one included,
lies inside it, its number of rows and of columns are each attained by a cell, and it
is `(0, 0)` when no entry holds a cell. -/
theorem printable_size_counts_blank_cells (H : Host Num Ast) (s : Sheet Num Ast)
    (hs : Reachable H s) :
    (∀ p c, s.cellAt p = some c →
      p.row < s.GetPrintableSize.rows ∧ p.col < s.GetPrintableSize.cols ∧
      (∃ q d, s.cellAt q = some d ∧ s.GetPrintableSize.rows = q.row + 1) ∧
      (∃ q d, s.cellAt q = some d ∧ s.GetPrintableSize.cols = q.col + 1)) ∧
    ((∀ p, s.cellAt p = none) → s.GetPrintableSize = ⟨0, 0⟩) := by
  obtain ⟨h1, h2, h3⟩ := GetPrintableSize_spec H s (Reachable.keysOK H s hs)
  exact ⟨fun p c hc => ⟨(h1 p c hc).1, (h1 p c hc).2, (h3 p c hc).1, (h3 p c hc).2⟩, h2⟩

/-- The blank cell `C3` created for the formula `=C3` of `A1` lies inside the printable
size. -/
theorem printable_size_counts_blank_cells_witness :
    Reachable sumHost sheetA1refC3 ∧ sheetA1refC3.implAt C3 = some .EmptyImpl ∧
      C3.row < sheetA1refC3.GetPrintableSize.rows ∧
      C3.col < sheetA1refC3.GetPrintableSize.cols :=
  have hr : Reachable sumHost sheetA1refC3 :=
    Reachable.setCell A1 "=C3" Reachable.empty (by decide)
  have h := (printable_size_counts_blank_cells sumHost sheetA1refC3 hr).1 C3
    ⟨.EmptyImpl, [A1], []⟩ (by decide)
  ⟨hr, by decide, h.1, h.2.1⟩

/-! ## Structural errors -/

/-- C8, the claim as stated fails: on a new sheet `SetCell(A1, "=A1")` throws
`CircularDependencyException` and `SetCell(A1, "=+")` throws `FormulaException`, and
each leaves a blank cell at `A1`, so the sheet and its printable size have changed. -/
theorem failed_setCell_leaves_blank_cell :
    (Sheet.empty : Sheet Int (List Operand)).SetCell sumHost A1 "=A1" =
        .threw .CircularDependencyException sheetBlankA1 ∧
      (Sheet.empty : Sheet Int (List Operand)).SetCell sumHost A1 "=+" =
        .threw (.FormulaException "") sheetBlankA1 ∧
      sheetBlankA1 ≠ Sheet.empty ∧
      (Sheet.empty : Sheet Int (List Operand)).GetPrintableSize = ⟨0, 0⟩ ∧
      sheetBlankA1.GetPrintableSize = ⟨1, 1⟩ := by
  decide

/-- C8, amended. When `SetCell`, `GetCell` or `ClearCell` throws, the exception is one
of the three structural errors and every entry that existed before the call is
unchanged (its cell with content, cache and edge sets, or its null pointer). With
`InvalidPositionException` the whole sheet is unchanged, and `GetCell` and `ClearCell`
throw nothing else. When `SetCell(pos, text)` throws `FormulaException` or
`CircularDependencyException`, the sheet is the sheet before the call with a blank cell
added at `pos` if `pos` had no entry. -/
theorem structural_error_keeps_entries (H : Host Num Ast) (s s1 : Sheet Num Ast)
    (call : Call) (e : Exn) (h : s.perform H call = .threw e s1) :
    (e = .InvalidPositionException ∨ e = .FormulaException "" ∨
      e = .CircularDependencyException) ∧
    (∀ q, Table.find s.table_ q ≠ none → Table.find s1.table_ q = Table.find s.table_ q) ∧
    (e = .InvalidPositionException → s1 = s) ∧
    (∀ pos, call = .GetCell pos ∨ call = .ClearCell pos → e = .InvalidPositionException) ∧
    (∀ pos text, call = .SetCell pos text → e ≠ .InvalidPositionException →
      s1 = s.ensureEntry pos ∧ (Table.find s.table_ pos = none → s1 = s.emplace pos) ∧
      (Table.find s.table_ pos ≠ none → s1 = s)) := by
  cases call with
  | SetCell pos text =>
    simp only [Sheet.perform] at h
    obtain ⟨_, h2, _, _⟩ := SetCell_threw_entries H s s1 pos text e h
    rcases SetCell_threw H s s1 pos text e h with ⟨_, h4, h5⟩ | ⟨_, h4, _, h6⟩
    · refine ⟨Or.inl h4, h2, fun _ => h5, ?_, ?_⟩
      · rintro p (hp | hp) <;> exact Call.noConfusion hp
      · intro p t _ hne
        exact absurd h4 hne
    · refine ⟨?_, h2, ?_, ?_, ?_⟩
      · rcases h6 with ⟨h7, _⟩ | ⟨h7, _⟩
        · exact Or.inr (Or.inl h7)
        · exact Or.inr (Or.inr h7)
      · intro he
        rcases h6 with ⟨h7, _⟩ | ⟨h7, _⟩ <;> rw [h7] at he <;> exact Exn.noConfusion he
      · rintro p (hp | hp) <;> exact Call.noConfusion hp
      · intro p t hc _
        cases hc
        refine ⟨h4, ?_, ?_⟩
        · intro hf
          rw [h4]
          simp [Sheet.ensureEntry, hf]
        · intro hf
          rw [h4]
          cases hf2 : Table.find s.table_ pos with
          | none => exact absurd hf2 hf
          | some v => simp [Sheet.ensureEntry, hf2]
  | GetCell pos =>
    simp only [Sheet.perform, Sheet.GetCell, Sheet.GetCellData] at h
    by_cases hv : pos.IsValid H = true
    · simp [hv] at h
    · simp only [hv, Bool.false_eq_true, if_false, Outcome.threw.injEq] at h
      obtain ⟨rfl, rfl⟩ := h
      refine ⟨Or.inl rfl, fun _ _ => rfl, fun _ => rfl, fun _ _ => rfl, ?_⟩
      intro p t hc
      exact Call.noConfusion hc
  | ClearCell pos =>
    simp only [Sheet.perform] at h
    obtain ⟨_, rfl, rfl⟩ := ClearCell_threw H s s1 pos e h
    refine ⟨Or.inl rfl, fun _ _ => rfl, fun _ => rfl, fun _ _ => rfl, ?_⟩
    intro p t hc
    exact Call.noConfusion hc

/-- The rejected `SetCell(C3, "=C3")` adds a blank cell at `C3` and leaves the entry of
`A1` as it was. -/
theorem structural_error_keeps_entries_witness :
    sheetA1refB1.perform sumHost (.SetCell C3 "=C3") =
        .threw .CircularDependencyException (sheetA1refB1.emplace C3) ∧
      Table.find (sheetA1refB1.emplace C3).table_ A1 = Table.find sheetA1refB1.table_ A1 :=
  have h : sheetA1refB1.perform sumHost (.SetCell C3 "=C3") =
      .threw .CircularDependencyException (sheetA1refB1.emplace C3) := by decide
  ⟨h, (structural_error_keeps_entries sumHost sheetA1refB1 _ _ _ h).2.1 A1 (by decide)⟩

/-! ## The postcondition of a successful edit -/

theorem makeImpl_cache (H : Host Num Ast) (text : String) (new : Impl Num Ast)
    (h : Cell.makeImpl H text = .ok new) : new.InvalidateCache = new := by
  unfold Cell.makeImpl at h
  cases ht : text.data with
  | nil =>
    simp only [ht, Except.ok.injEq] at h
    rw [← h]
    rfl
  | cons c cs =>
    simp only [ht] at h
    by_cases hc : c = H.FORMULA_SIGN
    · simp only [hc, if_true, FormulaImpl.new, ht, ne_eq, not_true_eq_false, if_false] at h
      cases hp : ParseFormula H (substr1 text) with
      | ok ast =>
        simp only [hp, Except.ok.injEq] at h
        rw [← h]
        rfl
      | error e1 => simp [hp] at h
    · simp only [hc, if_false, TextImpl.new, ht, Except.ok.injEq] at h
      rw [← h]
      rfl

theorem not_self_of_not_circular (H : Host Num Ast) (s : Sheet Num Ast) (self : Position)
    (impl : Impl Num Ast) (h : Cell.IsCircularDependent H s self impl = .ok false)
    (hself : (s.cellAt self).isSome = true) : self ∉ impl.GetReferencedCells H := by
  intro hmem
  rw [IsCircularDependent_eq] at h
  have hne : impl.GetReferencedCells H ≠ [] := by
    intro h0
    rw [h0] at hmem
    simp at hmem
  rw [if_neg hne, edgeBudget_eq] at h
  rw [IsCircularDependent.loop] at h
  have hR := (mem_referenced s (impl.GetReferencedCells H) self).2 ⟨hmem, hself⟩
  simp only [List.not_mem_nil, if_false, hR, if_true] at h
  simp at h

theorem SetCell_ok_implAt (H : Host Num Ast) (s s1 : Sheet Num Ast) (p : Position)
    (text : String) (a : Unit) (h : s.SetCell H p text = .ok a s1) :
    ∃ new, Cell.makeImpl H text = .ok new ∧ s1.implAt p = some new := by
  obtain ⟨_, new, old, W, hm, _, hold, hs1, hlive⟩ := SetCell_ok H s s1 p text a h
  have hF := committed_facts H (s.ensureEntry p) p new old hold hlive
  have hp : ((s.ensureEntry p).cellAt p).isSome = true := by rw [hold]; rfl
  refine ⟨new, hm, ?_⟩
  rw [hs1, dropCaches_implAt, (hF p).2.1, if_pos hp, if_pos rfl]
  by_cases hw : p ∈ W <;> simp [hw, makeImpl_cache H text new hm]

/-- C7. Commit postcondition of a successful edit: after `SetCell(p, text)` returns,
the cell at `p` holds the new content; every position the new content references holds
a cell, blank if there was none before and with its content unchanged otherwise; the
`out_edges` of the cell at `p` are exactly those positions; the cell at `p` is in the
`in_edges` of each of them and in the `in_edges` of no formerly referenced cell that
the new content does not reference. -/
theorem commit_postcondition (H : Host Num Ast) (s s1 : Sheet Num Ast) (p : Position)
    (text : String) (a : Unit) (h : s.SetCell H p text = .ok a s1) :
    ∃ new, Cell.makeImpl H text = .ok new ∧ s1.implAt p = some new ∧
      (∀ q ∈ new.GetReferencedCells H, (s1.cellAt q).isSome = true ∧ q ≠ p ∧
        ((s.cellAt q).isSome = true →
          (s1.implAt q).map Impl.InvalidateCache = (s.implAt q).map Impl.InvalidateCache ∧
          Cell.GetText H s1 q = Cell.GetText H s q) ∧
        ((s.cellAt q).isSome = false →
          s1.implAt q = some .EmptyImpl ∧ Cell.GetText H s1 q = some "")) ∧
      (∀ x, x ∈ s1.out_edges p ↔ x ∈ new.GetReferencedCells H) ∧
      (new.GetReferencedCells H = [] → s1.out_edges p = []) ∧
      (∀ q ∈ new.GetReferencedCells H, p ∈ s1.in_edges q) ∧
      (∀ q ∈ s.out_edges p, q ∉ new.GetReferencedCells H → p ∉ s1.in_edges q) := by
  obtain ⟨_, new, old, W, hm, hc, hold, hs1, hlive⟩ := SetCell_ok H s s1 p text a h
  have hF := committed_facts H (s.ensureEntry p) p new old hold hlive
  have hp : ((s.ensureEntry p).cellAt p).isSome = true := by rw [hold]; rfl
  have hnp := not_self_of_not_circular H _ p new hc hp
  have hout : ∀ x, x ∈ s1.out_edges p ↔ x ∈ new.GetReferencedCells H := by
    intro x
    rw [hs1, dropCaches_out_edges, (hF p).2.2.2 x]
    constructor
    · rintro (⟨h1, _⟩ | ⟨_, h2⟩)
      · exact absurd rfl h1
      · exact h2
    · exact fun h2 => Or.inr ⟨rfl, h2⟩
  refine ⟨new, hm, ?_, ?_, hout, ?_, ?_, ?_⟩
  · rw [hs1, dropCaches_implAt, (hF p).2.1, if_pos hp, if_pos rfl]
    by_cases hw : p ∈ W <;> simp [hw, makeImpl_cache H text new hm]
  · intro q hq
    have hqp : q ≠ p := fun hqp => hnp (hqp ▸ hq)
    refine ⟨?_, hqp, ?_, ?_⟩
    · rw [hs1, dropCaches_live]
      exact hlive q hq
    · intro hql
      have hql1 : ((s.ensureEntry p).cellAt q).isSome = true :=
        cellAt_ensureEntry_isSome s p q hql
      have himpl : ((s.ensureEntry p).committed H p new old.r_nodes_).implAt q =
          s.implAt q := by
        rw [(hF q).2.1, if_pos hql1, if_neg hqp, ensureEntry_implAt_of_live s p q hql]
      have h1 : (s1.implAt q).map Impl.InvalidateCache =
          (s.implAt q).map Impl.InvalidateCache := by
        rw [hs1, dropCaches_implAt, himpl]
        cases s.implAt q with
        | none => rfl
        | some i => by_cases hw : q ∈ W <;> simp [hw, InvalidateCache_idem]
      refine ⟨h1, ?_⟩
      rw [hs1, dropCaches_GetText, GetText_eq_implAt, GetText_eq_implAt, himpl]
    · intro hql
      have hql1 : ¬ ((s.ensureEntry p).cellAt q).isSome = true := by
        rw [cellAt_ensureEntry]
        have : ¬ ((Table.find s.table_ p).isNone = true ∧ p = q) := fun hh => hqp hh.2.symm
        rw [if_neg this, hql]
        simp
      have himpl : ((s.ensureEntry p).committed H p new old.r_nodes_).implAt q =
          some .EmptyImpl := by
        rw [(hF q).2.1, if_neg hql1, if_pos hq]
      constructor
      · rw [hs1, dropCaches_implAt, himpl]
        by_cases hw : q ∈ W <;> simp [hw, Impl.InvalidateCache]
      · rw [hs1, dropCaches_GetText, GetText_eq_implAt, himpl]
        rfl
  · intro hnil
    apply List.eq_nil_iff_forall_not_mem.2
    intro x hx
    have := (hout x).1 hx
    rw [hnil] at this
    simp at this
  · intro q hq
    rw [hs1, dropCaches_in_edges, (hF q).2.2.1 p]
    exact Or.inr ⟨rfl, hq⟩
  · intro q hq hnq
    rw [hs1, dropCaches_in_edges, (hF q).2.2.1 p]
    rintro (⟨_, h2⟩ | ⟨_, h2⟩)
    · rw [ensureEntry_out_edges] at h2
      exact h2 hq rfl
    · exact hnq h2

/-- Moving the reference of `A1` from `B1` to `C3`: `C3` is created and linked, and `A1`
leaves the `in_edges` of `B1`. -/
theorem commit_postcondition_witness :
    sheetA1refB1.SetCell sumHost A1 "=C3" = .ok () sheetA1movedToC3 ∧
      ∃ new, Cell.makeImpl sumHost "=C3" = .ok new ∧ sheetA1movedToC3.implAt A1 = some new ∧
        (∀ x, x ∈ sheetA1movedToC3.out_edges A1 ↔ x ∈ new.GetReferencedCells sumHost) ∧
        (∀ q ∈ new.GetReferencedCells sumHost, A1 ∈ sheetA1movedToC3.in_edges q) ∧
        (∀ q ∈ sheetA1refB1.out_edges A1, q ∉ new.GetReferencedCells sumHost →
          A1 ∉ sheetA1movedToC3.in_edges q) :=
  have h : sheetA1refB1.SetCell sumHost A1 "=C3" = .ok () sheetA1movedToC3 := by decide
  have ⟨new, h1, h2, _, h4, _, h6, h7⟩ :=
    commit_postcondition sumHost sheetA1refB1 sheetA1movedToC3 A1 "=C3" () h
  ⟨h, new, h1, h2, h4, h6, h7⟩

/-! ## What `ClearCell` leaves behind -/

/-- C3, at the failing input: after `SetCell(A1, "=B1")`, `SetCell(B1, "5")` and
`GetValue(A1)` the cache of `A1` holds 5; `ClearCell(B1)` destroys the cell `B1` and
leaves that cache in place, so `GetValue(A1)` still returns 5 although the formula of
`A1` evaluates to 0 against the sheet as it now is. -/
theorem clearCell_leaves_stale_cache :
    runSetCells sumHost Sheet.empty [(A1, "=B1"), (B1, "5")] =
        some (sheetA1readsB1 none) ∧
      Cell.GetValue sumHost (sheetA1readsB1 none) A1 =
        .ok (.number 5) (sheetA1readsB1 (some (.number 5))) ∧
      (sheetA1readsB1 (some (.number 5))).ClearCell sumHost B1 = .ok () sheetStaleA1 ∧
      sheetStaleA1.implAt A1 = some (.FormulaImpl [.cell B1] (some (.number 5))) ∧
      Formula.Evaluate sumHost (Cell.GetValue sumHost) [.cell B1] sheetStaleA1 =
        .ok (.number 0) sheetStaleA1 ∧
      Cell.GetValue sumHost sheetStaleA1 A1 = .ok (.number 5) sheetStaleA1 := by
  decide

/-- C4, at the failing input: after `SetCell(A1, "x")` and `ClearCell(A1)` the map
still has an entry for `A1`, holding a null pointer, so `GetCell(A1)` is null;
`SetCell(A1, "y")` finds the entry, creates no cell and calls `Set` through the null
pointer, and so does the `SetCell(A1, "")` made for the reference in
`SetCell(B1, "=A1")`. -/
theorem setCell_on_cleared_position :
    (Sheet.empty : Sheet Int (List Operand)).SetCell sumHost A1 "x" = .ok () sheetTextA1 ∧
      sheetTextA1.ClearCell sumHost A1 = .ok () sheetNullA1 ∧
      Table.find sheetNullA1.table_ A1 = some none ∧
      sheetNullA1.cellAt A1 = none ∧
      sheetNullA1.SetCell sumHost A1 "y" = .undefined .nullDereference ∧
      sheetNullA1.SetCell sumHost B1 "=A1" = .undefined .nullDereference := by
  decide

/-- C5, at the failing input: `ClearCell(A1)` on the cell `A1` with text `x` calls
`Clear` first and tests the text afterwards, so the test always succeeds and the cell
is destroyed: `GetCell(A1)` is null afterwards, not a cell with empty text. -/
theorem clearCell_removes_nonempty_cell :
    (Sheet.empty : Sheet Int (List Operand)).SetCell sumHost A1 "x" = .ok () sheetTextA1 ∧
      Cell.GetText sumHost sheetTextA1 A1 = some "x" ∧
      sheetTextA1.ClearCell sumHost A1 = .ok () sheetNullA1 ∧
      sheetNullA1.cellAt A1 = none ∧
      Cell.GetText sumHost sheetNullA1 A1 = none := by
  decide

/-- C6, at the failing input: after `SetCell(A1, "=B1")` and `ClearCell(B1)` the
position `A1` holds a live cell whose `r_nodes_` point to the destroyed cell `B1`;
`SetCell(A1, "hello")` erases `A1` from the `l_nodes_` of that destroyed cell, which is
a use after free, instead of succeeding with text `hello`. -/
theorem text_edit_after_clearCell_of_referent :
    (Sheet.empty : Sheet Int (List Operand)).SetCell sumHost A1 "=B1" =
        .ok () sheetA1refB1 ∧
      sheetA1refB1.ClearCell sumHost B1 = .ok () sheetDanglingB1 ∧
      (sheetDanglingB1.cellAt A1).isSome = true ∧
      sheetDanglingB1.out_edges A1 = [B1] ∧
      sheetDanglingB1.cellAt B1 = none ∧
      sheetDanglingB1.SetCell sumHost A1 "hello" = .undefined .danglingPointer := by
  decide

/-! ## Edits of sound sheets run to their end -/

theorem countUnvisited_mono (keys v v1 : List Position) (h : ∀ x ∈ v, x ∈ v1) :
    countUnvisited keys v1 ≤ countUnvisited keys v := by
  induction keys with
  | nil => simp [countUnvisited]
  | cons k keys ih =>
    unfold countUnvisited at *
    by_cases h1 : k ∈ v
    · have h2 : k ∈ v1 := h k h1
      simpa [List.filter_cons, h1, h2] using ih
    · by_cases h2 : k ∈ v1
      · simp only [List.filter_cons, h1, h2, not_true_eq_false, decide_False,
          not_false_eq_true, decide_True, if_true, List.length_cons]
        simp only [Bool.false_eq_true, if_false]
        omega
      · simp only [List.filter_cons, h1, h2, not_false_eq_true, decide_True, if_true,
          List.length_cons]
        omega

theorem countUnvisited_visit (keys v : List Position) (x : Position) (hx : x ∈ keys)
    (hv : x ∉ v) : countUnvisited keys (x :: v) < countUnvisited keys v := by
  induction keys with
  | nil => simp at hx
  | cons k keys ih =>
    have hm := countUnvisited_mono keys v (x :: v) (fun y hy => List.mem_cons_of_mem _ hy)
    unfold countUnvisited at *
    by_cases hk : k = x
    · subst hk
      have h3 : k ∈ k :: v := List.mem_cons_self _ _
      simp only [List.filter_cons, hv, h3, not_true_eq_false, decide_False,
        not_false_eq_true, decide_True, if_true, List.length_cons]
      simp only [Bool.false_eq_true, if_false]
      omega
    · have hx1 : x ∈ keys := by
        rcases List.mem_cons.1 hx with h | h
        · exact absurd h.symm hk
        · exact h
      have := ih hx1
      by_cases h1 : k ∈ v
      · have h2 : k ∈ x :: v := List.mem_cons_of_mem _ h1
        simpa [List.filter_cons, h1, h2] using this
      · have h3 : k ∉ x :: v := by
          intro h
          rcases List.mem_cons.1 h with h | h
          · exact hk h
          · exact h1 h
        simp only [List.filter_cons, h1, h3, not_false_eq_true, decide_True, if_true,
          List.length_cons]
        omega

theorem countUnvisited_le (keys v : List Position) : countUnvisited keys v ≤ keys.length := by
  unfold countUnvisited
  exact List.length_filter_le _ _

theorem mem_keys_of_live (s : Sheet Num Ast) (p : Position)
    (h : (s.cellAt p).isSome = true) : p ∈ s.keys := by
  cases hc : s.cellAt p with
  | none => simp [hc] at h
  | some c =>
    simp only [Sheet.keys, List.mem_map]
    exact ⟨(p, some c), mem_of_cellAt s p c hc, rfl⟩

theorem InEdgesLive_dropCaches (W : List Position) (s : Sheet Num Ast)
    (h : s.InEdgesLive) : (s.dropCaches W).InEdgesLive := by
  intro p q hq
  rw [dropCaches_in_edges] at hq
  rw [dropCaches_live]
  exact h p q hq

theorem keys_dropCaches (W : List Position) (s : Sheet Num Ast) :
    (s.dropCaches W).keys = s.keys := keys_mapCells _ _

theorem invalidateEach_defined (s0 : Sheet Num Ast) (fuel : Nat)
    (call : Sheet Num Ast → Position → List Position →
      Outcome (Sheet Num Ast) (List Position))
    (hcall : ∀ (W : List Position) (dep : Position) (v : List Position),
      ((s0.dropCaches W).cellAt dep).isSome = true → countUnvisited s0.keys v < fuel →
      ∃ v1 W1, call (s0.dropCaches W) dep v = .ok v1 (s0.dropCaches W1) ∧
        ∀ x ∈ v, x ∈ v1) :
    ∀ (l : List Position) (W : List Position) (v : List Position),
      (∀ dep ∈ l, (s0.cellAt dep).isSome = true) → countUnvisited s0.keys v < fuel →
      ∃ v1 W1, invalidateEach call l (s0.dropCaches W) v = .ok v1 (s0.dropCaches W1) ∧
        ∀ x ∈ v, x ∈ v1 := by
  intro l
  induction l with
  | nil =>
    intro W v _ _
    exact ⟨v, W, rfl, fun x hx => hx⟩
  | cons dep rest ih =>
    intro W v hlive hm
    obtain ⟨v1, W1, h1, hsub1⟩ := hcall W dep v
      (by rw [dropCaches_live]; exact hlive dep (List.mem_cons_self _ _)) hm
    obtain ⟨v2, W2, h2, hsub2⟩ := ih W1 v1
      (fun d hd => hlive d (List.mem_cons_of_mem _ hd))
      (lt_of_le_of_lt (countUnvisited_mono _ _ _ hsub1) hm)
    refine ⟨v2, W2, ?_, fun x hx => hsub2 x (hsub1 x hx)⟩
    rw [invalidateEach, h1]
    exact h2

theorem InvalidateCacheRecursive_defined (s0 : Sheet Num Ast) (hl : s0.InEdgesLive) :
    ∀ (fuel : Nat) (W : List Position) (self : Position) (v : List Position),
      ((s0.dropCaches W).cellAt self).isSome = true → countUnvisited s0.keys v < fuel →
      ∃ v1 W1, Cell.InvalidateCacheRecursive true fuel (s0.dropCaches W) self v =
          .ok v1 (s0.dropCaches W1) ∧ ∀ x ∈ v, x ∈ v1 := by
  intro fuel
  induction fuel with
  | zero =>
    intro W self v _ h
    omega
  | succ fuel ih =>
    intro W self v hself hm
    rw [Cell.InvalidateCacheRecursive]
    by_cases hv : self ∈ v
    · rw [if_pos hv]
      exact ⟨v, W, rfl, fun x hx => hx⟩
    · rw [if_neg hv]
      cases hc : (s0.dropCaches W).cellAt self with
      | none => simp [hc] at hself
      | some c =>
        simp only [Bool.or_true, if_true]
        rw [modify_invalidate, dropCaches_dropCaches]
        have hself0 : (s0.cellAt self).isSome = true := by
          rw [← dropCaches_live W s0 self]
          exact hself
        have hlt := countUnvisited_visit s0.keys v self (mem_keys_of_live s0 self hself0) hv
        obtain ⟨v1, W1, h1, hsub⟩ := invalidateEach_defined s0 fuel
          (Cell.InvalidateCacheRecursive true fuel) (fun W dep v hd hm => ih W dep v hd hm)
          c.l_nodes_ ([self] ++ W) (self :: v)
          (by
            intro dep hdep
            apply hl self dep
            rw [← dropCaches_in_edges W s0 self, in_edges_of_cellAt _ self c hc]
            exact hdep)
          (by omega)
        exact ⟨v1, W1, h1, fun x hx => hsub x (List.mem_cons_of_mem _ hx)⟩

theorem eraseBackEdges_defined (self : Position) (l : List Position) :
    ∀ s : Sheet Num Ast, (∀ x ∈ l, (s.cellAt x).isSome = true) →
      ∃ s1, eraseBackEdges self s l = .ok () s1 := by
  induction l with
  | nil => exact fun s _ => ⟨s, rfl⟩
  | cons x rest ih =>
    intro s hlive
    rw [eraseBackEdges]
    cases hc : s.cellAt x with
    | none =>
      have := hlive x (List.mem_cons_self _ _)
      simp [hc] at this
    | some c =>
      simp only []
      apply ih
      intro y hy
      rw [cellAt_modify_isSome]
      exact hlive y (List.mem_cons_of_mem _ hy)

theorem ensureEntry_live_of_notNull (s : Sheet Num Ast) (pos : Position)
    (h : s.NotNull pos) : ((s.ensureEntry pos).cellAt pos).isSome = true := by
  rw [cellAt_ensureEntry_notNull s pos pos h]
  cases hc : s.cellAt pos <;> simp

theorem linkReferenced_defined (H : Host Num Ast) (n : Nat) (self : Position)
    (refs : List Position) :
    ∀ s : Sheet Num Ast, (∀ pos ∈ refs, pos.IsValid H = true) →
      (∀ pos ∈ refs, s.NotNull pos) →
      ∃ s1, linkReferenced H (Sheet.SetCellFuel H (n + 1)) self s refs = .ok () s1 := by
  induction refs with
  | nil => exact fun s _ _ => ⟨s, rfl⟩
  | cons pos rest ih =>
    intro s hv hnn
    rw [linkReferenced_cons H n self s pos rest (hv pos (List.mem_cons_self _ _)),
      if_pos (ensureEntry_live_of_notNull s pos (hnn pos (List.mem_cons_self _ _)))]
    exact ih _ (fun p hp => hv p (List.mem_cons_of_mem _ hp))
      (fun p hp => linkStep_notNull self pos p s (hnn p (List.mem_cons_of_mem _ hp)))

theorem InEdgesLive_committed (H : Host Num Ast) (s : Sheet Num Ast) (self : Position)
    (impl : Impl Num Ast) (old : Cell Num Ast) (hself : s.cellAt self = some old)
    (hlive : ∀ pos ∈ impl.GetReferencedCells H,
      ((s.committed H self impl old.r_nodes_).cellAt pos).isSome = true)
    (hs : s.InEdgesLive) : (s.committed H self impl old.r_nodes_).InEdgesLive := by
  intro p q hq
  have hF := committed_facts H s self impl old hself hlive
  rcases ((hF p).2.2.1 q).1 hq with ⟨hq1, _⟩ | ⟨hq1, _⟩
  · exact (hF q).1.2 (Or.inl (hs p q hq1))
  · rw [hq1]
    exact (hF self).1.2 (Or.inl (by rw [hself]; rfl))

theorem OutEdgesLive_committed (H : Host Num Ast) (s : Sheet Num Ast) (self : Position)
    (impl : Impl Num Ast) (old : Cell Num Ast) (hself : s.cellAt self = some old)
    (hlive : ∀ pos ∈ impl.GetReferencedCells H,
      ((s.committed H self impl old.r_nodes_).cellAt pos).isSome = true)
    (hs : s.OutEdgesLive) : (s.committed H self impl old.r_nodes_).OutEdgesLive := by
  intro p q hq
  have hF := committed_facts H s self impl old hself hlive
  rcases ((hF p).2.2.2 q).1 hq with ⟨_, hq1⟩ | ⟨_, hq1⟩
  · exact (hF q).1.2 (Or.inl (hs p q hq1))
  · exact hlive q hq1

theorem notNull_ensureEntry (s : Sheet Num Ast) (pos p : Position) (h : s.NotNull p) :
    (s.ensureEntry pos).NotNull p := by
  unfold Sheet.NotNull at *
  rw [Ne, find_ensureEntry_null]
  exact h

theorem notNull_dropCaches (W : List Position) (s : Sheet Num Ast) (p : Position)
    (h : s.NotNull p) : (s.dropCaches W).NotNull p := by
  unfold Sheet.NotNull Sheet.dropCaches at *
  rw [find_mapCells]
  cases hf : Table.find s.table_ p with
  | none => simp
  | some v =>
    cases v with
    | none => exact absurd hf h
    | some c => simp

theorem notNull_foldl_linkStep (self p : Position) (refs : List Position) :
    ∀ s : Sheet Num Ast, s.NotNull p → (refs.foldl (linkStep self) s).NotNull p := by
  induction refs with
  | nil => exact fun s h => h
  | cons pos rest ih => exact fun s h => ih _ (linkStep_notNull self pos p s h)

theorem notNull_committed (H : Host Num Ast) (s : Sheet Num Ast) (self : Position)
    (impl : Impl Num Ast) (old_r : List Position) (p : Position) (h : s.NotNull p) :
    (s.committed H self impl old_r).NotNull p := by
  unfold Sheet.committed
  exact notNull_foldl_linkStep self p _ _ ((unlinked_notNull s self impl old_r p).2 h)

theorem Sound_ensureEntry (s : Sheet Num Ast) (pos : Position) (hs : s.Sound) :
    (s.ensureEntry pos).Sound := by
  refine ⟨fun p => notNull_ensureEntry s pos p (hs.1 p), InEdgesLive_ensureEntry s pos hs.2.1,
    ?_⟩
  intro p q hq
  rw [ensureEntry_out_edges] at hq
  exact cellAt_ensureEntry_isSome s pos q (hs.2.2 p q hq)

theorem Sound_SetCell (H : Host Num Ast) (s s1 : Sheet Num Ast) (pos : Position)
    (text : String) (h : (s.SetCell H pos text).state? = some s1) (hs : s.Sound) :
    s1.Sound := by
  cases hr : s.SetCell H pos text with
  | ok a s2 =>
    rw [hr] at h
    simp only [Outcome.state?, Option.some.injEq] at h
    subst h
    obtain ⟨_, impl, old, W, _, _, h3, h4, h5⟩ := SetCell_ok H s s2 pos text a hr
    have hs' := Sound_ensureEntry s pos hs
    rw [h4]
    refine ⟨fun p => notNull_dropCaches W _ p (notNull_committed H _ pos impl _ p (hs'.1 p)),
      InEdgesLive_dropCaches W _ (InEdgesLive_committed H _ pos impl old h3 h5 hs'.2.1), ?_⟩
    intro p q hq
    rw [dropCaches_out_edges] at hq
    rw [dropCaches_live]
    exact OutEdgesLive_committed H _ pos impl old h3 h5 hs'.2.2 p q hq
  | threw e s2 =>
    rw [hr] at h
    simp only [Outcome.state?, Option.some.injEq] at h
    subst h
    rcases SetCell_threw H s s2 pos text e hr with ⟨_, _, h3⟩ | ⟨_, h3, _⟩
    · rw [h3]
      exact hs
    · rw [h3]
      exact Sound_ensureEntry s pos hs
  | undefined f =>
    rw [hr] at h
    simp [Outcome.state?] at h

theorem ReachableBySetCell.sound (H : Host Num Ast) (s : Sheet Num Ast)
    (h : ReachableBySetCell H s) : s.Sound := by
  induction h with
  | empty =>
    refine ⟨fun p hp => ?_, fun p q hq => ?_, fun p q hq => ?_⟩
    · simp [Sheet.empty, Table.find] at hp
    · simp [Sheet.in_edges, Sheet.cellAt, Sheet.empty, Table.find] at hq
    · simp [Sheet.out_edges, Sheet.cellAt, Sheet.empty, Table.find] at hq
  | setCell pos text _ h ih => exact Sound_SetCell H _ _ pos text h ih

theorem Set_defined (H : Host Num Ast) (s : Sheet Num Ast) (self : Position)
    (text : String) (old : Cell Num Ast) (hs : s.Sound) (hself : s.cellAt self = some old) :
    (∃ e, Sheet.Set H s self text = .threw e s) ∨
      ∃ s1, Sheet.Set H s self text = .ok () s1 := by
  unfold Sheet.Set Cell.Set
  cases hm : Cell.makeImpl H text with
  | error e => exact Or.inl ⟨e, rfl⟩
  | ok impl =>
    simp only []
    obtain ⟨b, hb, _⟩ := IsCircularDependent_spec H s self impl hs.2.1
      (by rw [hself]; rfl)
    rw [hb]
    cases b with
    | true => exact Or.inl ⟨_, rfl⟩
    | false =>
      right
      simp only [hself]
      obtain ⟨s2, h2⟩ := eraseBackEdges_defined self old.r_nodes_
        (s.modify self fun c => { c with impl_ := impl }) (by
          intro x hx
          rw [cellAt_modify_isSome]
          apply hs.2.2 self x
          simp [Sheet.out_edges, hself, hx])
      have e2 := eraseBackEdges_ok _ _ _ _ _ h2
      have hv : ∀ p ∈ impl.GetReferencedCells H, p.IsValid H = true :=
        fun p hp => GetReferencedCells_valid H impl p hp
      obtain ⟨s4, h4⟩ := linkReferenced_defined H 0 self (impl.GetReferencedCells H)
        (s2.modify self fun c => { c with r_nodes_ := [] }) hv (by
          intro p _
          rw [e2]
          exact (unlinked_notNull s self impl old.r_nodes_ p).2 (hs.1 p))
      obtain ⟨e4, hl4⟩ := linkReferenced_ok H 0 self _ _ _ _ hv h4
      have e4' : s4 = s.committed H self impl old.r_nodes_ := by
        rw [e4, e2]
        rfl
      have hl4' : ∀ pos ∈ impl.GetReferencedCells H,
          ((s.committed H self impl old.r_nodes_).cellAt pos).isSome = true := by
        intro p hp
        rw [← e4']
        exact hl4 p hp
      have hin4 : s4.InEdgesLive := by
        rw [e4']
        exact InEdgesLive_committed H s self impl old hself hl4' hs.2.1
      have hself4 : (s4.cellAt self).isSome = true := by
        rw [e4']
        exact ((committed_facts H s self impl old hself hl4' self).1).2
          (Or.inl (by rw [hself]; rfl))
      obtain ⟨v1, W1, h5, _⟩ := InvalidateCacheRecursive_defined s4 hin4
        (s4.table_.length + 1) [] self []
        (by rw [dropCaches_nil]; exact hself4)
        (by
          have := countUnvisited_le s4.keys []
          simp only [Sheet.keys, List.length_map] at this
          simp only [Sheet.keys]
          omega)
      rw [dropCaches_nil] at h5
      refine ⟨s4.dropCaches W1, ?_⟩
      rw [h2]
      simp only [Outcome.bind]
      rw [h4]
      simp only [Outcome.bind]
      rw [h5]

theorem SetCell_defined (H : Host Num Ast) (s : Sheet Num Ast) (pos : Position)
    (text : String) (hs : s.Sound) :
    (∃ e s1, s.SetCell H pos text = .threw e s1) ∨
      ∃ s1, s.SetCell H pos text = .ok () s1 := by
  rw [SetCell_eq]
  by_cases hv : pos.IsValid H = true
  · rw [if_pos hv]
    have hlive := ensureEntry_live_of_notNull s pos (hs.1 pos)
    cases hc : (s.ensureEntry pos).cellAt pos with
    | none => simp [hc] at hlive
    | some old =>
      simp only []
      rcases Set_defined H _ pos text old (Sound_ensureEntry s pos hs) hc with
        ⟨e, h⟩ | ⟨s1, h⟩
      · exact Or.inl ⟨e, _, h⟩
      · exact Or.inr ⟨s1, h⟩
  · rw [if_neg hv]
    exact Or.inl ⟨_, _, rfl⟩

/-! ## The text round trip -/

theorem makeImpl_text (H : Host Num Ast) (text : String) (c : Char) (cs : List Char)
    (ht : text.data = c :: cs) (hc : c ≠ H.FORMULA_SIGN) :
    Cell.makeImpl H text = .ok (.TextImpl text) := by
  simp [Cell.makeImpl, ht, hc, TextImpl.new]

theorem GetValue_text (H : Host Num Ast) (s : Sheet Num Ast) (p : Position) (text : String)
    (h : s.implAt p = some (.TextImpl text)) :
    Cell.GetValue H s p = .ok (.str (TextImpl.GetValue H text)) s := by
  unfold Sheet.implAt at h
  cases hc : s.cellAt p with
  | none => simp [hc] at h
  | some c =>
    simp only [hc, Option.map_some', Option.some.injEq] at h
    unfold Cell.GetValue
    rw [Cell.GetValueFuel]
    simp only [hc, h]

/-- The text round trip in a sheet without null entries and dangling pointers, such as
every sheet reachable through `SetCell` calls: `SetCell(p, text)` with a text that does
not start with the formula sign returns, and afterwards the text of the cell is `text`
and its value is `text` without a leading escape sign. -/
theorem text_round_trip_of_sound (H : Host Num Ast) (s : Sheet Num Ast) (hs : s.Sound)
    (p : Position) (hp : p.IsValid H = true) (text : String) (c : Char) (cs : List Char)
    (ht : text.data = c :: cs) (hc : c ≠ H.FORMULA_SIGN) :
    ∃ s1, s.SetCell H p text = .ok () s1 ∧ Cell.GetText H s1 p = some text ∧
      Cell.GetValue H s1 p =
        .ok (.str (if c = H.ESCAPE_SIGN then ⟨cs⟩ else text)) s1 := by
  have hm := makeImpl_text H text c cs ht hc
  rcases SetCell_defined H s p text hs with ⟨e, s1, h⟩ | ⟨s1, h⟩
  · exfalso
    rcases SetCell_threw H s s1 p text e h with ⟨h1, _⟩ | ⟨_, _, _, h2⟩
    · rw [hp] at h1
      exact Bool.noConfusion h1
    · rcases h2 with ⟨_, h3⟩ | ⟨_, impl, h3, h4⟩
      · rw [hm] at h3
        exact Except.noConfusion h3
      · rw [hm] at h3
        cases h3
        rw [IsCircularDependent_noRefs H _ p (.TextImpl text) rfl] at h4
        cases h4
  · obtain ⟨new, h1, h2⟩ := SetCell_ok_implAt H s s1 p text () h
    rw [hm] at h1
    cases h1
    refine ⟨s1, h, ?_, ?_⟩
    · rw [GetText_eq_implAt, h2]
      rfl
    · rw [GetValue_text H s1 p text h2]
      simp only [TextImpl.GetValue, ht, substr1, List.tail_cons]

/-! ## `ClearCell` and the entry it leaves, on any sheet -/

/-- `SetCell` on a valid position whose entry holds a null pointer, as `ClearCell`
leaves it, dereferences that pointer, whatever the text. -/
theorem SetCell_null_entry (H : Host Num Ast) (s : Sheet Num Ast) (pos : Position)
    (text : String) (hv : pos.IsValid H = true) (hf : Table.find s.table_ pos = some none) :
    s.SetCell H pos text = .undefined .nullDereference := by
  rw [SetCell_eq, if_pos hv]
  have he : s.ensureEntry pos = s := by simp [Sheet.ensureEntry, hf]
  have hc : s.cellAt pos = none := by simp [Sheet.cellAt, hf]
  rw [he, hc]

/-- `ClearCell` on a position that holds a cell always destroys the cell, whatever its
text: it returns, the entry stays in the map with a null pointer, and no other entry
changes. -/
theorem ClearCell_destroys (H : Host Num Ast) (s : Sheet Num Ast) (pos : Position)
    (c : Cell Num Ast) (hv : pos.IsValid H = true) (hc : s.cellAt pos = some c) :
    ∃ s1, s.ClearCell H pos = .ok () s1 ∧ Table.find s1.table_ pos = some none ∧
      s1.cellAt pos = none ∧
      ∀ q, q ≠ pos → Table.find s1.table_ q = Table.find s.table_ q := by
  have hf := find_of_cellAt s pos c hc
  have hc1 : (Cell.Clear s pos).cellAt pos = some { c with impl_ := Impl.EmptyImpl } := by
    unfold Cell.Clear
    rw [cellAt_modify]
    simp [hc]
  refine ⟨(Cell.Clear s pos).reset pos, ?_, ?_, ?_, ?_⟩
  · unfold Sheet.ClearCell
    simp only [hv, if_true, hf, hc1, Impl.GetText]
  · rw [find_reset, if_pos rfl, find_of_cellAt _ pos _ hc1]
    rfl
  · unfold Sheet.cellAt
    rw [find_reset, if_pos rfl, find_of_cellAt _ pos _ hc1]
    rfl
  · intro q hq
    unfold Cell.Clear
    rw [find_reset, if_neg hq, find_modify, if_neg hq]

/-! ## Clearing twice, and invalid positions -/

theorem ClearCell_of_not_live (H : Host Num Ast) (s : Sheet Num Ast) (pos : Position)
    (hv : pos.IsValid H = true) (hc : s.cellAt pos = none) :
    s.ClearCell H pos = .ok () s := by
  unfold Sheet.ClearCell
  rw [if_pos hv]
  cases hf : Table.find s.table_ pos with
  | none => rfl
  | some v =>
    cases v with
    | none => rfl
    | some c => simp [Sheet.cellAt, hf] at hc

theorem ClearCell_returns (H : Host Num Ast) (s : Sheet Num Ast) (pos : Position)
    (hv : pos.IsValid H = true) :
    ∃ s1, s.ClearCell H pos = .ok () s1 ∧ s1.cellAt pos = none := by
  cases hc : s.cellAt pos with
  | none => exact ⟨s, ClearCell_of_not_live H s pos hv hc, hc⟩
  | some c =>
    obtain ⟨s1, h1, _, h3, _⟩ := ClearCell_destroys H s pos c hv hc
    exact ⟨s1, h1, h3⟩

/-- C11. Idempotent clear: for every sheet and every valid position `p`, `ClearCell(p)`
returns, a second `ClearCell(p)` returns too and leaves the sheet exactly as the first
call left it, so `GetCell`, `GetText` and `GetValue` at every position and
`GetPrintableSize` are the same after one call and after two. -/
theorem clearCell_idempotent (H : Host Num Ast) (s : Sheet Num Ast) (p : Position)
    (hv : p.IsValid H = true) :
    ∃ s1 s2, s.ClearCell H p = .ok () s1 ∧ s1.ClearCell H p = .ok () s2 ∧ s2 = s1 ∧
      (∀ q, s2.GetCell H q = s1.GetCell H q) ∧
      (∀ q, Cell.GetText H s2 q = Cell.GetText H s1 q) ∧
      (∀ q, (Cell.GetValue H s2 q).value? = (Cell.GetValue H s1 q).value?) ∧
      s2.GetPrintableSize = s1.GetPrintableSize := by
  obtain ⟨s1, h1, hc⟩ := ClearCell_returns H s p hv
  exact ⟨s1, s1, h1, ClearCell_of_not_live H s1 p hv hc, rfl, fun _ => rfl, fun _ => rfl,
    fun _ => rfl, rfl⟩

/-- Clearing the text cell `A1` twice: the first call destroys the cell, the second
finds the null entry and changes nothing. -/
theorem clearCell_idempotent_witness :
    sheetTextA1.ClearCell sumHost A1 = .ok () sheetNullA1 ∧
      sheetNullA1.ClearCell sumHost A1 = .ok () sheetNullA1 ∧
      ∃ s1 s2, sheetTextA1.ClearCell sumHost A1 = .ok () s1 ∧
        s1.ClearCell sumHost A1 = .ok () s2 ∧ s2 = s1 :=
  have ⟨s1, s2, h1, h2, h3, _⟩ := clearCell_idempotent sumHost sheetTextA1 A1 (by decide)
  ⟨by decide, by decide, s1, s2, h1, h2, h3⟩

/-- C16. Invalid positions are rejected by every sheet operation: on a position that is
not valid `SetCell`, `GetCell` and `ClearCell` throw `InvalidPositionException`,
whatever the text and the sheet; on a valid position `GetCell` returns the cell stored
there, or null when the entry is absent or null, and `ClearCell` returns. -/
theorem invalid_positions_rejected (H : Host Num Ast) (s : Sheet Num Ast) (pos : Position)
    (text : String) :
    (pos.IsValid H = false →
      s.SetCell H pos text = .threw .InvalidPositionException s ∧
      s.GetCell H pos = .error .InvalidPositionException ∧
      s.ClearCell H pos = .threw .InvalidPositionException s) ∧
    (pos.IsValid H = true →
      s.GetCell H pos = .ok (s.cellAt pos) ∧
      (∀ c, Table.find s.table_ pos = some (some c) → s.GetCell H pos = .ok (some c)) ∧
      (Table.find s.table_ pos = none → s.GetCell H pos = .ok none) ∧
      (Table.find s.table_ pos = some none → s.GetCell H pos = .ok none) ∧
      ∃ s1, s.ClearCell H pos = .ok () s1) := by
  constructor
  · intro hv
    refine ⟨?_, ?_, ?_⟩
    · rw [SetCell_eq]
      simp [hv]
    · simp [Sheet.GetCell, Sheet.GetCellData, hv]
    · simp [Sheet.ClearCell, hv]
  · intro hv
    have hg : s.GetCell H pos = .ok (s.cellAt pos) := GetCellData_valid H s pos hv
    refine ⟨hg, ?_, ?_, ?_, ?_⟩
    · intro c hf
      rw [hg]
      simp [Sheet.cellAt, hf]
    · intro hf
      rw [hg]
      simp [Sheet.cellAt, hf]
    · intro hf
      rw [hg]
      simp [Sheet.cellAt, hf]
    · obtain ⟨s1, h1, _⟩ := ClearCell_returns H s pos hv
      exact ⟨s1, h1⟩

/-- The three operations at a position outside the grid, and `GetCell` and `ClearCell`
at `A1`, on the sheet whose only cell is the text cell `A1`. -/
theorem invalid_positions_rejected_witness :
    sheetTextA1.SetCell sumHost ⟨-1, 0⟩ "x" = .threw .InvalidPositionException sheetTextA1 ∧
      sheetTextA1.GetCell sumHost ⟨0, 16384⟩ = .error .InvalidPositionException ∧
      sheetTextA1.ClearCell sumHost ⟨16384, 0⟩ =
        .threw .InvalidPositionException sheetTextA1 ∧
      sheetTextA1.GetCell sumHost A1 = .ok (some ⟨.TextImpl "x", [], []⟩) ∧
      sheetTextA1.GetCell sumHost B1 = .ok none ∧
      sheetNullA1.GetCell sumHost A1 = .ok none :=
  ⟨((invalid_positions_rejected sumHost sheetTextA1 ⟨-1, 0⟩ "x").1 (by decide)).1,
    ((invalid_positions_rejected sumHost sheetTextA1 ⟨0, 16384⟩ "").1 (by decide)).2.1,
    ((invalid_positions_rejected sumHost sheetTextA1 ⟨16384, 0⟩ "").1 (by decide)).2.2,
    ((invalid_positions_rejected sumHost sheetTextA1 A1 "").2 (by decide)).2.1 _
      (by decide),
    ((invalid_positions_rejected sumHost sheetTextA1 B1 "").2 (by decide)).2.2.1
      (by decide),
    ((invalid_positions_rejected sumHost sheetNullA1 A1 "").2 (by decide)).2.2.2.1
      (by decide)⟩

/-! ## Operand lookup -/

theorem run_ask (H : Host Num Ast)
    (g : Sheet Num Ast → Position → Outcome (Sheet Num Ast) (Value Num))
    (p : Position) (k : Num → Exec Num) (s : Sheet Num Ast) :
    Formula.run H g (.ask p k) s = Formula.resume H g k (Formula.args H g p s) := by
  rw [Formula.run, Formula.args]
  by_cases hv : p.IsValid H = true
  · rw [if_pos hv, if_pos hv]
    cases hg : s.GetCell H p with
    | error e => rfl
    | ok o =>
      cases o with
      | none => rfl
      | some c =>
        simp only []
        cases hq : g s p with
        | threw e s1 => rfl
        | undefined f => rfl
        | ok v s1 =>
          cases v with
          | number x => rfl
          | error e => rfl
          | str str_val =>
            simp only []
            cases hd : str_val.data with
            | nil => rfl
            | cons a l =>
              simp only []
              cases hr : H.extractDouble str_val with
              | none => rfl
              | some r =>
                simp only []
                by_cases he : eof str_val r.2 = true
                · rw [if_pos he, if_pos he]
                  rfl
                · rw [if_neg he, if_neg he]
                  rfl
  · rw [if_neg hv, if_neg hv]
    rfl

theorem args_not_threw (H : Host Num Ast)
    (g : Sheet Num Ast → Position → Outcome (Sheet Num Ast) (Value Num))
    (hg : ∀ s p e s1, g s p ≠ .threw e s1) (p : Position) (s : Sheet Num Ast) (e : Exn)
    (s1 : Sheet Num Ast) : Formula.args H g p s ≠ .threw e s1 := by
  unfold Formula.args
  by_cases hv : p.IsValid H = true
  · have hc : s.GetCell H p = .ok (s.cellAt p) := GetCellData_valid H s p hv
    rw [if_pos hv, hc]
    cases s.cellAt p with
    | none => simp
    | some c =>
      simp only []
      cases hq : g s p with
      | threw e2 s2 => exact absurd hq (hg s p e2 s2)
      | undefined f => simp
      | ok v s2 =>
        cases v with
        | number x => simp
        | error e2 => simp
        | str str_val =>
          simp only []
          cases str_val.data with
          | nil => simp
          | cons a l =>
            simp only []
            cases H.extractDouble str_val with
            | none => simp
            | some r =>
              simp only []
              by_cases he : eof str_val r.2 = true
              · rw [if_pos he]
                simp
              · rw [if_neg he]
                simp
  · rw [if_neg hv]
    simp

theorem run_not_threw (H : Host Num Ast)
    (g : Sheet Num Ast → Position → Outcome (Sheet Num Ast) (Value Num))
    (hg : ∀ s p e s1, g s p ≠ .threw e s1) (ex : Exec Num) :
    ∀ (s : Sheet Num Ast) (e : Exn) (s1 : Sheet Num Ast),
      Formula.run H g ex s ≠ .threw e s1 := by
  induction ex with
  | done r =>
    intro s e s1
    simp [Formula.run]
  | ask p k ih =>
    intro s e s1
    rw [run_ask]
    cases ha : Formula.args H g p s with
    | threw e2 s2 => exact absurd ha (args_not_threw H g hg p s e2 s2)
    | undefined f => simp [Formula.resume]
    | ok v s2 =>
      cases v with
      | number x => exact ih x s2 e s1
      | error e2 => simp [Formula.resume]

theorem GetValueFuel_not_threw (H : Host Num Ast) (n : Nat) :
    ∀ (s : Sheet Num Ast) (p : Position) (e : Exn) (s1 : Sheet Num Ast),
      Cell.GetValueFuel H n s p ≠ .threw e s1 := by
  induction n with
  | zero =>
    intro s p e s1
    simp [Cell.GetValueFuel]
  | succ n ih =>
    intro s p e s1
    rw [Cell.GetValueFuel]
    cases s.cellAt p with
    | none => simp
    | some c =>
      simp only []
      cases c.impl_ with
      | EmptyImpl => simp
      | TextImpl t => simp
      | FormulaImpl f cache =>
        cases cache with
        | some v => simp
        | none =>
          simp only []
          intro h
          obtain ⟨h1⟩ | ⟨a, s2, _, h2⟩ := (Outcome.bind_eq_threw _ _ _ _).1 h
          · exact run_not_threw H _ ih _ _ _ _ h1
          · simp at h2

theorem args_of_absent (H : Host Num Ast)
    (g : Sheet Num Ast → Position → Outcome (Sheet Num Ast) (Value Num))
    (p : Position) (s : Sheet Num Ast) (hv : p.IsValid H = true) (hc : s.cellAt p = none) :
    Formula.args H g p s = .ok (.number H.zero) s := by
  have h : s.GetCell H p = .ok (s.cellAt p) := GetCellData_valid H s p hv
  rw [Formula.args, if_pos hv, h, hc]

theorem args_of_value (H : Host Num Ast)
    (g : Sheet Num Ast → Position → Outcome (Sheet Num Ast) (Value Num))
    (p : Position) (s : Sheet Num Ast) (c : Cell Num Ast)
    (hv : p.IsValid H = true) (hc : s.cellAt p = some c) :
    ∀ (v : Value Num) (s1 : Sheet Num Ast), g s p = .ok v s1 →
      Formula.args H g p s =
        match v with
        | .number val => .ok (.number val) s1
        | .error error => .ok (.error error) s1
        | .str str_val =>
          match str_val.data with
          | [] => .ok (.number H.zero) s1
          | _ :: _ =>
            match H.extractDouble str_val with
            | none => .ok (.error .Value) s1
            | some (result, consumed) =>
              if eof str_val consumed then .ok (.number result) s1
              else .ok (.error .Value) s1 := by
  intro v s1 hg
  have h : s.GetCell H p = .ok (s.cellAt p) := GetCellData_valid H s p hv
  rw [Formula.args, if_pos hv, h, hc]
  simp only []
  rw [hg]
  cases v <;> rfl

theorem live_of_GetValueFuel (H : Host Num Ast) (n : Nat) (s s1 : Sheet Num Ast)
    (p : Position) (v : Value Num) (h : Cell.GetValueFuel H n s p = .ok v s1) :
    ∃ c, s.cellAt p = some c := by
  cases n with
  | zero => simp [Cell.GetValueFuel] at h
  | succ n =>
    rw [Cell.GetValueFuel] at h
    cases hc : s.cellAt p with
    | none => simp [hc] at h
    | some c => exact ⟨c, rfl⟩

theorem GetValueFuel_of_impl (H : Host Num Ast) (n : Nat) (s : Sheet Num Ast)
    (p : Position) (c : Cell Num Ast) (hc : s.cellAt p = some c) :
    (c.impl_ = .EmptyImpl → Cell.GetValueFuel H (n + 1) s p = .ok (.str "") s) ∧
    (∀ t, c.impl_ = .TextImpl t →
      Cell.GetValueFuel H (n + 1) s p = .ok (.str (TextImpl.GetValue H t)) s) ∧
    (∀ f v, c.impl_ = .FormulaImpl f (some v) →
      Cell.GetValueFuel H (n + 1) s p = .ok v.toValue s) := by
  refine ⟨?_, ?_, ?_⟩
  · intro h
    rw [Cell.GetValueFuel, hc]
    simp only [h]
  · intro t h
    rw [Cell.GetValueFuel, hc]
    simp only [h]
  · intro f v h
    rw [Cell.GetValueFuel, hc]
    simp only [h]

/-- C12. Operand coercion for referents that are not text: the operand `args` looks up
for a position `p` is the error `Ref` when `p` is not valid; 0.0 when `p` is valid and
the sheet has no cell at `p` or the cell there is Empty; the cell's number when the
value of the cell is a number; and when the value of the cell is a `FormulaError`, that
same error is thrown and the evaluation ends with it as its result. `Evaluate` returns
every `FormulaError` an operand lookup throws as a value, and no exception escapes
it. -/
theorem operand_coercion_non_text (H : Host Num Ast) (n : Nat) (s : Sheet Num Ast)
    (p : Position) :
    (p.IsValid H = false →
      Formula.args H (Cell.GetValueFuel H (n + 1)) p s = .ok (.error .Ref) s) ∧
    (p.IsValid H = true → s.cellAt p = none →
      Formula.args H (Cell.GetValueFuel H (n + 1)) p s = .ok (.number H.zero) s) ∧
    (p.IsValid H = true → s.implAt p = some .EmptyImpl →
      Formula.args H (Cell.GetValueFuel H (n + 1)) p s = .ok (.number H.zero) s) ∧
    (p.IsValid H = true → ∀ x s1, Cell.GetValueFuel H (n + 1) s p = .ok (.number x) s1 →
      Formula.args H (Cell.GetValueFuel H (n + 1)) p s = .ok (.number x) s1) ∧
    (p.IsValid H = true → ∀ e s1, Cell.GetValueFuel H (n + 1) s p = .ok (.error e) s1 →
      Formula.args H (Cell.GetValueFuel H (n + 1)) p s = .ok (.error e) s1) ∧
    (p.IsValid H = true → ∀ f x, s.implAt p = some (.FormulaImpl f (some (.number x))) →
      Formula.args H (Cell.GetValueFuel H (n + 1)) p s = .ok (.number x) s) ∧
    (p.IsValid H = true → ∀ f e, s.implAt p = some (.FormulaImpl f (some (.error e))) →
      Formula.args H (Cell.GetValueFuel H (n + 1)) p s = .ok (.error e) s) ∧
    (∀ k x s1, Formula.args H (Cell.GetValueFuel H (n + 1)) p s = .ok (.number x) s1 →
      Formula.run H (Cell.GetValueFuel H (n + 1)) (.ask p k) s =
        Formula.run H (Cell.GetValueFuel H (n + 1)) (k x) s1) ∧
    (∀ k e s1, Formula.args H (Cell.GetValueFuel H (n + 1)) p s = .ok (.error e) s1 →
      Formula.run H (Cell.GetValueFuel H (n + 1)) (.ask p k) s = .ok (.error e) s1) ∧
    (∀ ast k e s1, H.Execute ast = .ask p k →
      Formula.args H (Cell.GetValueFuel H (n + 1)) p s = .ok (.error e) s1 →
      Formula.Evaluate H (Cell.GetValueFuel H (n + 1)) ast s = .ok (.error e) s1) ∧
    (∀ m ast e s1, Formula.Evaluate H (Cell.GetValueFuel H m) ast s ≠ .threw e s1) := by
  refine ⟨?_, ?_, ?_, ?_, ?_, ?_, ?_, ?_, ?_, ?_, ?_⟩
  · intro hv
    simp [Formula.args, hv]
  · intro hv hc
    exact args_of_absent H _ p s hv hc
  · intro hv hi
    cases hc : s.cellAt p with
    | none => simp [Sheet.implAt, hc] at hi
    | some c =>
      have hi2 : c.impl_ = .EmptyImpl := by simpa [Sheet.implAt, hc] using hi
      have hg := (GetValueFuel_of_impl H n s p c hc).1 hi2
      rw [args_of_value H _ p s c hv hc _ _ hg]
  · intro hv x s1 hg
    obtain ⟨c, hc⟩ := live_of_GetValueFuel H _ s s1 p _ hg
    rw [args_of_value H _ p s c hv hc _ _ hg]
  · intro hv e s1 hg
    obtain ⟨c, hc⟩ := live_of_GetValueFuel H _ s s1 p _ hg
    rw [args_of_value H _ p s c hv hc _ _ hg]
  · intro hv f x hi
    cases hc : s.cellAt p with
    | none => simp [Sheet.implAt, hc] at hi
    | some c =>
      have hi2 : c.impl_ = .FormulaImpl f (some (.number x)) := by
        simpa [Sheet.implAt, hc] using hi
      have hg := (GetValueFuel_of_impl H n s p c hc).2.2 f _ hi2
      rw [args_of_value H _ p s c hv hc _ _ hg]
      rfl
  · intro hv f e hi
    cases hc : s.cellAt p with
    | none => simp [Sheet.implAt, hc] at hi
    | some c =>
      have hi2 : c.impl_ = .FormulaImpl f (some (.error e)) := by
        simpa [Sheet.implAt, hc] using hi
      have hg := (GetValueFuel_of_impl H n s p c hc).2.2 f _ hi2
      rw [args_of_value H _ p s c hv hc _ _ hg]
      rfl
  · intro k x s1 ha
    rw [run_ask, ha]
    rfl
  · intro k e s1 ha
    rw [run_ask, ha]
    rfl
  · intro ast k e s1 hx ha
    rw [Formula.Evaluate, hx, run_ask, ha]
    rfl
  · intro m ast e s1
    exact run_not_threw H _ (GetValueFuel_not_threw H m) _ s e s1

/-- The operand rules at concrete referents: a position outside the grid, the missing
cell `C3`, the blank cell `A1`, the formula cell `A1` whose cached value is 5, and the
formula cell `B1` whose cached value is the error `Value`. -/
theorem operand_coercion_non_text_witness :
    Formula.args sumHost (Cell.GetValueFuel sumHost 2) ⟨-1, 0⟩ sheetTextA1 =
        .ok (.error .Ref) sheetTextA1 ∧
      Formula.args sumHost (Cell.GetValueFuel sumHost 2) C3 sheetTextA1 =
        .ok (.number 0) sheetTextA1 ∧
      Formula.args sumHost (Cell.GetValueFuel sumHost 2) A1 sheetBlankA1 =
        .ok (.number 0) sheetBlankA1 ∧
      Formula.args sumHost (Cell.GetValueFuel sumHost 2) A1
          (sheetA1readsB1 (some (.number 5))) =
        .ok (.number 5) (sheetA1readsB1 (some (.number 5))) ∧
      Formula.args sumHost (Cell.GetValueFuel sumHost 2) B1
          (sheetB1addsA1 "hello" (some (.error .Value))) =
        .ok (.error .Value) (sheetB1addsA1 "hello" (some (.error .Value))) :=
  ⟨(operand_coercion_non_text sumHost 1 sheetTextA1 ⟨-1, 0⟩).1 (by decide),
    (operand_coercion_non_text sumHost 1 sheetTextA1 C3).2.1 (by decide) (by decide),
    (operand_coercion_non_text sumHost 1 sheetBlankA1 A1).2.2.1 (by decide) (by decide),
    (operand_coercion_non_text sumHost 1 (sheetA1readsB1 (some (.number 5))) A1).2.2.2.1
      (by decide) 5 _ (by decide),
    (operand_coercion_non_text sumHost 1 (sheetB1addsA1 "hello" (some (.error .Value)))
      B1).2.2.2.2.1 (by decide) .Value _ (by decide)⟩

/-- C13, counterexample: `A1` holds the text cell whose raw text is only the escape
sign, so its value is the empty string, from which no number can be extracted; the
operand looked up for `A1` is nevertheless 0 and `B1 = "=A1+1"` evaluates to 1, not to
the error `Value`. -/
theorem escape_only_text_operand_is_zero :
    runSetCells sumHost Sheet.empty [(A1, "'"), (B1, "=A1+1")] =
        some (sheetB1addsA1 "'" none) ∧
      (sheetB1addsA1 "'" none).implAt A1 = some (.TextImpl "'") ∧
      Cell.GetValue sumHost (sheetB1addsA1 "'" none) A1 =
        .ok (.str "") (sheetB1addsA1 "'" none) ∧
      sumHost.extractDouble "" = none ∧
      Formula.args sumHost (Cell.GetValueFuel sumHost 2) A1 (sheetB1addsA1 "'" none) =
        .ok (.number 0) (sheetB1addsA1 "'" none) ∧
      Cell.GetValue sumHost (sheetB1addsA1 "'" none) B1 =
        .ok (.number 1) (sheetB1addsA1 "'" (some (.number 1))) ∧
      Cell.GetValue sumHost (sheetB1addsA1 "'" none) B1 ≠
        .ok (.error .Value) (sheetB1addsA1 "'" (some (.error .Value))) := by
  decide

/-- C13, amended. Operand coercion for text referents: for a valid position holding a
Text cell whose string value is not empty, the operand is the number extracted from the
value when the extraction succeeds and consumes the entire string, leaving no trailing
character; the lookup throws `Value`, which the evaluation returns, when the extraction
fails and when it stops before the end of the string. For a Text cell whose value is the
empty string, as when its raw text is only the escape sign, the operand is 0.0. -/
theorem text_operand_coercion (H : Host Num Ast) (n : Nat) (s : Sheet Num Ast)
    (p : Position) (c : Cell Num Ast) (text_ : String) (hv : p.IsValid H = true)
    (hc : s.cellAt p = some c) (ht : c.impl_ = .TextImpl text_) :
    Cell.GetValueFuel H (n + 1) s p = .ok (.str (TextImpl.GetValue H text_)) s ∧
    (∀ x m, (TextImpl.GetValue H text_).data ≠ [] →
      H.extractDouble (TextImpl.GetValue H text_) = some (x, m) →
      (TextImpl.GetValue H text_).data.drop m = [] →
      Formula.args H (Cell.GetValueFuel H (n + 1)) p s = .ok (.number x) s) ∧
    (∀ x m, (TextImpl.GetValue H text_).data ≠ [] →
      H.extractDouble (TextImpl.GetValue H text_) = some (x, m) →
      (TextImpl.GetValue H text_).data.drop m ≠ [] →
      Formula.args H (Cell.GetValueFuel H (n + 1)) p s = .ok (.error .Value) s) ∧
    ((TextImpl.GetValue H text_).data ≠ [] →
      H.extractDouble (TextImpl.GetValue H text_) = none →
      Formula.args H (Cell.GetValueFuel H (n + 1)) p s = .ok (.error .Value) s) ∧
    (Formula.args H (Cell.GetValueFuel H (n + 1)) p s = .ok (.error .Value) s →
      (∀ k, Formula.run H (Cell.GetValueFuel H (n + 1)) (.ask p k) s =
        .ok (.error .Value) s) ∧
      ∀ ast k, H.Execute ast = .ask p k →
        Formula.Evaluate H (Cell.GetValueFuel H (n + 1)) ast s = .ok (.error .Value) s) ∧
    ((TextImpl.GetValue H text_).data = [] →
      Formula.args H (Cell.GetValueFuel H (n + 1)) p s = .ok (.number H.zero) s) ∧
    (text_.data = [H.ESCAPE_SIGN] →
      (TextImpl.GetValue H text_).data = [] ∧
      Formula.args H (Cell.GetValueFuel H (n + 1)) p s = .ok (.number H.zero) s) := by
  have hg := (GetValueFuel_of_impl H n s p c hc).2.1 text_ ht
  have ha := args_of_value H _ p s c hv hc _ _ hg
  simp only [] at ha
  have hempty : (TextImpl.GetValue H text_).data = [] →
      Formula.args H (Cell.GetValueFuel H (n + 1)) p s = .ok (.number H.zero) s := by
    intro hd
    rw [ha, hd]
  refine ⟨hg, ?_, ?_, ?_, ?_, hempty, ?_⟩
  · intro x m hd hr he
    rw [ha]
    cases hd2 : (TextImpl.GetValue H text_).data with
    | nil => exact absurd hd2 hd
    | cons a l =>
      have he2 : eof (TextImpl.GetValue H text_) m = true := by simp [eof, he]
      simp only [hr]
      rw [if_pos he2]
  · intro x m hd hr he
    rw [ha]
    cases hd2 : (TextImpl.GetValue H text_).data with
    | nil => exact absurd hd2 hd
    | cons a l =>
      have he2 : ¬ eof (TextImpl.GetValue H text_) m = true := by simpa [eof] using he
      simp only [hr]
      rw [if_neg he2]
  · intro hd hr
    rw [ha]
    cases hd2 : (TextImpl.GetValue H text_).data with
    | nil => exact absurd hd2 hd
    | cons a l => simp only [hr]
  · intro h1
    refine ⟨?_, ?_⟩
    · intro k
      rw [run_ask, h1]
      rfl
    · intro ast k hx
      rw [Formula.Evaluate, hx, run_ask, h1]
      rfl
  · intro hd
    have h2 : (TextImpl.GetValue H text_).data = [] := by
      simp [TextImpl.GetValue, hd, substr1]
    exact ⟨h2, hempty h2⟩

/-- The scenario of the coercion rule: with `A1 = "hello"` the value of `B1 = "=A1+1"`
is the error `Value`; after `A1 = "10"` it is 11. From `10x` the number 10 is extracted
with the character `x` left unread, and the operand lookup throws `Value`. -/
theorem text_operand_coercion_witness :
    runSetCells sumHost Sheet.empty [(A1, "hello"), (B1, "=A1+1")] =
        some (sheetB1addsA1 "hello" none) ∧
      Cell.GetValue sumHost (sheetB1addsA1 "hello" none) B1 =
        .ok (.error .Value) (sheetB1addsA1 "hello" (some (.error .Value))) ∧
      (sheetB1addsA1 "hello" (some (.error .Value))).SetCell sumHost A1 "10" =
        .ok () (sheetB1addsA1 "10" none) ∧
      Cell.GetValue sumHost (sheetB1addsA1 "10" none) B1 =
        .ok (.number 11) (sheetB1addsA1 "10" (some (.number 11))) ∧
      Formula.args sumHost (Cell.GetValueFuel sumHost 2) A1 (sheetB1addsA1 "hello" none) =
        .ok (.error .Value) (sheetB1addsA1 "hello" none) ∧
      Formula.args sumHost (Cell.GetValueFuel sumHost 2) A1 (sheetB1addsA1 "10" none) =
        .ok (.number 10) (sheetB1addsA1 "10" none) ∧
      sumHost.extractDouble "10x" = some (10, 2) ∧
      Formula.args sumHost (Cell.GetValueFuel sumHost 2) A1 (sheetB1addsA1 "10x" none) =
        .ok (.error .Value) (sheetB1addsA1 "10x" none) ∧
      Cell.GetValue sumHost (sheetB1addsA1 "10x" none) B1 =
        .ok (.error .Value) (sheetB1addsA1 "10x" (some (.error .Value))) :=
  ⟨by decide, by decide, by decide, by decide,
    (text_operand_coercion sumHost 1 (sheetB1addsA1 "hello" none) A1
      ⟨.TextImpl "hello", [B1], []⟩ "hello" (by decide) (by decide) rfl).2.2.2.1
        (by decide) (by decide),
    (text_operand_coercion sumHost 1 (sheetB1addsA1 "10" none) A1
      ⟨.TextImpl "10", [B1], []⟩ "10" (by decide) (by decide) rfl).2.1 10 2
        (by decide) (by decide) (by decide),
    by decide,
    (text_operand_coercion sumHost 1 (sheetB1addsA1 "10x" none) A1
      ⟨.TextImpl "10x", [B1], []⟩ "10x" (by decide) (by decide) rfl).2.2.1 10 2
        (by decide) (by decide) (by decide),
    by decide⟩

/-! ## Referenced cells of a formula -/

theorem ParseFormula_spec (H : Host Num Ast) (expression : String) :
    (∀ ast, H.ParseFormulaAST expression = .ok ast → ParseFormula H expression = .ok ast) ∧
    (∀ d, H.ParseFormulaAST expression = .error d →
      Formula.new H expression = .error (.FormulaException d) ∧
      ParseFormula H expression = .error (.FormulaException "")) := by
  constructor
  · intro ast h
    simp [ParseFormula, Formula.new, h]
  · intro d h
    simp [ParseFormula, Formula.new, h]

/-- C15, at the failing input: the parser of the scenarios rejects the body `+` with
the diagnostic `syntax error`; the constructor `Formula::Formula` wraps it in a
`FormulaException` that carries the diagnostic, and `ParseFormula` replaces that
exception by a `FormulaException` with the empty message, which does not contain the
diagnostic. A body the parser accepts gives a formula. -/
theorem parseFormula_drops_diagnostic :
    sumHost.ParseFormulaAST "+" = .error "syntax error" ∧
      Formula.new sumHost "+" = .error (.FormulaException "syntax error") ∧
      ParseFormula sumHost "+" = .error (.FormulaException "") ∧
      ("syntax error".data <:+: "".data) = False ∧
      ParseFormula sumHost "1+2" = .ok [.number 1, .number 2] :=
  ⟨rfl, rfl, rfl, by simp, rfl⟩

/-! ## Edges after `ClearCell` -/

/-- C18, at the failing input: after `SetCell(A1, "=B1")`, `ClearCell(B1)` destroys the
cell `B1` and leaves it in the `out_edges` of `A1`; `ClearCell(A1)` instead destroys the
cell `A1` and leaves it in the `in_edges` of `B1`. In both sheets an edge set has a
member that is not a cell of the sheet. -/
theorem clearCell_leaves_dangling_edges :
    (Sheet.empty : Sheet Int (List Operand)).SetCell sumHost A1 "=B1" =
        .ok () sheetA1refB1 ∧
      sheetA1refB1.ClearCell sumHost B1 = .ok () sheetDanglingB1 ∧
      B1 ∈ sheetDanglingB1.out_edges A1 ∧
      sheetDanglingB1.GetCell sumHost B1 = .ok none ∧
      ¬ sheetDanglingB1.OutEdgesLive ∧
      sheetA1refB1.ClearCell sumHost A1 = .ok () sheetDanglingA1 ∧
      A1 ∈ sheetDanglingA1.in_edges B1 ∧
      sheetDanglingA1.GetCell sumHost A1 = .ok none ∧
      ¬ sheetDanglingA1.InEdgesLive :=
  ⟨by decide, by decide, by decide, rfl,
    fun h => absurd (h A1 B1 (by decide)) (by decide),
    by decide, by decide, rfl,
    fun h => absurd (h B1 A1 (by decide)) (by decide)⟩

/-! ## Invariants of the edge sets under `SetCell` and `ClearCell`

The invariants of this section read the members of the edge sets as positions: a
pointer to a destroyed cell counts as a member that is no cell. They carry over to the
pointers of the running program in the runs where no edge set holds such a pointer
(`ReachableBySetCell.program_edges`), and fail there once the allocator gives the block
of a destroyed cell to a new one. -/

theorem cellAt_cleared (s : Sheet Num Ast) (pos q : Position) :
    ((Cell.Clear s pos).reset pos).cellAt q = if q = pos then none else s.cellAt q := by
  unfold Sheet.cellAt
  rw [find_reset, Cell.Clear, find_modify]
  by_cases h : q = pos
  · simp only [h, if_true]
    cases Table.find s.table_ pos <;> rfl
  · simp only [h, if_false]

theorem in_edges_cleared (s : Sheet Num Ast) (pos q : Position) :
    ((Cell.Clear s pos).reset pos).in_edges q = if q = pos then [] else s.in_edges q := by
  unfold Sheet.in_edges
  rw [cellAt_cleared]
  by_cases h : q = pos <;> simp [h]

theorem out_edges_cleared (s : Sheet Num Ast) (pos q : Position) :
    ((Cell.Clear s pos).reset pos).out_edges q = if q = pos then [] else s.out_edges q := by
  unfold Sheet.out_edges
  rw [cellAt_cleared]
  by_cases h : q = pos <;> simp [h]

theorem keys_cleared (s : Sheet Num Ast) (pos : Position) :
    ((Cell.Clear s pos).reset pos).keys = s.keys := by
  rw [keys_reset, Cell.Clear, keys_modify]

theorem live_of_mem_out_edges (s : Sheet Num Ast) (a b : Position)
    (h : b ∈ s.out_edges a) : (s.cellAt a).isSome = true := by
  unfold Sheet.out_edges at h
  cases hc : s.cellAt a with
  | none => simp [hc] at h
  | some c => rfl

theorem live_of_mem_in_edges (s : Sheet Num Ast) (a b : Position)
    (h : b ∈ s.in_edges a) : (s.cellAt a).isSome = true := by
  unfold Sheet.in_edges at h
  cases hc : s.cellAt a with
  | none => simp [hc] at h
  | some c => rfl

theorem Acyclic_of_subgraph (s s1 : Sheet Num Ast)
    (h : ∀ x y, y ∈ s1.out_edges x → y ∈ s.out_edges x) (hs : s.Acyclic) : s1.Acyclic := by
  intro a hc
  exact hs a (Relation.TransGen.mono h hc)

theorem EdgesKeyed_cleared (s : Sheet Num Ast) (pos : Position) (hs : s.EdgesKeyed) :
    ((Cell.Clear s pos).reset pos).EdgesKeyed := by
  intro q x hx
  rw [keys_cleared]
  rw [in_edges_cleared, out_edges_cleared] at hx
  by_cases h : q = pos
  · simp [h] at hx
  · simp only [h, if_false] at hx
    exact hs q x hx

theorem EdgesMatch_cleared (s : Sheet Num Ast) (pos : Position) (hs : s.EdgesMatch) :
    ((Cell.Clear s pos).reset pos).EdgesMatch := by
  intro a b ha hb
  rw [cellAt_cleared] at ha hb
  have ha1 : a ≠ pos := fun h => by simp [h] at ha
  have hb1 : b ≠ pos := fun h => by simp [h] at hb
  rw [if_neg ha1] at ha
  rw [if_neg hb1] at hb
  rw [in_edges_cleared, out_edges_cleared, if_neg ha1, if_neg hb1]
  exact hs a b ha hb

theorem Acyclic_cleared (s : Sheet Num Ast) (pos : Position) (hs : s.Acyclic) :
    ((Cell.Clear s pos).reset pos).Acyclic := by
  apply Acyclic_of_subgraph s _ _ hs
  intro x y hy
  rw [out_edges_cleared] at hy
  by_cases h : x = pos
  · simp [h] at hy
  · simpa [h] using hy

theorem mem_keys_ensureEntry (s : Sheet Num Ast) (pos x : Position) (h : x ∈ s.keys) :
    x ∈ (s.ensureEntry pos).keys := by
  rw [keys_ensureEntry]
  by_cases hp : pos ∈ s.keys
  · rwa [if_pos hp]
  · rw [if_neg hp]
    exact List.mem_cons_of_mem _ h

theorem EdgesKeyed_ensureEntry (s : Sheet Num Ast) (pos : Position) (hs : s.EdgesKeyed) :
    (s.ensureEntry pos).EdgesKeyed := by
  intro q x hx
  rw [ensureEntry_in_edges, ensureEntry_out_edges] at hx
  exact mem_keys_ensureEntry s pos x (hs q x hx)

theorem Acyclic_ensureEntry (s : Sheet Num Ast) (pos : Position) (hs : s.Acyclic) :
    (s.ensureEntry pos).Acyclic := by
  apply Acyclic_of_subgraph s _ _ hs
  intro x y hy
  rwa [ensureEntry_out_edges] at hy

theorem EdgesMatch_ensureEntry (s : Sheet Num Ast) (pos : Position) (hk : s.EdgesKeyed)
    (hs : s.EdgesMatch) : (s.ensureEntry pos).EdgesMatch := by
  intro a b ha hb
  rw [ensureEntry_in_edges, ensureEntry_out_edges]
  rw [cellAt_ensureEntry] at ha hb
  by_cases hn : (Table.find s.table_ pos).isNone = true
  · have hpos : pos ∉ s.keys := by
      rw [← find_eq_none_iff]
      exact Option.isNone_iff_eq_none.1 hn
    have hdead : s.cellAt pos = none := by
      cases hc : s.cellAt pos with
      | none => rfl
      | some c => exact absurd (mem_keys_of_live s pos (by simp [hc])) hpos
    by_cases h1 : pos = a
    · subst h1
      constructor
      · intro h
        have := live_of_mem_out_edges s _ _ h
        simp [hdead] at this
      · intro h
        exact absurd (hk b _ (Or.inl h)) hpos
    · by_cases h2 : pos = b
      · subst h2
        constructor
        · intro h
          exact absurd (hk a _ (Or.inr h)) hpos
        · intro h
          have := live_of_mem_in_edges s _ _ h
          simp [hdead] at this
      · simp only [h1, h2, and_false, if_false] at ha hb
        exact hs a b ha hb
  · simp only [hn, false_and, if_false] at ha hb
    exact hs a b ha hb

theorem mem_keys_foldl_linkStep (self x : Position) (refs : List Position) :
    ∀ s : Sheet Num Ast, x ∈ s.keys → x ∈ (refs.foldl (linkStep self) s).keys := by
  induction refs with
  | nil => exact fun s h => h
  | cons pos rest ih =>
    intro s h
    rw [List.foldl_cons]
    apply ih
    rw [linkStep, keys_modify, keys_modify]
    exact mem_keys_ensureEntry s pos x h

theorem mem_keys_committed (H : Host Num Ast) (s : Sheet Num Ast) (self : Position)
    (impl : Impl Num Ast) (old_r : List Position) (x : Position) (h : x ∈ s.keys) :
    x ∈ (s.committed H self impl old_r).keys := by
  unfold Sheet.committed
  apply mem_keys_foldl_linkStep
  unfold Sheet.unlinked
  rwa [keys_modify, keys_mapCells, keys_modify]

theorem absent_of_materialized (H : Host Num Ast) (s : Sheet Num Ast) (self : Position)
    (impl : Impl Num Ast) (old_r : List Position) (q : Position)
    (hlive : ((s.committed H self impl old_r).cellAt q).isSome = true)
    (hdead : (s.cellAt q).isSome = false) : q ∉ s.keys := by
  have h1 := notNull_of_foldl_live self q (impl.GetReferencedCells H)
    (s.unlinked self impl old_r) hlive
  have h2 := (unlinked_notNull s self impl old_r q).1 h1
  rw [← find_eq_none_iff]
  unfold Sheet.NotNull at h2
  unfold Sheet.cellAt at hdead
  cases hf : Table.find s.table_ q with
  | none => rfl
  | some v =>
    cases v with
    | none => exact absurd hf h2
    | some c => simp [hf] at hdead

theorem cycle_through (R : Position → Position → Prop) (self : Position)
    (refs : Position → Prop) (a : Position)
    (h : Relation.TransGen (fun x y => (x ≠ self ∧ R x y) ∨ (x = self ∧ refs y)) a a) :
    Relation.TransGen R a a ∨
      ∃ r, refs r ∧ Relation.ReflTransGen (fun x y => x ≠ self ∧ R x y) r self := by
  have key1 : ∀ b, Relation.TransGen
      (fun x y => (x ≠ self ∧ R x y) ∨ (x = self ∧ refs y)) a b →
      Relation.TransGen (fun x y => x ≠ self ∧ R x y) a b ∨
        (Relation.ReflTransGen (fun x y => (x ≠ self ∧ R x y) ∨ (x = self ∧ refs y)) a self ∧
          Relation.TransGen (fun x y => (x ≠ self ∧ R x y) ∨ (x = self ∧ refs y)) self b) := by
    intro b hb
    induction hb with
    | single e =>
      rcases e with e | ⟨e1, e2⟩
      · exact Or.inl (Relation.TransGen.single e)
      · subst e1
        exact Or.inr ⟨Relation.ReflTransGen.refl, Relation.TransGen.single (Or.inr ⟨rfl, e2⟩)⟩
    | tail hab e ih =>
      rcases ih with ih | ⟨ih1, ih2⟩
      · rcases e with e | ⟨e1, e2⟩
        · exact Or.inl (Relation.TransGen.tail ih e)
        · subst e1
          exact Or.inr ⟨hab.to_reflTransGen, Relation.TransGen.single (Or.inr ⟨rfl, e2⟩)⟩
      · exact Or.inr ⟨ih1, Relation.TransGen.tail ih2 e⟩
  have key2 : ∀ x b, Relation.TransGen
      (fun x y => (x ≠ self ∧ R x y) ∨ (x = self ∧ refs y)) x b →
      Relation.TransGen (fun x y => x ≠ self ∧ R x y) x b ∨
        ∃ r, refs r ∧ Relation.ReflTransGen (fun x y => x ≠ self ∧ R x y) r b := by
    intro x b hb
    induction hb with
    | single e =>
      rcases e with e | ⟨_, e2⟩
      · exact Or.inl (Relation.TransGen.single e)
      · exact Or.inr ⟨_, e2, Relation.ReflTransGen.refl⟩
    | tail _ e ih =>
      rcases e with e | ⟨_, e2⟩
      · rcases ih with ih | ⟨r, hr, ih⟩
        · exact Or.inl (Relation.TransGen.tail ih e)
        · exact Or.inr ⟨r, hr, Relation.ReflTransGen.tail ih e⟩
      · exact Or.inr ⟨_, e2, Relation.ReflTransGen.refl⟩
  rcases key1 a h with h1 | ⟨h1, h2⟩
  · exact Or.inl (Relation.TransGen.mono (fun _ _ e => e.2) h1)
  · rcases key2 self self (Relation.TransGen.trans_left h2 h1) with h3 | h3
    · obtain ⟨b, hb, _⟩ := Relation.TransGen.head'_iff.1 h3
      exact absurd rfl hb.1
    · exact Or.inr h3

theorem dependsOn_of_out_path (s : Sheet Num Ast) (hm : s.EdgesMatch) (self : Position)
    (hself : (s.cellAt self).isSome = true) (r : Position)
    (h : Relation.ReflTransGen (fun x y => x ≠ self ∧ y ∈ s.out_edges x) r self) :
    (s.cellAt r).isSome = true ∧ s.DependsOn self r := by
  induction h using Relation.ReflTransGen.head_induction_on with
  | refl => exact ⟨hself, Relation.ReflTransGen.refl⟩
  | head e _ ih =>
    have hl := live_of_mem_out_edges s _ _ e.2
    exact ⟨hl, Relation.ReflTransGen.tail ih.2 ((hm _ _ hl ih.1).1 e.2)⟩

theorem not_circular_spec (H : Host Num Ast) (s : Sheet Num Ast) (self : Position)
    (impl : Impl Num Ast) (h : Cell.IsCircularDependent H s self impl = .ok false)
    (r : Position) (hr : r ∈ impl.GetReferencedCells H) (hl : (s.cellAt r).isSome = true) :
    ¬ s.DependsOn self r := by
  intro hdep
  rw [IsCircularDependent_eq] at h
  have hne : impl.GetReferencedCells H ≠ [] := by
    intro h0
    rw [h0] at hr
    simp at hr
  rw [if_neg hne] at h
  obtain ⟨V, _, h2, h3⟩ := loop_complete s _ _ [] [self] h (by simp)
  have hrV : r ∈ V :=
    closed_of_dependsOn s V (fun v hv => (h3 v hv).2) self r (h2 self (by simp)) hdep
  exact (h3 r hrV).1 ((mem_referenced s (impl.GetReferencedCells H) r).2 ⟨hr, hl⟩)

theorem EdgesKeyed_committed (H : Host Num Ast) (s : Sheet Num Ast) (self : Position)
    (impl : Impl Num Ast) (old : Cell Num Ast) (hself : s.cellAt self = some old)
    (hlive : ∀ pos ∈ impl.GetReferencedCells H,
      ((s.committed H self impl old.r_nodes_).cellAt pos).isSome = true)
    (hs : s.EdgesKeyed) : (s.committed H self impl old.r_nodes_).EdgesKeyed := by
  intro q x hx
  have hF := committed_facts H s self impl old hself hlive q
  have hselfk : self ∈ s.keys := mem_keys_of_live s self (by rw [hself]; rfl)
  rcases hx with hx | hx
  · rcases (hF.2.2.1 x).1 hx with ⟨h1, _⟩ | ⟨h1, _⟩
    · exact mem_keys_committed H s self impl _ x (hs q x (Or.inl h1))
    · rw [h1]
      exact mem_keys_committed H s self impl _ self hselfk
  · rcases (hF.2.2.2 x).1 hx with ⟨_, h1⟩ | ⟨_, h1⟩
    · exact mem_keys_committed H s self impl _ x (hs q x (Or.inr h1))
    · exact mem_keys_of_live _ x (hlive x h1)

theorem EdgesMatch_committed (H : Host Num Ast) (s : Sheet Num Ast) (self : Position)
    (impl : Impl Num Ast) (old : Cell Num Ast) (hself : s.cellAt self = some old)
    (hlive : ∀ pos ∈ impl.GetReferencedCells H,
      ((s.committed H self impl old.r_nodes_).cellAt pos).isSome = true)
    (hk : s.EdgesKeyed) (hs : s.EdgesMatch) :
    (s.committed H self impl old.r_nodes_).EdgesMatch := by
  intro a b ha hb
  have hFa := committed_facts H s self impl old hself hlive a
  have hFb := committed_facts H s self impl old hself hlive b
  have hselfl : (s.cellAt self).isSome = true := by rw [hself]; rfl
  rw [hFa.2.2.2 b, hFb.2.2.1 a]
  have old_edge : ∀ x y, ((s.committed H self impl old.r_nodes_).cellAt x).isSome = true →
      ((s.committed H self impl old.r_nodes_).cellAt y).isSome = true →
      (y ∈ s.out_edges x ↔ x ∈ s.in_edges y) := by
    intro x y hx hy
    by_cases hx1 : (s.cellAt x).isSome = true
    · by_cases hy1 : (s.cellAt y).isSome = true
      · exact hs x y hx1 hy1
      · have hy2 := absent_of_materialized H s self impl _ y hy (by simpa using hy1)
        constructor
        · exact fun h => absurd (hk x y (Or.inr h)) hy2
        · intro h
          exact absurd (live_of_mem_in_edges s _ _ h) hy1
    · have hx2 := absent_of_materialized H s self impl _ x hx (by simpa using hx1)
      constructor
      · intro h
        exact absurd (live_of_mem_out_edges s _ _ h) hx1
      · exact fun h => absurd (hk y x (Or.inl h)) hx2
  have hE := old_edge a b ha hb
  by_cases h1 : a = self
  · subst h1
    constructor
    · rintro (⟨h2, _⟩ | ⟨_, h2⟩)
      · exact absurd rfl h2
      · exact Or.inr ⟨rfl, h2⟩
    · rintro (⟨h2, h3⟩ | ⟨_, h2⟩)
      · exact absurd rfl (h3 (hE.2 h2))
      · exact Or.inr ⟨rfl, h2⟩
  · constructor
    · rintro (⟨_, h2⟩ | ⟨h2, _⟩)
      · exact Or.inl ⟨hE.1 h2, fun _ => h1⟩
      · exact absurd h2 h1
    · rintro (⟨h2, _⟩ | ⟨h2, _⟩)
      · exact Or.inl ⟨h1, hE.2 h2⟩
      · exact absurd h2 h1

theorem Acyclic_committed (H : Host Num Ast) (s : Sheet Num Ast) (self : Position)
    (impl : Impl Num Ast) (old : Cell Num Ast) (hself : s.cellAt self = some old)
    (hlive : ∀ pos ∈ impl.GetReferencedCells H,
      ((s.committed H self impl old.r_nodes_).cellAt pos).isSome = true)
    (hnc : Cell.IsCircularDependent H s self impl = .ok false)
    (hm : s.EdgesMatch) (hs : s.Acyclic) :
    (s.committed H self impl old.r_nodes_).Acyclic := by
  intro a hc
  have hselfl : (s.cellAt self).isSome = true := by rw [hself]; rfl
  have hc2 : Relation.TransGen (fun x y => (x ≠ self ∧ y ∈ s.out_edges x) ∨
      (x = self ∧ y ∈ impl.GetReferencedCells H)) a a := by
    refine Relation.TransGen.mono ?_ hc
    intro x y hxy
    exact ((committed_facts H s self impl old hself hlive x).2.2.2 y).1 hxy
  rcases cycle_through (fun x y => y ∈ s.out_edges x) self
      (fun y => y ∈ impl.GetReferencedCells H) a hc2 with h1 | ⟨r, hr, hpath⟩
  · exact hs a h1
  · obtain ⟨hl, hdep⟩ := dependsOn_of_out_path s hm self hselfl r hpath
    exact not_circular_spec H s self impl hnc r hr hl hdep

theorem EdgesKeyed_dropCaches (W : List Position) (s : Sheet Num Ast) (h : s.EdgesKeyed) :
    (s.dropCaches W).EdgesKeyed := by
  intro q x hx
  rw [dropCaches_in_edges, dropCaches_out_edges] at hx
  rw [keys_dropCaches]
  exact h q x hx

theorem EdgesMatch_dropCaches (W : List Position) (s : Sheet Num Ast) (h : s.EdgesMatch) :
    (s.dropCaches W).EdgesMatch := by
  intro a b ha hb
  rw [dropCaches_live] at ha hb
  rw [dropCaches_in_edges, dropCaches_out_edges]
  exact h a b ha hb

theorem Acyclic_dropCaches (W : List Position) (s : Sheet Num Ast) (h : s.Acyclic) :
    (s.dropCaches W).Acyclic := by
  apply Acyclic_of_subgraph s _ _ h
  intro x y hy
  rwa [dropCaches_out_edges] at hy

theorem edge_invariants_SetCell (H : Host Num Ast) (s s1 : Sheet Num Ast) (pos : Position)
    (text : String) (h : (s.SetCell H pos text).state? = some s1)
    (hs : s.EdgesKeyed ∧ s.EdgesMatch ∧ s.Acyclic) :
    s1.EdgesKeyed ∧ s1.EdgesMatch ∧ s1.Acyclic := by
  obtain ⟨hk, hm, ha⟩ := hs
  have hk1 := EdgesKeyed_ensureEntry s pos hk
  have hm1 := EdgesMatch_ensureEntry s pos hk hm
  have ha1 := Acyclic_ensureEntry s pos ha
  cases hr : s.SetCell H pos text with
  | ok a s2 =>
    rw [hr] at h
    simp only [Outcome.state?, Option.some.injEq] at h
    subst h
    obtain ⟨_, impl, old, W, _, hnc, hold, h4, hlive⟩ := SetCell_ok H s s2 pos text a hr
    rw [h4]
    exact ⟨EdgesKeyed_dropCaches W _ (EdgesKeyed_committed H _ pos impl old hold hlive hk1),
      EdgesMatch_dropCaches W _ (EdgesMatch_committed H _ pos impl old hold hlive hk1 hm1),
      Acyclic_dropCaches W _ (Acyclic_committed H _ pos impl old hold hlive hnc hm1 ha1)⟩
  | threw e s2 =>
    rw [hr] at h
    simp only [Outcome.state?, Option.some.injEq] at h
    subst h
    rcases SetCell_threw H s s2 pos text e hr with ⟨_, _, h3⟩ | ⟨_, h3, _⟩
    · rw [h3]
      exact ⟨hk, hm, ha⟩
    · rw [h3]
      exact ⟨hk1, hm1, ha1⟩
  | undefined f =>
    rw [hr] at h
    simp [Outcome.state?] at h

theorem edge_invariants_ClearCell (H : Host Num Ast) (s s1 : Sheet Num Ast)
    (pos : Position) (h : (s.ClearCell H pos).state? = some s1)
    (hs : s.EdgesKeyed ∧ s.EdgesMatch ∧ s.Acyclic) :
    s1.EdgesKeyed ∧ s1.EdgesMatch ∧ s1.Acyclic := by
  rcases ClearCell_state H s s1 pos h with h1 | h1
  · rw [h1]
    exact hs
  · rw [h1]
    exact ⟨EdgesKeyed_cleared s pos hs.1, EdgesMatch_cleared s pos hs.2.1,
      Acyclic_cleared s pos hs.2.2⟩

theorem ReachableByEdits.edge_invariants (H : Host Num Ast) (s : Sheet Num Ast)
    (h : ReachableByEdits H s) : s.EdgesKeyed ∧ s.EdgesMatch ∧ s.Acyclic := by
  induction h with
  | empty =>
    refine ⟨?_, ?_, ?_⟩
    · intro q x hx
      simp [Sheet.in_edges, Sheet.out_edges, Sheet.cellAt, Sheet.empty, Table.find] at hx
    · intro a b ha
      simp [Sheet.cellAt, Sheet.empty, Table.find] at ha
    · intro a hc
      obtain ⟨b, hb, _⟩ := Relation.TransGen.head'_iff.1 hc
      simp [Sheet.out_edges, Sheet.cellAt, Sheet.empty, Table.find] at hb
  | setCell pos text _ hstep ih => exact edge_invariants_SetCell H _ _ pos text hstep ih
  | clearCell pos _ hstep ih => exact edge_invariants_ClearCell H _ _ pos hstep ih

theorem ReachableBySetCell.reachableByEdits (H : Host Num Ast) (s : Sheet Num Ast)
    (h : ReachableBySetCell H s) : ReachableByEdits H s := by
  induction h with
  | empty => exact .empty
  | setCell pos text _ hstep ih => exact .setCell pos text ih hstep

theorem outEdge_iff (s : Sheet Num Ast) (addr : Position → Nat) (ho : s.OutEdgesLive)
    (hd : s.AddressesDistinct addr) (a b : Position) :
    s.outEdge addr a b ↔ b ∈ s.out_edges a := by
  constructor
  · rintro ⟨hb, x, hx, hxb⟩
    have hlx := ho a x hx
    have := hd x (mem_keys_of_live s x hlx) b (mem_keys_of_live s b hb) hlx hb hxb
    rwa [this] at hx
  · intro h
    exact ⟨ho a b h, b, h, rfl⟩

theorem inEdge_iff (s : Sheet Num Ast) (addr : Position → Nat) (hi : s.InEdgesLive)
    (hd : s.AddressesDistinct addr) (b a : Position) :
    s.inEdge addr b a ↔ a ∈ s.in_edges b := by
  constructor
  · rintro ⟨ha, x, hx, hxa⟩
    have hlx := hi b x hx
    have := hd x (mem_keys_of_live s x hlx) a (mem_keys_of_live s a ha) hlx ha hxa
    rwa [this] at hx
  · intro h
    exact ⟨hi b a h, a, h, rfl⟩

theorem ReachableBySetCell.program_edges (H : Host Num Ast) (s : Sheet Num Ast)
    (h : ReachableBySetCell H s) (addr : Position → Nat) (hd : s.AddressesDistinct addr) :
    (∀ a, ¬ Relation.TransGen (s.outEdge addr) a a) ∧
      ∀ a b, (s.cellAt a).isSome = true → (s.cellAt b).isSome = true →
        (s.outEdge addr a b ↔ s.inEdge addr b a) := by
  obtain ⟨_, hi, ho⟩ := ReachableBySetCell.sound H s h
  obtain ⟨_, hm, hac⟩ := ReachableByEdits.edge_invariants H s
    (ReachableBySetCell.reachableByEdits H s h)
  constructor
  · intro a hc
    exact hac a (Relation.TransGen.mono (fun x y e => (outEdge_iff s addr ho hd x y).1 e) hc)
  · intro a b ha hb
    rw [outEdge_iff s addr ho hd, inEdge_iff s addr hi hd]
    exact hm a b ha hb

/-- C17, at the failing input: after `SetCell(A1, "=B1")`, `ClearCell(B1)` destroys the
cell `B1` and leaves the pointer to it in the `r_nodes_` of `A1`; `SetCell(C3, "=A1")`
then creates the cell `C3` and returns, without dereferencing that pointer. When the
allocator gives `C3` the block of `B1`, the stale pointer in the `out_edges` of `A1` is
the address of `C3`, whose `out_edges` hold `A1`: the cell `A1` reaches itself. -/
theorem stale_pointer_closes_cycle :
    (Sheet.empty : Sheet Int (List Operand)).SetCell sumHost A1 "=B1" =
        .ok () sheetA1refB1 ∧
      sheetA1refB1.ClearCell sumHost B1 = .ok () sheetDanglingB1 ∧
      sheetDanglingB1.SetCell sumHost C3 "=A1" = .ok () sheetReusedB1 ∧
      sheetReusedB1.out_edges A1 = [B1] ∧ sheetReusedB1.cellAt B1 = none ∧
      sheetReusedB1.out_edges C3 = [A1] ∧
      sheetReusedB1.AddressesDistinct reusedBlock ∧ reusedBlock B1 = reusedBlock C3 ∧
      (∀ addr : Position → Nat, addr B1 = addr C3 →
        sheetReusedB1.outEdge addr A1 C3 ∧ sheetReusedB1.outEdge addr C3 A1 ∧
        Relation.TransGen (sheetReusedB1.outEdge addr) A1 A1) ∧
      Relation.TransGen (sheetReusedB1.outEdge reusedBlock) A1 A1 := by
  have key : ∀ addr : Position → Nat, addr B1 = addr C3 →
      sheetReusedB1.outEdge addr A1 C3 ∧ sheetReusedB1.outEdge addr C3 A1 ∧
      Relation.TransGen (sheetReusedB1.outEdge addr) A1 A1 := by
    intro addr h
    have h1 : sheetReusedB1.outEdge addr A1 C3 := ⟨by decide, B1, by decide, h⟩
    have h2 : sheetReusedB1.outEdge addr C3 A1 := ⟨by decide, A1, by decide, rfl⟩
    exact ⟨h1, h2, Relation.TransGen.tail (Relation.TransGen.single h1) h2⟩
  refine ⟨by decide, by decide, by decide, by decide, by decide, by decide, ?_, by decide,
    key, (key reusedBlock (by decide)).2.2⟩
  unfold Sheet.AddressesDistinct
  decide

/-- C19, at the failing input: after `SetCell(A1, "=B1")`, `ClearCell(B1)` and
`SetCell(C3, "=A1")` the cells `A1` and `C3` exist. When the allocator gives `C3` the
block of the destroyed cell `B1`, the stale pointer in the `out_edges` of `A1` is the
address of `C3`, while the `in_edges` of `C3` are empty: `C3` is in the `out_edges` of
`A1` and `A1` is not in the `in_edges` of `C3`. -/
theorem stale_pointer_is_one_way_edge :
    runSetCells sumHost Sheet.empty [(A1, "=B1")] = some sheetA1refB1 ∧
      (sheetA1refB1.ClearCell sumHost B1).state? = some sheetDanglingB1 ∧
      runSetCells sumHost sheetDanglingB1 [(C3, "=A1")] = some sheetReusedB1 ∧
      (sheetReusedB1.cellAt A1).isSome = true ∧ (sheetReusedB1.cellAt C3).isSome = true ∧
      sheetReusedB1.in_edges C3 = [] ∧
      sheetReusedB1.AddressesDistinct reusedBlock ∧
      (∀ addr : Position → Nat, addr B1 = addr C3 →
        sheetReusedB1.outEdge addr A1 C3 ∧ ¬ sheetReusedB1.inEdge addr C3 A1) ∧
      sheetReusedB1.outEdge reusedBlock A1 C3 ∧
      ¬ sheetReusedB1.inEdge reusedBlock C3 A1 := by
  have hin : ∀ addr : Position → Nat, ¬ sheetReusedB1.inEdge addr C3 A1 := by
    rintro addr ⟨_, x, hx, _⟩
    have h0 : sheetReusedB1.in_edges C3 = [] := by decide
    rw [h0] at hx
    exact absurd hx (List.not_mem_nil x)
  have key : ∀ addr : Position → Nat, addr B1 = addr C3 →
      sheetReusedB1.outEdge addr A1 C3 ∧ ¬ sheetReusedB1.inEdge addr C3 A1 :=
    fun addr h => ⟨⟨by decide, B1, by decide, h⟩, hin addr⟩
  refine ⟨by decide, by decide, by decide, by decide, by decide, by decide, ?_, key,
    (key reusedBlock (by decide)).1, hin reusedBlock⟩
  unfold Sheet.AddressesDistinct
  decide

/-! ## The invalidation walk -/

theorem invalidateEach_closed (s0 : Sheet Num Ast)
    (call : Sheet Num Ast → Position → List Position →
      Outcome (Sheet Num Ast) (List Position))
    (hcall : ∀ (W : List Position) (dep : Position) (v v1 : List Position)
      (s1 : Sheet Num Ast), call (s0.dropCaches W) dep v = .ok v1 s1 →
      (∃ W1, s1 = s0.dropCaches W1) ∧ dep ∈ v1 ∧ (v.Nodup → v1.Nodup) ∧
        (∀ x ∈ v, x ∈ v1) ∧
        ∀ x ∈ v1, x ∈ v ∨ ((s0.cellAt x).isSome = true ∧ ∀ y ∈ s0.in_edges x, y ∈ v1)) :
    ∀ (l : List Position) (W : List Position) (v v1 : List Position) (s1 : Sheet Num Ast),
      invalidateEach call l (s0.dropCaches W) v = .ok v1 s1 →
      (∀ d ∈ l, d ∈ v1) ∧ (v.Nodup → v1.Nodup) ∧ (∀ x ∈ v, x ∈ v1) ∧
        ∀ x ∈ v1, x ∈ v ∨ ((s0.cellAt x).isSome = true ∧ ∀ y ∈ s0.in_edges x, y ∈ v1) := by
  intro l
  induction l with
  | nil =>
    intro W v v1 s1 h
    simp only [invalidateEach, Outcome.ok.injEq] at h
    rw [← h.1]
    exact ⟨by simp, id, fun _ hx => hx, fun _ hx => Or.inl hx⟩
  | cons dep rest ih =>
    intro W v v1 s1 h
    unfold invalidateEach at h
    cases hc : call (s0.dropCaches W) dep v with
    | ok v2 s2 =>
      simp only [hc] at h
      obtain ⟨⟨W1, hs2⟩, hd, hn, hsub, hcl⟩ := hcall _ _ _ _ _ hc
      rw [hs2] at h
      obtain ⟨hd2, hn2, hsub2, hcl2⟩ := ih _ _ _ _ h
      refine ⟨?_, fun hv => hn2 (hn hv), fun x hx => hsub2 x (hsub x hx), ?_⟩
      · intro d hdl
        rcases List.mem_cons.1 hdl with rfl | hdl
        · exact hsub2 _ hd
        · exact hd2 d hdl
      · intro x hx
        rcases hcl2 x hx with hx2 | hx2
        · rcases hcl x hx2 with hx3 | ⟨hx3, hx4⟩
          · exact Or.inl hx3
          · exact Or.inr ⟨hx3, fun y hy => hsub2 y (hx4 y hy)⟩
        · exact Or.inr hx2
    | threw e s2 => simp [hc] at h
    | undefined f => simp [hc] at h

theorem InvalidateCacheRecursive_closed (s0 : Sheet Num Ast) :
    ∀ (fuel : Nat) (W : List Position) (self : Position) (v v1 : List Position)
      (s1 : Sheet Num Ast),
      Cell.InvalidateCacheRecursive true fuel (s0.dropCaches W) self v = .ok v1 s1 →
      (∃ W1, s1 = s0.dropCaches W1) ∧ self ∈ v1 ∧ (v.Nodup → v1.Nodup) ∧
        (∀ x ∈ v, x ∈ v1) ∧
        ∀ x ∈ v1, x ∈ v ∨ ((s0.cellAt x).isSome = true ∧ ∀ y ∈ s0.in_edges x, y ∈ v1) := by
  intro fuel
  induction fuel with
  | zero =>
    intro W self v v1 s1 h
    simp [Cell.InvalidateCacheRecursive] at h
  | succ fuel ih =>
    intro W self v v1 s1 h
    have hW : ∃ W1, s1 = s0.dropCaches W1 := by
      obtain ⟨W2, _, h2⟩ := InvalidateCacheRecursive_ok _ _ _ _ _ _ h
      exact ⟨W2 ++ W, by rw [h2, dropCaches_dropCaches]⟩
    unfold Cell.InvalidateCacheRecursive at h
    by_cases hv : self ∈ v
    · simp only [hv, if_true, Outcome.ok.injEq] at h
      rw [← h.1]
      exact ⟨hW, hv, id, fun _ hx => hx, fun _ hx => Or.inl hx⟩
    · simp only [hv, if_false] at h
      cases hc : (s0.dropCaches W).cellAt self with
      | none => simp [hc] at h
      | some c =>
        simp only [hc, Bool.or_true, if_true] at h
        rw [modify_invalidate, dropCaches_dropCaches] at h
        have hlive : (s0.cellAt self).isSome = true := by
          rw [← dropCaches_live W s0 self, hc]
          rfl
        have hin : s0.in_edges self = c.l_nodes_ := by
          rw [← dropCaches_in_edges W s0 self]
          simp [Sheet.in_edges, hc]
        obtain ⟨hd, hn, hsub, hcl⟩ := invalidateEach_closed s0 _ (ih) _ _ _ _ _ h
        refine ⟨hW, hsub self (List.mem_cons_self _ _),
          fun hnd => hn (List.nodup_cons.2 ⟨hv, hnd⟩),
          fun x hx => hsub x (List.mem_cons_of_mem _ hx), ?_⟩
        intro x hx
        rcases hcl x hx with hx2 | hx2
        · rcases List.mem_cons.1 hx2 with rfl | hx3
          · exact Or.inr ⟨hlive, fun y hy => hd y (by rwa [hin] at hy)⟩
          · exact Or.inl hx3
        · exact Or.inr hx2

theorem Set_ok_walk (H : Host Num Ast) (s s1 : Sheet Num Ast) (self : Position)
    (text : String) (a : Unit) (h : Sheet.Set H s self text = .ok a s1) :
    ∃ impl old v1, Cell.makeImpl H text = .ok impl ∧ s.cellAt self = some old ∧
      Cell.InvalidateCacheRecursive true
        ((s.committed H self impl old.r_nodes_).table_.length + 1)
        (s.committed H self impl old.r_nodes_) self [] = .ok v1 s1 := by
  unfold Sheet.Set Cell.Set at h
  cases hm : Cell.makeImpl H text with
  | error e0 => simp [hm] at h
  | ok impl =>
    simp only [hm] at h
    cases hc : Cell.IsCircularDependent H s self impl with
    | error a =>
      cases a with
      | threw e1 => exact absurd hc (IsCircularDependent_not_threw H s self impl e1)
      | undefined f => simp [hc] at h
    | ok b =>
      cases b with
      | true => simp [hc] at h
      | false =>
        simp only [hc] at h
        cases hs : s.cellAt self with
        | none => simp [hs] at h
        | some old =>
          simp only [hs] at h
          rw [Outcome.bind_eq_ok] at h
          obtain ⟨a2, s2, h2, h⟩ := h
          rw [Outcome.bind_eq_ok] at h
          obtain ⟨a4, s4, h4, h⟩ := h
          rw [Outcome.bind_eq_ok] at h
          obtain ⟨v5, s5, h5, h⟩ := h
          simp only [Outcome.ok.injEq] at h
          have e2 := eraseBackEdges_ok _ _ _ _ _ h2
          obtain ⟨e4, _⟩ := linkReferenced_ok H 0 self _ _ _ _
            (fun p hp => GetReferencedCells_valid H impl p hp) h4
          have e6 : s4 = s.committed H self impl old.r_nodes_ := by
            rw [e4, e2]
            rfl
          refine ⟨impl, old, v5, rfl, rfl, ?_⟩
          rw [← h.2, ← e6]
          exact h5

theorem SetCell_ok_walk (H : Host Num Ast) (s s1 : Sheet Num Ast) (pos : Position)
    (text : String) (a : Unit) (h : s.SetCell H pos text = .ok a s1) :
    ∃ impl old v1, Cell.makeImpl H text = .ok impl ∧
      (s.ensureEntry pos).cellAt pos = some old ∧
      Cell.InvalidateCacheRecursive true
        (((s.ensureEntry pos).committed H pos impl old.r_nodes_).table_.length + 1)
        ((s.ensureEntry pos).committed H pos impl old.r_nodes_) pos [] = .ok v1 s1 := by
  rw [SetCell_eq] at h
  by_cases hv : pos.IsValid H = true
  · rw [if_pos hv] at h
    cases hc : (s.ensureEntry pos).cellAt pos with
    | none => simp [hc] at h
    | some c =>
      simp only [hc] at h
      obtain ⟨impl, old, v1, h1, h2, h3⟩ := Set_ok_walk H _ _ _ _ _ h
      exact ⟨impl, old, v1, h1, hc.symm.trans h2, h3⟩
  · rw [if_neg hv] at h
    simp at h

theorem cache_InvalidateCache (i : Impl Num Ast) : i.InvalidateCache.cache = none := by
  cases i <;> rfl

theorem DependsOn_dropCaches (W : List Position) (s : Sheet Num Ast) (p q : Position) :
    (s.dropCaches W).DependsOn p q ↔ s.DependsOn p q := by
  unfold Sheet.DependsOn
  simp only [dropCaches_in_edges]

theorem walk_returns (s : Sheet Num Ast) (hl : s.InEdgesLive) (self : Position)
    (hself : (s.cellAt self).isSome = true) :
    ∃ v1 s1, Cell.InvalidateCacheRecursive true (s.table_.length + 1) s self [] =
      .ok v1 s1 := by
  obtain ⟨v1, W1, h, _⟩ := InvalidateCacheRecursive_defined s hl (s.table_.length + 1) []
    self [] (by rw [dropCaches_nil]; exact hself)
    (by
      have := countUnvisited_le s.keys []
      simp only [Sheet.keys, List.length_map] at this
      simp only [Sheet.keys]
      omega)
  rw [dropCaches_nil] at h
  exact ⟨v1, _, h⟩

theorem walk_spec (s s1 : Sheet Num Ast) (self : Position) (fuel : Nat)
    (v1 : List Position)
    (h : Cell.InvalidateCacheRecursive true fuel s self [] = .ok v1 s1) :
    v1.Nodup ∧ self ∈ v1 ∧ s1 = s.dropCaches v1 ∧ (∀ y, s.DependsOn self y → y ∈ v1) ∧
      ∀ y ∈ v1, (s.cellAt y).isSome = true := by
  obtain ⟨W, hW, hs1⟩ := InvalidateCacheRecursive_ok _ _ _ _ _ _ h
  have hW2 : v1 = W := by simpa using hW
  have h0 : Cell.InvalidateCacheRecursive true fuel (s.dropCaches []) self [] =
      .ok v1 s1 := by
    rw [dropCaches_nil]
    exact h
  obtain ⟨_, hself, hn, _, hcl⟩ := InvalidateCacheRecursive_closed s _ _ _ _ _ _ h0
  have hcl2 : ∀ x ∈ v1, (s.cellAt x).isSome = true ∧ ∀ y ∈ s.in_edges x, y ∈ v1 := by
    intro x hx
    rcases hcl x hx with hx2 | hx2
    · simp at hx2
    · exact hx2
  refine ⟨hn List.nodup_nil, hself, by rw [hW2, hs1], ?_, fun y hy => (hcl2 y hy).1⟩
  intro y hy
  exact closed_of_dependsOn s v1 (fun v hv => (hcl2 v hv).2) self y hself hy

theorem invalidateEach_total (s0 : Sheet Num Ast) (fuel : Nat)
    (call : Sheet Num Ast → Position → List Position →
      Outcome (Sheet Num Ast) (List Position))
    (hcall : ∀ (W : List Position) (dep : Position) (v : List Position),
      countUnvisited s0.keys v < fuel →
      (∃ v1 W1, call (s0.dropCaches W) dep v = .ok v1 (s0.dropCaches W1) ∧
        ∀ x ∈ v, x ∈ v1) ∨
      call (s0.dropCaches W) dep v = .undefined .danglingPointer) :
    ∀ (l : List Position) (W : List Position) (v : List Position),
      countUnvisited s0.keys v < fuel →
      (∃ v1 W1, invalidateEach call l (s0.dropCaches W) v = .ok v1 (s0.dropCaches W1) ∧
        ∀ x ∈ v, x ∈ v1) ∨
      invalidateEach call l (s0.dropCaches W) v = .undefined .danglingPointer := by
  intro l
  induction l with
  | nil =>
    intro W v _
    exact Or.inl ⟨v, W, rfl, fun x hx => hx⟩
  | cons dep rest ih =>
    intro W v hm
    rcases hcall W dep v hm with ⟨v1, W1, h1, hsub1⟩ | h1
    · rcases ih W1 v1 (lt_of_le_of_lt (countUnvisited_mono _ _ _ hsub1) hm) with
        ⟨v2, W2, h2, hsub2⟩ | h2
      · refine Or.inl ⟨v2, W2, ?_, fun x hx => hsub2 x (hsub1 x hx)⟩
        rw [invalidateEach, h1]
        exact h2
      · refine Or.inr ?_
        rw [invalidateEach, h1]
        exact h2
    · refine Or.inr ?_
      rw [invalidateEach, h1]

theorem InvalidateCacheRecursive_total (s0 : Sheet Num Ast) :
    ∀ (fuel : Nat) (W : List Position) (self : Position) (v : List Position),
      countUnvisited s0.keys v < fuel →
      (∃ v1 W1, Cell.InvalidateCacheRecursive true fuel (s0.dropCaches W) self v =
          .ok v1 (s0.dropCaches W1) ∧ ∀ x ∈ v, x ∈ v1) ∨
      Cell.InvalidateCacheRecursive true fuel (s0.dropCaches W) self v =
        .undefined .danglingPointer := by
  intro fuel
  induction fuel with
  | zero =>
    intro W self v h
    omega
  | succ fuel ih =>
    intro W self v hm
    rw [Cell.InvalidateCacheRecursive]
    by_cases hv : self ∈ v
    · rw [if_pos hv]
      exact Or.inl ⟨v, W, rfl, fun x hx => hx⟩
    · rw [if_neg hv]
      cases hc : (s0.dropCaches W).cellAt self with
      | none => exact Or.inr rfl
      | some c =>
        simp only [Bool.or_true, if_true]
        rw [modify_invalidate, dropCaches_dropCaches]
        have hself0 : (s0.cellAt self).isSome = true := by
          rw [← dropCaches_live W s0 self, hc]
          rfl
        have hlt := countUnvisited_visit s0.keys v self (mem_keys_of_live s0 self hself0) hv
        rcases invalidateEach_total s0 fuel (Cell.InvalidateCacheRecursive true fuel)
            (fun W dep v hm => ih W dep v hm) c.l_nodes_ ([self] ++ W) (self :: v)
            (by omega) with ⟨v1, W1, h1, hsub⟩ | h1
        · exact Or.inl ⟨v1, W1, h1, fun x hx => hsub x (List.mem_cons_of_mem _ hx)⟩
        · exact Or.inr h1

theorem walk_total (s : Sheet Num Ast) (self : Position) :
    (∃ v1 s1, Cell.InvalidateCacheRecursive true (s.table_.length + 1) s self [] =
      .ok v1 s1) ∨
    Cell.InvalidateCacheRecursive true (s.table_.length + 1) s self [] =
      .undefined .danglingPointer := by
  have h := InvalidateCacheRecursive_total s (s.table_.length + 1) [] self []
    (by
      have := countUnvisited_le s.keys []
      simp only [Sheet.keys, List.length_map] at this
      simp only [Sheet.keys]
      omega)
  rw [dropCaches_nil] at h
  rcases h with ⟨v1, W1, h1, _⟩ | h1
  · exact Or.inl ⟨v1, _, h1⟩
  · exact Or.inr h1

/-- C20. Forced transitive invalidation: after a successful `SetCell` on the cell `c`,
neither `c` nor any cell reached from `c` by following `in_edges` holds a cached value,
whatever the caches and the contents were before; the invalidation walk that `Set` runs
returns, enters each cell at most once, reaches every such cell, and changes only
caches: the entries, the text and the content apart from the cache, and both edge sets
of every cell are as the walk found them. On every sheet the walk ends within the
recursion depth the number of entries allows: it returns, or it stops at a pointer to a
destroyed cell; on every sheet whose `in_edges` lead to cells it returns. -/
theorem forced_transitive_invalidation (H : Host Num Ast) (s s1 : Sheet Num Ast)
    (c : Position) (text : String) (h : s.SetCell H c text = .ok () s1) :
    (∀ y, s1.DependsOn c y → ∃ i, s1.implAt y = some i ∧ i.cache = none) ∧
    (∃ impl old C v1, Cell.makeImpl H text = .ok impl ∧
      (s.ensureEntry c).cellAt c = some old ∧
      C = (s.ensureEntry c).committed H c impl old.r_nodes_ ∧
      Cell.InvalidateCacheRecursive true (C.table_.length + 1) C c [] = .ok v1 s1 ∧
      v1.Nodup ∧ c ∈ v1 ∧ (∀ y, s1.DependsOn c y → y ∈ v1) ∧ s1 = C.dropCaches v1 ∧
      s1.keys = C.keys ∧
      ∀ q, (s1.cellAt q).isSome = (C.cellAt q).isSome ∧
        s1.in_edges q = C.in_edges q ∧ s1.out_edges q = C.out_edges q ∧
        Cell.GetText H s1 q = Cell.GetText H C q ∧
        (s1.implAt q).map Impl.InvalidateCache = (C.implAt q).map Impl.InvalidateCache ∧
        (q ∉ v1 → s1.cellAt q = C.cellAt q)) ∧
    (∀ (t : Sheet Num Ast) (p : Position),
      (∃ v1 t1, Cell.InvalidateCacheRecursive true (t.table_.length + 1) t p [] =
        .ok v1 t1) ∨
      Cell.InvalidateCacheRecursive true (t.table_.length + 1) t p [] =
        .undefined .danglingPointer) ∧
    (∀ (t : Sheet Num Ast) (p : Position), t.InEdgesLive → (t.cellAt p).isSome = true →
      ∃ v1 t1, Cell.InvalidateCacheRecursive true (t.table_.length + 1) t p [] =
          .ok v1 t1 ∧ v1.Nodup ∧ t1 = t.dropCaches v1) := by
  obtain ⟨impl, old, v1, hm, hold, hw⟩ := SetCell_ok_walk H s s1 c text () h
  obtain ⟨hn, hc, hs1, hdep, hl⟩ := walk_spec _ _ _ _ _ hw
  have hdep1 : ∀ y, s1.DependsOn c y → y ∈ v1 := by
    intro y hy
    rw [hs1, DependsOn_dropCaches] at hy
    exact hdep y hy
  refine ⟨?_, ⟨impl, old, _, v1, hm, hold, rfl, hw, hn, hc, hdep1, hs1, ?_, ?_⟩,
    walk_total, ?_⟩
  · intro y hy
    have hy1 := hdep1 y hy
    have hy2 := hl y hy1
    cases hcy : ((s.ensureEntry c).committed H c impl old.r_nodes_).cellAt y with
    | none => simp [hcy] at hy2
    | some cy =>
      refine ⟨cy.impl_.InvalidateCache, ?_, cache_InvalidateCache _⟩
      rw [hs1, dropCaches_implAt]
      simp [Sheet.implAt, hcy, hy1]
  · rw [hs1, keys_dropCaches]
  · intro q
    rw [hs1]
    refine ⟨dropCaches_live _ _ _, dropCaches_in_edges _ _ _, dropCaches_out_edges _ _ _,
      dropCaches_GetText H _ _ _, ?_, ?_⟩
    · rw [dropCaches_implAt]
      cases ((s.ensureEntry c).committed H c impl old.r_nodes_).implAt q with
      | none => rfl
      | some i => by_cases hq : q ∈ v1 <;> simp [hq, InvalidateCache_idem]
    · intro hq
      rw [cellAt_dropCaches]
      cases ((s.ensureEntry c).committed H c impl old.r_nodes_).cellAt q with
      | none => rfl
      | some cq => simp [hq]
  · intro t p ht hp
    obtain ⟨v2, t1, h2⟩ := walk_returns t ht p hp
    obtain ⟨hn2, _, ht1, _⟩ := walk_spec _ _ _ _ _ h2
    exact ⟨v2, t1, h2, hn2, ht1⟩

/-- The scenario of the invalidation: with `A1 = "=B1+1"` and `B1 = "5"` the value of
`A1` is 6 and is cached; `SetCell(B1, "7")` drops the cache of `A1`, whose value is then
8. In the diamond, where `A1` depends on `A2` through `B1` and through `C3`, the walk
from `A2` enters `A1` once and drops all three caches. -/
theorem forced_transitive_invalidation_witness :
    runSetCells sumHost Sheet.empty [(A1, "=B1+1"), (B1, "5")] =
        some (sheetA1addsB1 "5" none) ∧
      Cell.GetValue sumHost (sheetA1addsB1 "5" none) A1 =
        .ok (.number 6) (sheetA1addsB1 "5" (some (.number 6))) ∧
      (sheetA1addsB1 "5" (some (.number 6))).SetCell sumHost B1 "7" =
        .ok () (sheetA1addsB1 "7" none) ∧
      Cell.GetValue sumHost (sheetA1addsB1 "7" none) A1 =
        .ok (.number 8) (sheetA1addsB1 "7" (some (.number 8))) ∧
      (sheetA1addsB1 "7" none).DependsOn B1 A1 ∧
      (∀ y, (sheetA1addsB1 "7" none).DependsOn B1 y →
        ∃ i, (sheetA1addsB1 "7" none).implAt y = some i ∧ i.cache = none) ∧
      runSetCells sumHost Sheet.empty
          [(A1, "=B1+C3"), (B1, "=A2"), (C3, "=A2"), (A2, "1")] =
        some (sheetDiamond "1" none none) ∧
      Cell.GetValue sumHost (sheetDiamond "1" none none) A1 =
        .ok (.number 2) (sheetDiamond "1" (some (.number 2)) (some (.number 1))) ∧
      Cell.InvalidateCacheRecursive true 5
          (sheetDiamond "2" (some (.number 2)) (some (.number 1))) A2 [] =
        .ok [B1, A1, C3, A2] (sheetDiamond "2" none none) ∧
      (sheetDiamond "1" (some (.number 2)) (some (.number 1))).SetCell sumHost A2 "2" =
        .ok () (sheetDiamond "2" none none) ∧
      Cell.GetValue sumHost (sheetDiamond "2" none none) A1 =
        .ok (.number 4) (sheetDiamond "2" (some (.number 4)) (some (.number 2))) :=
  have h : (sheetA1addsB1 "5" (some (.number 6))).SetCell sumHost B1 "7" =
      .ok () (sheetA1addsB1 "7" none) := by decide
  ⟨by decide, by decide, h, by decide,
    Relation.ReflTransGen.single (by decide),
    (forced_transitive_invalidation sumHost _ _ B1 "7" h).1,
    by decide, by decide, by decide, by decide, by decide⟩

end Properties

end Spreadsheet
